import Mathlib

/-!
# ValgrindedSockets: the handle registry of `src/main.cpp`

A shallow embedding of `struct Socket` and of the global registry
`sSocketPtrs`, followed by the properties of handle allocation, handle
resolution, `Close`, and the polling loop `read`.

Modelling choices (all taken from the source):

* `std::shared_ptr` / `std::weak_ptr` are modelled by an explicit heap of
  control blocks.  A control block stores the `Socket` members together with
  the strong use count; a count of `0` means the destructor has run.
* `size_t` values are `Nat`: the only `size_t` arithmetic is `vector::size()`
  and the loop counter `i < seconds * 10U`, neither of which can wrap.
* `LOG(x)` appends one line to a global trace.  The time stamp is dropped;
  the thread that logs is kept.  Polls of `m_quit` and calls of `sleep_for`
  are recorded in the same trace, so that the runs of `read` can be counted.
* Three machines are built on the same primitive actions.
  The general machine (`gstep`) is the reference: any number of threads call
  `Open` and `Close`, every call advances one action at a time (an action is
  what the source makes indivisible: a critical section, an atomic load or
  store, the creation of a thread, the destruction of a `shared_ptr`), and
  the detached threads move between any two actions of a call.  In particular
  a call still holds its local strong reference `s` while a detached thread
  polls, sleeps or drops `self`.  Everything that is stated about what the
  detached threads and the calls do to each other is stated on this machine.
  The concurrent machine (`cstep`) is its restriction to calls of `Open`.
  The sequential machine (`step`) is the special case in which one thread
  makes the calls and no call is interrupted: `Socket.Open` and `Socket.Close`
  are the uninterrupted runs of the actions of the general machine
  (`uninterrupted_Open`, `uninterrupted_Close`), and every run of the
  sequential machine is a run of the general machine
  (`exec_refines_general`).  It is used for what is stated about sequential
  runs and about one call taken by itself.
* `vector::at` can throw, so `Close` returns in `Except`.
-/

namespace ValgrindedSockets

/-! ## Data model -/

/-- Threads that can emit a log line. -/
inductive Thread
  | caller (t : Nat)
  | worker (k : Nat)
  deriving DecidableEq, Repr

/-- The payloads `x` of the `LOG(x)` statements of `main.cpp`. -/
inductive Msg
  | constructed (handle : Nat)
  | destructed (handle : Nat)
  | alreadyDeleted (handle : Nat)
  | readingFor (seconds : Nat)
  | quittingEarly
  | stillReading
  deriving DecidableEq, Repr

/-- The text streamed by each `LOG(x)`. -/
def Msg.render : Msg → String
  | .constructed h => "Socket " ++ toString h ++ " constructed"
  | .destructed h => "Socket " ++ toString h ++ " destructed"
  | .alreadyDeleted h => "Socket " ++ toString h ++ " has already been deleted"
  | .readingFor s => "Reading for " ++ toString s ++ " seconds"
  | .quittingEarly => "Quitting read early"
  | .stillReading => "Still reading..."

/-- Observable events: log lines, and the two actions of the polling loop. -/
inductive Event
  | log (who : Thread) (msg : Msg)
  | load (k : Nat) (quit : Bool)
  | sleep (k : Nat) (ms : Nat)
  deriving DecidableEq, Repr

/-- A `Socket` inside its `make_shared` control block: the two data members
and the strong use count (`0` once `~Socket()` has run). -/
structure Socket where
  m_handle : Nat
  m_quit : Bool
  useCount : Nat
  deriving DecidableEq, Repr

/-- A `std::weak_ptr<Socket>`: empty, or attached to the control block at an
address of the heap. -/
abbrev WeakPtr := Option Nat

/-- Program counter of a detached thread running `self->read()`. -/
inductive Pc
  | start
  | loopHead (i : Nat)
  | sleeping (i : Nat)
  | returned
  | done
  deriving DecidableEq, Repr

/-- A detached thread created by `run()`: the captured `self` and where it is
in `read()`. -/
structure Worker where
  self : Nat
  pc : Pc
  deriving DecidableEq, Repr

/-- Global state of the process. -/
structure State where
  sSocketPtrs : List WeakPtr
  heap : List Socket
  workers : List Worker
  trace : List Event
  deriving DecidableEq, Repr

/-- `std::vector<std::weak_ptr<Socket>> sSocketPtrs(1, std::weak_ptr<Socket>{})`. -/
def init : State :=
  { sSocketPtrs := [none], heap := [], workers := [], trace := [] }

/-! ## Primitive actions -/

/-- The macro `LOG(x)` executed by thread `who`. -/
def LOG (who : Thread) (st : State) (x : Msg) : State :=
  { st with trace := st.trace ++ [Event.log who x] }

/-- Record an event of the polling loop. -/
def emit (st : State) (e : Event) : State :=
  { st with trace := st.trace ++ [e] }

/-- Copy of a `shared_ptr`: the use count goes up by one. -/
def retain (st : State) (a : Nat) : State :=
  { st with heap := st.heap.modify (fun o => { o with useCount := o.useCount + 1 }) a }

/-- Destruction of a `shared_ptr` by thread `who`: the use count goes down by
one, and `~Socket()` runs (logging) when it reaches zero. -/
def release (who : Thread) (st : State) (a : Nat) : State :=
  match st.heap[a]? with
  | none => st
  | some o =>
    let st1 : State :=
      { st with heap := st.heap.modify (fun o => { o with useCount := o.useCount - 1 }) a }
    if o.useCount = 1 then LOG who st1 (Msg.destructed o.m_handle) else st1

/-- The test made by `weak_ptr::lock()`: the address when the object is still
alive.  The strong reference that `lock()` returns is counted by `retain`. -/
def WeakPtr.lock (st : State) (pS : WeakPtr) : Option Nat :=
  match pS with
  | none => none
  | some a =>
    match st.heap[a]? with
    | none => none
    | some o => if o.useCount = 0 then none else some a

/-- The store `s->m_quit = true`. -/
def setQuit (st : State) (a : Nat) : State :=
  { st with heap := st.heap.modify (fun o => { o with m_quit := true }) a }

/-- Move worker `k` to program counter `pc`. -/
def setPc (st : State) (k : Nat) (pc : Pc) : State :=
  { st with workers := st.workers.modify (fun w => { w with pc := pc }) k }

/-! ## `struct Socket` -/

/-- `Socket::NextHandle`. -/
def Socket.NextHandle (st : State) : Nat :=
  st.sSocketPtrs.length

/-- The allocation of `std::make_shared<Socket>()` with the member initialiser
`m_handle(NextHandle())` and `m_quit{false}`; returns the new address. -/
def Socket.alloc (st : State) : Nat × State :=
  (st.heap.length,
   { st with heap := st.heap ++
      [{ m_handle := Socket.NextHandle st, m_quit := false, useCount := 1 }] })

/-- `Socket::getHandle`. -/
def Socket.getHandle (st : State) (s : Nat) : Nat :=
  match st.heap[s]? with
  | some o => o.m_handle
  | none => 0

/-- The value read by `m_quit.load()` on the object at address `s`. -/
def Socket.quit (st : State) (s : Nat) : Bool :=
  match st.heap[s]? with
  | some o => o.m_quit
  | none => false

/-- Body of the constructor `Socket::Socket`. -/
def Socket.ctorBody (who : Thread) (st : State) (s : Nat) : State :=
  LOG who st (Msg.constructed (Socket.getHandle st s))

/-- `Socket::RegisterSkt`. -/
def Socket.RegisterSkt (st : State) (s : Nat) : State :=
  { st with sSocketPtrs := st.sSocketPtrs ++ [some s] }

/-- `Socket::run`: `shared_from_this()` is captured by a new detached thread. -/
def Socket.run (st : State) (s : Nat) : State :=
  { retain st s with workers := st.workers ++ [{ self := s, pc := Pc.start }] }

/-- `Socket::Open`, executed without interruption by thread `who`. -/
def Socket.Open (who : Thread) (st : State) : Nat × State :=
  let (s, st1) := Socket.alloc st
  let st2 := Socket.ctorBody who st1 s
  let st3 := Socket.RegisterSkt st2 s
  let handle := Socket.getHandle st3 s
  let st4 := Socket.run st3 s
  (handle, release who st4 s)

/-- Exceptions that the code of `main.cpp` can raise. -/
inductive Exn
  | outOfRange
  deriving DecidableEq, Repr

/-- `std::vector::at`: the element, or `std::out_of_range`. -/
def vectorAt {α : Type} (v : List α) (i : Nat) : Except Exn α :=
  match v[i]? with
  | some x => Except.ok x
  | none => Except.error Exn.outOfRange

/-- `Socket::Close`, executed without interruption by thread `who`.  The
strong reference `s` obtained from `lock()` is dropped at the end of the `if`. -/
def Socket.Close (who : Thread) (st : State) (handle : Nat) : Except Exn State :=
  if 0 < handle ∧ handle < st.sSocketPtrs.length then
    match vectorAt st.sSocketPtrs handle with
    | Except.error e => Except.error e
    | Except.ok pS =>
      match WeakPtr.lock st pS with
      | some s => Except.ok (release who (setQuit (retain st s) s) s)
      | none => Except.ok (LOG who st (Msg.alreadyDeleted handle))
  else Except.ok st

/-- The state in which a call of `Close` leaves the process: the state it
returns, or the state at the throw (nothing is written before `at`). -/
def Socket.closed (who : Thread) (st : State) (handle : Nat) : State :=
  match Socket.Close who st handle with
  | Except.ok st1 => st1
  | Except.error _ => st

/-- `const size_t seconds = 2` of `Socket::read`. -/
def seconds : Nat := 2

/-- One step of the detached thread `k`, which runs `self->read()` and then
drops `self`. -/
def Socket.readStep (st : State) (k : Nat) : State :=
  match st.workers[k]? with
  | none => st
  | some w =>
    match w.pc with
    | Pc.start => setPc (LOG (Thread.worker k) st (Msg.readingFor seconds)) k (Pc.loopHead 0)
    | Pc.loopHead i =>
      if i < seconds * 10 then
        if Socket.quit st w.self then
          setPc (LOG (Thread.worker k) (emit st (Event.load k true)) Msg.quittingEarly)
            k Pc.returned
        else setPc (emit st (Event.load k false)) k (Pc.sleeping i)
      else setPc st k Pc.returned
    | Pc.sleeping i =>
      setPc (LOG (Thread.worker k) (emit st (Event.sleep k 100)) Msg.stillReading)
        k (Pc.loopHead (i + 1))
    | Pc.returned => setPc (release (Thread.worker k) st w.self) k Pc.done
    | Pc.done => st

/-! ## The sequential state machine

One thread makes the calls, so a call runs from its first action to its
return before anything else happens; the detached threads move between the
calls only.  This is one family of schedules of the general machine below, not
all of them: in particular no detached thread moves while a call holds its
local strong reference. -/

/-- The thread that calls the API in the sequential machine (`main`). -/
def mainThread : Thread := Thread.caller 0

/-- Steps of the sequential machine: a call of the API, run to completion, or
one action of a detached thread. -/
inductive Step
  | callOpen
  | callClose (handle : Nat)
  | worker (k : Nat)
  deriving DecidableEq, Repr

/-- Effect of one step of the sequential machine.  The calls are the
uninterrupted `Socket.Open` and `Socket.Close`. -/
def step (st : State) : Step → State
  | Step.callOpen => (Socket.Open mainThread st).2
  | Step.callClose h => Socket.closed mainThread st h
  | Step.worker k => Socket.readStep st k

/-- Effect of a sequence of steps. -/
def exec (st : State) (steps : List Step) : State :=
  steps.foldl step st

/-- The values returned by the calls to `Open` of a sequence of steps, in
call order. -/
def opened : State → List Step → List Nat
  | _, [] => []
  | st, Step.callOpen :: rest =>
    (Socket.Open mainThread st).1 :: opened (Socket.Open mainThread st).2 rest
  | st, Step.callClose h :: rest => opened (step st (Step.callClose h)) rest
  | st, Step.worker k :: rest => opened (step st (Step.worker k)) rest

/-- The address obtained by `sSocketPtrs[i].lock()`, when slot `i` exists and
its object is alive. -/
def lockSlot (st : State) (i : Nat) : Option Nat :=
  match st.sSocketPtrs[i]? with
  | some pS => WeakPtr.lock st pS
  | none => none

/-- The live `Socket` that slot `i` of the registry resolves to. -/
def slot (st : State) (i : Nat) : Option Socket :=
  match lockSlot st i with
  | some s => st.heap[s]?
  | none => none

/-- The events appended to the trace between state `st` and a later state. -/
def newEvents (st later : State) : List Event :=
  later.trace.drop st.trace.length

/-- Number of log lines among some events. -/
def logLines (es : List Event) : Nat :=
  (es.filter (fun e => match e with
    | Event.log _ _ => true
    | _ => false)).length


/-- One socket opened, closed, and its worker run until it has dropped `self`. -/
def destroyedState : State :=
  exec init [Step.callOpen, Step.callClose 1, Step.worker 0, Step.worker 0, Step.worker 0]

/-! ## The polling loop seen from one worker -/

/-- Whether an event was produced by the detached thread `k` inside `read()`:
its polls, its sleeps and its log lines.  The line of `~Socket()` is not one of
them: the destructor runs in whichever thread drops the last reference. -/
def Event.isRead (k : Nat) : Event → Bool
  | Event.log _ (Msg.destructed _) => false
  | Event.log (Thread.worker j) _ => decide (j = k)
  | Event.log (Thread.caller _) _ => false
  | Event.load j _ => decide (j = k)
  | Event.sleep j _ => decide (j = k)

/-- The events of `read()` in thread `k` among some events, in order. -/
def readEventsOf (k : Nat) (es : List Event) : List Event :=
  es.filter (Event.isRead k)

/-- Total time slept (in ms) recorded in some events. -/
def sleptMs : List Event → Nat
  | [] => 0
  | Event.sleep _ ms :: es => ms + sleptMs es
  | _ :: es => sleptMs es

/-- Program counter of worker `k`, when that worker exists. -/
def pcOf (st : State) (k : Nat) : Option Pc :=
  match st.workers[k]? with
  | some w => some w.pc
  | none => none

/-- One step of thread `k` as seen by the thread itself: the next program
counter and the events of `read()` emitted, given the value `quit` that
`m_quit.load()` yields.  The last step, the drop of `self`, is not part of
`read()`. -/
def localStep (k : Nat) (quit : Bool) : Pc → Pc × List Event
  | Pc.start => (Pc.loopHead 0, [Event.log (Thread.worker k) (Msg.readingFor seconds)])
  | Pc.loopHead i =>
    if i < seconds * 10 then
      if quit then
        (Pc.returned, [Event.load k true, Event.log (Thread.worker k) Msg.quittingEarly])
      else (Pc.sleeping i, [Event.load k false])
    else (Pc.returned, [])
  | Pc.sleeping i =>
    (Pc.loopHead (i + 1),
     [Event.sleep k 100, Event.log (Thread.worker k) Msg.stillReading])
  | Pc.returned => (Pc.done, [])
  | Pc.done => (Pc.done, [])

/-- The first `n` complete iterations of the loop of `read` in thread `k`, the
flag reading `false` each time. -/
def iterations (k : Nat) : Nat → List Event
  | 0 => []
  | n + 1 => iterations k n ++
      [Event.load k false, Event.sleep k 100, Event.log (Thread.worker k) Msg.stillReading]

/-- Everything `read()` does in thread `k` when the flag reads `false` at
every poll. -/
def naturalRun (k : Nat) : List Event :=
  Event.log (Thread.worker k) (Msg.readingFor seconds) :: iterations k (seconds * 10)

/-- Everything `read()` does in thread `k` when the flag first reads `true` at
poll number `i` (counted from `0`). -/
def earlyRun (k i : Nat) : List Event :=
  Event.log (Thread.worker k) (Msg.readingFor seconds) :: iterations k i ++
    [Event.load k true, Event.log (Thread.worker k) Msg.quittingEarly]

/-- The events of `read()` in thread `k` so far, as determined by its program
counter. -/
def WTrace (k : Nat) : Option Pc → List Event → Prop
  | none, es => es = []
  | some Pc.start, es => es = []
  | some (Pc.loopHead i), es => i ≤ seconds * 10 ∧
      es = Event.log (Thread.worker k) (Msg.readingFor seconds) :: iterations k i
  | some (Pc.sleeping i), es => i < seconds * 10 ∧
      es = Event.log (Thread.worker k) (Msg.readingFor seconds) :: iterations k i ++
        [Event.load k false]
  | some Pc.returned, es => es = naturalRun k ∨ ∃ i, i < seconds * 10 ∧ es = earlyRun k i
  | some Pc.done, es => es = naturalRun k ∨ ∃ i, i < seconds * 10 ∧ es = earlyRun k i

/-- Steps that thread `k` still needs, at most, before it has dropped `self`. -/
def remaining : Pc → Nat
  | Pc.start => 2 * (seconds * 10) + 3
  | Pc.loopHead i => 2 * (seconds * 10 - i) + 2
  | Pc.sleeping i => 2 * (seconds * 10 - (i + 1)) + 3
  | Pc.returned => 1
  | Pc.done => 0

/-- The loop of `read` has not returned yet. -/
def notReturned : Pc → Bool
  | Pc.start => true
  | Pc.loopHead _ => true
  | Pc.sleeping _ => true
  | Pc.returned => false
  | Pc.done => false

/-- The thread has at least one `m_quit.load()` still ahead of it. -/
def pollAhead : Pc → Bool
  | Pc.start => true
  | Pc.loopHead i => decide (i < seconds * 10)
  | Pc.sleeping i => decide (i + 1 < seconds * 10)
  | Pc.returned => false
  | Pc.done => false

/-- What thread `k` does between a `Close` that finds it at `pc` with a poll
ahead and the poll that sees the flag. -/
def beforeNextPoll (k : Nat) : Pc → List Event
  | Pc.start => [Event.log (Thread.worker k) (Msg.readingFor seconds)]
  | Pc.sleeping _ => [Event.sleep k 100, Event.log (Thread.worker k) Msg.stillReading]
  | _ => []

/-- `n` local steps of thread `k` with the flag constantly `quit`, collecting
the events. -/
def runLocal (k : Nat) (quit : Bool) : Nat → Pc × List Event → Pc × List Event
  | 0, x => x
  | n + 1, x =>
    runLocal k quit n ((localStep k quit x.1).1, x.2 ++ (localStep k quit x.1).2)


/-! ## Concurrent calls of `Open`

Each calling thread executes `Open` one atomic action at a time.  The atomic
actions are the ones the source delimits: taking and releasing
`sSktCreationMutex`, `NextHandle` (its own critical section on
`sSocketPtrsMutex`, here together with the allocation it initialises), the
`LOG` of the constructor body (a critical section on `sLogMtx`), `RegisterSkt`
(its own critical section on `sSocketPtrsMutex`), the creation of the detached
thread, and the destruction of the local `s`.  The detached threads run
concurrently with the callers. -/

/-- Where a thread that called `Open` is. -/
inductive OpenPc
  | waiting
  | locked
  | allocated (s : Nat)
  | constructed (s : Nat)
  | registered (s : Nat)
  | unlocked (s : Nat)
  | spawned (s handle : Nat)
  | returned (handle : Nat)
  deriving DecidableEq, Repr

/-- State of the concurrent machine: the process state, the owner of
`sSktCreationMutex`, the calling threads, and the order in which the callers
took `sSktCreationMutex`. -/
structure CState where
  mem : State
  sSktCreationMutex : Option Nat
  callers : List OpenPc
  acquired : List Nat
  deriving DecidableEq, Repr

/-- `n` threads have called `Open`; none has taken the mutex yet. -/
def cinit (n : Nat) : CState :=
  { mem := init, sSktCreationMutex := none, callers := List.replicate n OpenPc.waiting,
    acquired := [] }

/-- Scheduler choices: a calling thread or a detached worker takes one step. -/
inductive CStep
  | caller (t : Nat)
  | worker (k : Nat)
  deriving DecidableEq, Repr

/-- One atomic action of the calling thread `t`, at program counter `pc`.  A
thread waiting for a held mutex, and a thread that has returned, do nothing. -/
def callerStep (c : CState) (t : Nat) : OpenPc → CState
  | OpenPc.waiting =>
    match c.sSktCreationMutex with
    | some _ => c
    | none =>
      { c with sSktCreationMutex := some t, callers := c.callers.set t OpenPc.locked,
               acquired := c.acquired ++ [t] }
  | OpenPc.locked =>
    { c with mem := (Socket.alloc c.mem).2,
             callers := c.callers.set t (OpenPc.allocated (Socket.alloc c.mem).1) }
  | OpenPc.allocated s =>
    { c with mem := Socket.ctorBody (Thread.caller t) c.mem s,
             callers := c.callers.set t (OpenPc.constructed s) }
  | OpenPc.constructed s =>
    { c with mem := Socket.RegisterSkt c.mem s,
             callers := c.callers.set t (OpenPc.registered s) }
  | OpenPc.registered s =>
    { c with sSktCreationMutex := none, callers := c.callers.set t (OpenPc.unlocked s) }
  | OpenPc.unlocked s =>
    { c with mem := Socket.run c.mem s,
             callers := c.callers.set t (OpenPc.spawned s (Socket.getHandle c.mem s)) }
  | OpenPc.spawned s handle =>
    { c with mem := release (Thread.caller t) c.mem s,
             callers := c.callers.set t (OpenPc.returned handle) }
  | OpenPc.returned _ => c

/-- Effect of one scheduler choice. -/
def cstep (c : CState) : CStep → CState
  | CStep.caller t =>
    match c.callers[t]? with
    | some pc => callerStep c t pc
    | none => c
  | CStep.worker k => { c with mem := Socket.readStep c.mem k }

/-- Effect of a schedule. -/
def crun (c : CState) (sched : List CStep) : CState :=
  sched.foldl cstep c

/-- The handle that a caller has returned. -/
def OpenPc.result : OpenPc → Option Nat
  | OpenPc.returned handle => some handle
  | _ => none

/-- Every call of `Open` has returned. -/
def allReturned (c : CState) : Prop :=
  ∀ pc ∈ c.callers, OpenPc.result pc ≠ none

/-- The handles returned so far, listed in the order in which their callers
took `sSktCreationMutex` (`none` for a caller that has not returned yet). -/
def resultsInOrder (c : CState) : List (Option Nat) :=
  c.acquired.map (fun t =>
    match c.callers[t]? with
    | some pc => pc.result
    | none => none)

/-- The thread holds `sSktCreationMutex`. -/
def OpenPc.holds : OpenPc → Bool
  | OpenPc.locked => true
  | OpenPc.allocated _ => true
  | OpenPc.constructed _ => true
  | OpenPc.registered _ => true
  | _ => false

/-- The thread has executed `RegisterSkt`. -/
def OpenPc.hasRegistered : OpenPc → Bool
  | OpenPc.registered _ => true
  | OpenPc.unlocked _ => true
  | OpenPc.spawned _ _ => true
  | OpenPc.returned _ => true
  | _ => false

/-- The handle of the `Socket` the thread has constructed, once it has one. -/
def OpenPc.handleIn (m : State) : OpenPc → Option Nat
  | OpenPc.waiting => none
  | OpenPc.locked => none
  | OpenPc.allocated s => some (Socket.getHandle m s)
  | OpenPc.constructed s => some (Socket.getHandle m s)
  | OpenPc.registered s => some (Socket.getHandle m s)
  | OpenPc.unlocked s => some (Socket.getHandle m s)
  | OpenPc.spawned _ handle => some handle
  | OpenPc.returned handle => some handle

/-- Every object that carries a handle in `m` carries the same handle in `m1`
(`m_handle` is `const`). -/
def keepsHandles (m m1 : State) : Prop :=
  ∀ s : Nat, Socket.getHandle m s ≠ 0 → Socket.getHandle m1 s = Socket.getHandle m s

/-- Invariant of the concurrent machine. -/
structure CInv (c : CState) : Prop where
  nodup : c.acquired.Nodup
  mem_acq : ∀ (t : Nat), t ∈ c.acquired ↔ ∃ pc, c.callers[t]? = some pc ∧ pc ≠ OpenPc.waiting
  pos : ∀ (i t : Nat) (pc : OpenPc), c.acquired[i]? = some t → c.callers[t]? = some pc →
    (∀ h, pc.handleIn c.mem = some h → h = i + 1) ∧
    (pc.holds = true → c.sSktCreationMutex = some t ∧ i + 1 = c.acquired.length)
  size : match c.sSktCreationMutex with
    | none => c.mem.sSocketPtrs.length = c.acquired.length + 1
    | some t => ∃ pc, c.callers[t]? = some pc ∧ pc.holds = true ∧
        c.mem.sSocketPtrs.length = c.acquired.length + (if pc.hasRegistered then 1 else 0)

/-- Steps a caller still has to take. -/
def OpenPc.left : OpenPc → Nat
  | OpenPc.waiting => 7
  | OpenPc.locked => 6
  | OpenPc.allocated _ => 5
  | OpenPc.constructed _ => 4
  | OpenPc.registered _ => 3
  | OpenPc.unlocked _ => 2
  | OpenPc.spawned _ _ => 1
  | OpenPc.returned _ => 0

/-- A schedule that lets every call of `Open` return, from any state of the
machine with `n` callers: first the holder of the mutex (if any), then every
caller in turn. -/
def finishAll (c : CState) (n : Nat) : List CStep :=
  (match c.sSktCreationMutex with
   | some t => List.replicate 7 (CStep.caller t)
   | none => []) ++
  (List.range n).flatMap (fun t => List.replicate 7 (CStep.caller t))

/-- Caller `t` is not kept waiting by another thread: the creation mutex is
free or its own. -/
def unblocked (c : CState) (t : Nat) : Prop :=
  c.sSktCreationMutex = none ∨ c.sSktCreationMutex = some t

/-- States that the concurrent machine with `n` callers reaches. -/
def creachable (n : Nat) (c : CState) : Prop :=
  ∃ sched : List CStep, c = crun (cinit n) sched

/-- An interleaving of two calls of `Open`: caller `1` takes the mutex first,
caller `0` tries and has to wait, and the worker of the first socket starts
before the second call has returned. -/
def twoCallersSchedule : List CStep :=
  [CStep.caller 1, CStep.caller 0, CStep.caller 1, CStep.caller 1, CStep.caller 1,
   CStep.caller 1, CStep.caller 0, CStep.caller 1, CStep.worker 0, CStep.caller 0,
   CStep.caller 0, CStep.caller 1, CStep.caller 0, CStep.caller 0, CStep.caller 0,
   CStep.caller 0]

/-! ## The general machine

Any number of threads call `Open` and `Close`, and every call advances one
atomic action at a time, interleaved with the other calls and with the
detached threads.  `Close` holds `sSocketPtrsMutex` from its first to its last
action, so at most one call of `Close` is in progress, and `NextHandle` and
`RegisterSkt` wait for it.  The detached threads take no mutex: a worker can
poll, sleep and drop `self` between any two actions of a call. -/

/-- A call of `Close` that has obtained a strong reference `s` from `lock()`:
before and after the store `s->m_quit = true`. -/
inductive ClosePc
  | locked (who s : Nat)
  | stored (who s : Nat)
  deriving DecidableEq, Repr

/-- The address a call of `Close` holds. -/
def ClosePc.addr : ClosePc → Nat
  | ClosePc.locked _ s => s
  | ClosePc.stored _ s => s

/-- State of the general machine: the calls of `Open` (as in the concurrent
machine) and the call of `Close` in progress, if any. -/
structure GState extends CState where
  closing : Option ClosePc
  deriving DecidableEq, Repr

/-- No call has been made. -/
def ginit : GState :=
  { mem := init, sSktCreationMutex := none, callers := [], acquired := [], closing := none }

/-- Scheduler choices of the general machine. -/
inductive GStep
  | callOpen
  | openStep (t : Nat)
  | closeEnter (who handle : Nat)
  | closeStep
  | worker (k : Nat)
  deriving DecidableEq, Repr

/-- The next action of the call of `Open` takes `sSocketPtrsMutex`
(`NextHandle`, `RegisterSkt`). -/
def OpenPc.needsRegistry : OpenPc → Bool
  | OpenPc.locked => true
  | OpenPc.constructed _ => true
  | _ => false

/-- First action of `Close(handle)` by thread `who`: take `sSocketPtrsMutex`
(possible only when no other `Close` holds it), test the guard, read the slot
and `lock()` it.  A handle that fails the guard or does not lock ends the call
at once; otherwise the call now holds `s`. -/
def closeEnter (g : GState) (who handle : Nat) : GState :=
  match g.closing with
  | some _ => g
  | none =>
    if 0 < handle ∧ handle < g.mem.sSocketPtrs.length then
      match vectorAt g.mem.sSocketPtrs handle with
      | Except.error _ => g
      | Except.ok pS =>
        match WeakPtr.lock g.mem pS with
        | some s => { g with mem := retain g.mem s, closing := some (ClosePc.locked who s) }
        | none => { g with mem := LOG (Thread.caller who) g.mem (Msg.alreadyDeleted handle) }
    else g

/-- The next action of the call of `Close` in progress: the store
`s->m_quit = true`, then the destruction of `s` (and the release of
`sSocketPtrsMutex`). -/
def closeStep (g : GState) : GState :=
  match g.closing with
  | none => g
  | some (ClosePc.locked who s) =>
    { g with mem := setQuit g.mem s, closing := some (ClosePc.stored who s) }
  | some (ClosePc.stored who s) =>
    { g with mem := release (Thread.caller who) g.mem s, closing := none }

/-- Effect of one scheduler choice of the general machine. -/
def gstep (g : GState) : GStep → GState
  | GStep.callOpen => { g with callers := g.callers ++ [OpenPc.waiting] }
  | GStep.openStep t =>
    match g.callers[t]? with
    | none => g
    | some pc =>
      if pc.needsRegistry = true ∧ g.closing.isSome = true then g
      else { g with toCState := callerStep g.toCState t pc }
  | GStep.closeEnter who handle => closeEnter g who handle
  | GStep.closeStep => closeStep g
  | GStep.worker k => { g with mem := Socket.readStep g.mem k }

/-- Effect of a schedule of the general machine. -/
def grun (g : GState) (sched : List GStep) : GState :=
  sched.foldl gstep g

/-- States that the general machine reaches from the initial state. -/
def greachable (g : GState) : Prop :=
  ∃ sched : List GStep, g = grun ginit sched

/-- The call of `Open` created the object at `a` and has not called `run` yet. -/
def OpenPc.prespawn (a : Nat) : OpenPc → Bool
  | OpenPc.allocated s => decide (s = a)
  | OpenPc.constructed s => decide (s = a)
  | OpenPc.registered s => decide (s = a)
  | OpenPc.unlocked s => decide (s = a)
  | _ => false

/-- The call of `Open` holds its local `s`, pointing at `a`. -/
def OpenPc.owns (a : Nat) : OpenPc → Bool
  | OpenPc.allocated s => decide (s = a)
  | OpenPc.constructed s => decide (s = a)
  | OpenPc.registered s => decide (s = a)
  | OpenPc.unlocked s => decide (s = a)
  | OpenPc.spawned s _ => decide (s = a)
  | _ => false

/-- The call of `Open` has allocated its object and not registered it yet. -/
def OpenPc.unregistered : OpenPc → Bool
  | OpenPc.allocated _ => true
  | OpenPc.constructed _ => true
  | _ => false

/-- The detached thread was started for the object at `a`. -/
def Worker.isFor (a : Nat) (w : Worker) : Bool :=
  decide (w.self = a)

/-- The detached thread still holds its `self`, pointing at `a`. -/
def Worker.owns (a : Nat) (w : Worker) : Bool :=
  decide (w.self = a) && !decide (w.pc = Pc.done)

/-- Number of strong references to `a` held by the call of `Close` in progress. -/
def closeOwns (closing : Option ClosePc) (a : Nat) : Nat :=
  match closing with
  | some cp => if cp.addr = a then 1 else 0
  | none => 0

/-- Number of strong references to the object at `a` held by the threads:
the locals `s` of the calls of `Open`, the captured `self` of the detached
threads, and the local `s` of the call of `Close` in progress. -/
def owners (g : GState) (a : Nat) : Nat :=
  g.callers.countP (OpenPc.owns a) + g.mem.workers.countP (Worker.owns a) +
    closeOwns g.closing a

/-- What a call of `Open` knows about the address and the handle it carries. -/
def openOk (m : State) : OpenPc → Prop
  | OpenPc.waiting => True
  | OpenPc.locked => True
  | OpenPc.allocated s => s + 1 = m.heap.length ∧ m.sSocketPtrs.length = m.heap.length
  | OpenPc.constructed s => s + 1 = m.heap.length ∧ m.sSocketPtrs.length = m.heap.length
  | OpenPc.registered s => s + 1 < m.sSocketPtrs.length
  | OpenPc.unlocked s => s + 1 < m.sSocketPtrs.length
  | OpenPc.spawned s handle => handle = s + 1 ∧ s + 1 < m.sSocketPtrs.length
  | OpenPc.returned handle => 0 < handle ∧ handle < m.sSocketPtrs.length

/-- Invariant of the general machine: the creation mutex is exclusive; slot
`i ≥ 1` of the registry points at address `i - 1`, whose object carries
handle `i`; every address in use is registered or about to be; every object
was given to exactly one detached thread, or is still with the call that
created it; and the use count of every object is the number of threads that
hold a reference to it. -/
structure GInv (g : GState) : Prop where
  excl : ∀ (t : Nat) (pc : OpenPc), g.callers[t]? = some pc → pc.holds = true →
    g.sSktCreationMutex = some t
  reg : g.mem.sSocketPtrs = none :: (List.range (g.mem.sSocketPtrs.length - 1)).map some
  bound : g.mem.sSocketPtrs.length ≤ g.mem.heap.length + 1
  full : (∀ pc ∈ g.callers, OpenPc.unregistered pc = false) →
    g.mem.sSocketPtrs.length = g.mem.heap.length + 1
  hnd : ∀ (a : Nat) (o : Socket), g.mem.heap[a]? = some o → o.m_handle = a + 1
  opn : ∀ (t : Nat) (pc : OpenPc), g.callers[t]? = some pc → openOk g.mem pc
  wrk : ∀ (k : Nat) (w : Worker), g.mem.workers[k]? = some w →
    w.self + 1 < g.mem.sSocketPtrs.length
  cls : ∀ (cp : ClosePc), g.closing = some cp → cp.addr + 1 < g.mem.sSocketPtrs.length
  life : ∀ (a : Nat), g.callers.countP (OpenPc.prespawn a) +
    g.mem.workers.countP (Worker.isFor a) = if a < g.mem.heap.length then 1 else 0
  cnt : ∀ (a : Nat) (o : Socket), g.mem.heap[a]? = some o → o.useCount = owners g a

/-- Every control block of `m` is still there in `m1`, with the same handle and
the same cancellation flag. -/
def sameFlags (m m1 : State) : Prop :=
  ∀ (a : Nat) (o : Socket), m.heap[a]? = some o →
    ∃ o1, m1.heap[a]? = some o1 ∧ o1.m_handle = o.m_handle ∧ o1.m_quit = o.m_quit

/-- All the events are log lines written by threads that call the API. -/
def callerOnly (es : List Event) : Prop :=
  ∀ e ∈ es, ∃ t msg, e = Event.log (Thread.caller t) msg

/-! ## Schedules and states used in the instances -/

/-- One call of `Open` by thread `t` run to its return without interruption:
the call and its seven actions. -/
def openCall (t : Nat) : List GStep :=
  GStep.callOpen :: List.replicate 7 (GStep.openStep t)

/-- The state after one uninterrupted call of `Open`. -/
def openedOnce : GState :=
  grun ginit (openCall 0)

/-- A call `Close(handle)` by thread `who` up to, and not including, the
destruction of its local `s`: `lock()`, the steps `d1` of other threads, the
store to `m_quit`, the steps `d2` of other threads. -/
def closeBeforeRelease (who handle : Nat) (d1 d2 : List GStep) : List GStep :=
  GStep.closeEnter who handle :: d1 ++ GStep.closeStep :: d2

/-- A whole call `Close(handle)` by thread `who`, interleaved with the steps
`d1` and `d2` of other threads. -/
def closeCall (who handle : Nat) (d1 d2 : List GStep) : List GStep :=
  closeBeforeRelease who handle d1 d2 ++ [GStep.closeStep]

/-- One socket whose detached thread is in the sleep of its last iteration. -/
def lastSleep : GState :=
  grun openedOnce (List.replicate 40 (GStep.worker 0))

/-! ## The sequential machine inside the general machine -/

/-- Forget which thread made a call: the sequential machine makes every call
from `main`, the general machine gives each call of `Open` a thread of its
own. -/
def Event.anonymous : Event → Event
  | Event.log (Thread.caller _) msg => Event.log mainThread msg
  | e => e

/-- The same process state, up to the names of the calling threads in the
log. -/
def sameProcess (st m : State) : Prop :=
  st.sSocketPtrs = m.sSocketPtrs ∧ st.heap = m.heap ∧ st.workers = m.workers ∧
    st.trace.map Event.anonymous = m.trace.map Event.anonymous

/-- The schedule of the general machine that a sequence of steps of the
sequential machine stands for, `n` calls of `Open` having been made before:
every call runs all its actions in a row. -/
def scheduleOf : Nat → List Step → List GStep
  | _, [] => []
  | n, Step.callOpen :: rest => openCall n ++ scheduleOf (n + 1) rest
  | n, Step.callClose h :: rest => closeCall 0 h [] [] ++ scheduleOf n rest
  | n, Step.worker k :: rest => GStep.worker k :: scheduleOf n rest

/-! ## Basic facts about the primitive actions -/

theorem modify_append_length {α : Type} (f : α → α) (l : List α) (x : α) :
    (l ++ [x]).modify f l.length = l ++ [f x] := by
  induction l with
  | nil => rfl
  | cons a l ih => simp [ih]

theorem modify_modify_same {α : Type} (f g : α → α) (l : List α) (n : Nat) :
    (l.modify g n).modify f n = l.modify (f ∘ g) n := by
  apply List.ext_getElem?
  intro m
  simp only [List.getElem?_modify]
  cases l[m]? <;> by_cases h : n = m <;> simp [h]

theorem modify_eq_self {α : Type} (f : α → α) (l : List α) (n : Nat)
    (h : ∀ x, l[n]? = some x → f x = x) : l.modify f n = l := by
  apply List.ext_getElem?
  intro m
  simp only [List.getElem?_modify]
  cases hm : l[m]? with
  | none => simp
  | some x =>
    by_cases hn : n = m
    · subst hn; simp [h x hm]
    · simp [hn]

@[simp] theorem LOG_sSocketPtrs (who : Thread) (st : State) (x : Msg) :
    (LOG who st x).sSocketPtrs = st.sSocketPtrs := rfl

@[simp] theorem LOG_heap (who : Thread) (st : State) (x : Msg) :
    (LOG who st x).heap = st.heap := rfl

@[simp] theorem LOG_workers (who : Thread) (st : State) (x : Msg) :
    (LOG who st x).workers = st.workers := rfl

@[simp] theorem LOG_trace (who : Thread) (st : State) (x : Msg) :
    (LOG who st x).trace = st.trace ++ [Event.log who x] := rfl

@[simp] theorem emit_sSocketPtrs (st : State) (e : Event) :
    (emit st e).sSocketPtrs = st.sSocketPtrs := rfl

@[simp] theorem emit_heap (st : State) (e : Event) : (emit st e).heap = st.heap := rfl

@[simp] theorem emit_workers (st : State) (e : Event) :
    (emit st e).workers = st.workers := rfl

@[simp] theorem emit_trace (st : State) (e : Event) :
    (emit st e).trace = st.trace ++ [e] := rfl

@[simp] theorem setPc_sSocketPtrs (st : State) (k : Nat) (pc : Pc) :
    (setPc st k pc).sSocketPtrs = st.sSocketPtrs := rfl

@[simp] theorem setPc_heap (st : State) (k : Nat) (pc : Pc) :
    (setPc st k pc).heap = st.heap := rfl

@[simp] theorem setPc_trace (st : State) (k : Nat) (pc : Pc) :
    (setPc st k pc).trace = st.trace := rfl

@[simp] theorem setPc_workers (st : State) (k : Nat) (pc : Pc) :
    (setPc st k pc).workers = st.workers.modify (fun w => { w with pc := pc }) k := rfl

@[simp] theorem release_sSocketPtrs (who : Thread) (st : State) (a : Nat) :
    (release who st a).sSocketPtrs = st.sSocketPtrs := by
  unfold release
  split
  · rfl
  · split <;> rfl

@[simp] theorem release_workers (who : Thread) (st : State) (a : Nat) :
    (release who st a).workers = st.workers := by
  unfold release
  split
  · rfl
  · split <;> rfl

@[simp] theorem release_heap (who : Thread) (st : State) (a : Nat) :
    (release who st a).heap =
      st.heap.modify (fun o => { o with useCount := o.useCount - 1 }) a := by
  unfold release
  split
  · next h =>
    symm
    apply modify_eq_self
    intro x hx
    rw [h] at hx
    cases hx
  · split <;> rfl

theorem release_trace (who : Thread) (st : State) (a : Nat) :
    (release who st a).trace =
      match st.heap[a]? with
      | none => st.trace
      | some o =>
        if o.useCount = 1 then st.trace ++ [Event.log who (Msg.destructed o.m_handle)]
        else st.trace := by
  unfold release
  split
  · rfl
  · split <;> rfl

/-- The state after an uninterrupted `Open`, field by field. -/
theorem Open_snd (who : Thread) (st : State) :
    (Socket.Open who st).2 =
      { sSocketPtrs := st.sSocketPtrs ++ [some st.heap.length],
        heap := st.heap ++
          [{ m_handle := st.sSocketPtrs.length, m_quit := false, useCount := 1 }],
        workers := st.workers ++ [{ self := st.heap.length, pc := Pc.start }],
        trace := st.trace ++ [Event.log who (Msg.constructed st.sSocketPtrs.length)] } := by
  simp [Socket.Open, Socket.alloc, Socket.ctorBody, Socket.RegisterSkt, Socket.run,
    Socket.getHandle, Socket.NextHandle, retain, release, LOG, modify_append_length]

/-- The value returned by an uninterrupted `Open`. -/
theorem Open_fst (who : Thread) (st : State) :
    (Socket.Open who st).1 = st.sSocketPtrs.length := by
  simp [Socket.Open, Socket.alloc, Socket.ctorBody, Socket.RegisterSkt,
    Socket.getHandle, Socket.NextHandle, LOG]

theorem State.eq_of_fields {s t : State} (h1 : s.sSocketPtrs = t.sSocketPtrs)
    (h2 : s.heap = t.heap) (h3 : s.workers = t.workers) (h4 : s.trace = t.trace) :
    s = t := by
  cases s; cases t; simp_all

theorem vectorAt_of_lt {α : Type} (v : List α) (i : Nat) (h : i < v.length) :
    vectorAt v i = Except.ok (v.get ⟨i, h⟩) := by
  simp [vectorAt, List.getElem?_eq_getElem h]

theorem lock_eq_some {st : State} {pS : WeakPtr} {s : Nat} (h : WeakPtr.lock st pS = some s) :
    pS = some s ∧ ∃ o, st.heap[s]? = some o ∧ o.useCount ≠ 0 := by
  unfold WeakPtr.lock at h
  split at h
  · cases h
  · next a =>
    split at h
    · cases h
    · next o ho =>
      split at h
      · cases h
      · next hne =>
        cases h
        exact ⟨rfl, o, ho, hne⟩

/-- A strong reference taken and dropped around `m_quit = true` leaves only
the store behind. -/
theorem release_setQuit_retain (who : Thread) (st : State) (s : Nat) (o : Socket)
    (ho : st.heap[s]? = some o) (hne : o.useCount ≠ 0) :
    release who (setQuit (retain st s) s) s = setQuit st s := by
  apply State.eq_of_fields
  · simp [setQuit, retain]
  · simp only [release_heap, setQuit, retain, modify_modify_same]
    congr 1
  · simp [setQuit, retain]
  · rw [release_trace]
    simp only [setQuit, retain, modify_modify_same, List.getElem?_modify_eq, ho]
    simp [hne]

/-- `Close` outside the guarded range returns the state unchanged. -/
theorem Close_of_not_guard (who : Thread) (st : State) (h : Nat)
    (hg : ¬ (0 < h ∧ h < st.sSocketPtrs.length)) :
    Socket.Close who st h = Except.ok st := by
  simp only [Socket.Close, if_neg hg]

/-- `Close` on a slot that does not lock logs one line. -/
theorem Close_of_lock_none (who : Thread) (st : State) (h : Nat)
    (h0 : 0 < h) (hlt : h < st.sSocketPtrs.length)
    (hl : WeakPtr.lock st (st.sSocketPtrs.get ⟨h, hlt⟩) = none) :
    Socket.Close who st h = Except.ok (LOG who st (Msg.alreadyDeleted h)) := by
  simp only [Socket.Close, if_pos (And.intro h0 hlt), vectorAt_of_lt _ _ hlt, hl]

/-- `Close` on a slot that locks stores `true` in `m_quit` and does nothing else. -/
theorem Close_of_lock_some (who : Thread) (st : State) (h s : Nat)
    (h0 : 0 < h) (hlt : h < st.sSocketPtrs.length)
    (hl : WeakPtr.lock st (st.sSocketPtrs.get ⟨h, hlt⟩) = some s) :
    Socket.Close who st h = Except.ok (setQuit st s) := by
  obtain ⟨_, o, ho, hne⟩ := lock_eq_some hl
  simp only [Socket.Close, if_pos (And.intro h0 hlt), vectorAt_of_lt _ _ hlt, hl,
    release_setQuit_retain who st s o ho hne]

/-- The three outcomes of `Close`; it never raises. -/
theorem Close_cases (who : Thread) (st : State) (h : Nat) :
    Socket.Close who st h = Except.ok st ∨
    Socket.Close who st h = Except.ok (LOG who st (Msg.alreadyDeleted h)) ∨
    ∃ s o, st.heap[s]? = some o ∧ o.useCount ≠ 0 ∧
      Socket.Close who st h = Except.ok (setQuit st s) := by
  by_cases hg : 0 < h ∧ h < st.sSocketPtrs.length
  · cases hl : WeakPtr.lock st (st.sSocketPtrs.get ⟨h, hg.2⟩) with
    | none => exact Or.inr (Or.inl (Close_of_lock_none who st h hg.1 hg.2 hl))
    | some s =>
      obtain ⟨_, o, ho, hne⟩ := lock_eq_some hl
      exact Or.inr (Or.inr ⟨s, o, ho, hne, Close_of_lock_some who st h s hg.1 hg.2 hl⟩)
  · exact Or.inl (Close_of_not_guard who st h hg)

theorem closed_eq_of_Close {who : Thread} {st st1 : State} {h : Nat}
    (hc : Socket.Close who st h = Except.ok st1) : Socket.closed who st h = st1 := by
  simp [Socket.closed, hc]

@[simp] theorem closed_sSocketPtrs (who : Thread) (st : State) (h : Nat) :
    (Socket.closed who st h).sSocketPtrs = st.sSocketPtrs := by
  rcases Close_cases who st h with hc | hc | ⟨s, o, _, _, hc⟩ <;>
    rw [closed_eq_of_Close hc] <;> rfl

@[simp] theorem closed_workers (who : Thread) (st : State) (h : Nat) :
    (Socket.closed who st h).workers = st.workers := by
  rcases Close_cases who st h with hc | hc | ⟨s, o, _, _, hc⟩ <;>
    rw [closed_eq_of_Close hc] <;> rfl

@[simp] theorem readStep_sSocketPtrs (st : State) (k : Nat) :
    (Socket.readStep st k).sSocketPtrs = st.sSocketPtrs := by
  unfold Socket.readStep
  split
  · rfl
  · split
    · rfl
    · split
      · split <;> rfl
      · rfl
    · rfl
    · simp
    · rfl

@[simp] theorem step_sSocketPtrs_length (st : State) (x : Step) :
    (step st x).sSocketPtrs.length =
      st.sSocketPtrs.length + (if x = Step.callOpen then 1 else 0) := by
  cases x <;> simp [step, Open_snd]

theorem getElem?_modify_some {α : Type} {l : List α} {f : α → α} {n m : Nat} {y : α}
    (h : (l.modify f n)[m]? = some y) :
    ∃ x, l[m]? = some x ∧ y = if n = m then f x else x := by
  rw [List.getElem?_modify] at h
  cases hx : l[m]? with
  | none => simp [hx] at h
  | some x =>
    refine ⟨x, rfl, ?_⟩
    simp [hx] at h
    exact h.symm

/-! ### The steps of `read`, one program counter at a time -/

theorem readStep_none {st : State} {k : Nat} (h : st.workers[k]? = none) :
    Socket.readStep st k = st := by
  simp [Socket.readStep, h]

theorem readStep_start {st : State} {k : Nat} {w : Worker} (h : st.workers[k]? = some w)
    (hpc : w.pc = Pc.start) :
    Socket.readStep st k =
      setPc (LOG (Thread.worker k) st (Msg.readingFor seconds)) k (Pc.loopHead 0) := by
  simp [Socket.readStep, h, hpc]

theorem readStep_poll_true {st : State} {k i : Nat} {w : Worker}
    (h : st.workers[k]? = some w) (hpc : w.pc = Pc.loopHead i) (hi : i < seconds * 10)
    (hq : Socket.quit st w.self = true) :
    Socket.readStep st k =
      setPc (LOG (Thread.worker k) (emit st (Event.load k true)) Msg.quittingEarly)
        k Pc.returned := by
  simp [Socket.readStep, h, hpc, hi, hq]

theorem readStep_poll_false {st : State} {k i : Nat} {w : Worker}
    (h : st.workers[k]? = some w) (hpc : w.pc = Pc.loopHead i) (hi : i < seconds * 10)
    (hq : Socket.quit st w.self = false) :
    Socket.readStep st k = setPc (emit st (Event.load k false)) k (Pc.sleeping i) := by
  simp [Socket.readStep, h, hpc, hi, hq]

theorem readStep_loop_exit {st : State} {k i : Nat} {w : Worker}
    (h : st.workers[k]? = some w) (hpc : w.pc = Pc.loopHead i) (hi : ¬ i < seconds * 10) :
    Socket.readStep st k = setPc st k Pc.returned := by
  simp [Socket.readStep, h, hpc, hi]

theorem readStep_sleeping {st : State} {k i : Nat} {w : Worker}
    (h : st.workers[k]? = some w) (hpc : w.pc = Pc.sleeping i) :
    Socket.readStep st k =
      setPc (LOG (Thread.worker k) (emit st (Event.sleep k 100)) Msg.stillReading)
        k (Pc.loopHead (i + 1)) := by
  simp [Socket.readStep, h, hpc]

theorem readStep_returned {st : State} {k : Nat} {w : Worker}
    (h : st.workers[k]? = some w) (hpc : w.pc = Pc.returned) :
    Socket.readStep st k = setPc (release (Thread.worker k) st w.self) k Pc.done := by
  simp [Socket.readStep, h, hpc]

theorem readStep_done {st : State} {k : Nat} {w : Worker}
    (h : st.workers[k]? = some w) (hpc : w.pc = Pc.done) :
    Socket.readStep st k = st := by
  simp [Socket.readStep, h, hpc]

/-- A step of `read` is one of: nothing, a change of program counter that
leaves the heap alone, or the final drop of `self`. -/
theorem readStep_shape (st : State) (k : Nat) :
    Socket.readStep st k = st ∨
    (∃ w pc, st.workers[k]? = some w ∧ w.pc ≠ Pc.done ∧ pc ≠ Pc.done ∧
      (Socket.readStep st k).heap = st.heap ∧
      (Socket.readStep st k).workers = st.workers.modify (fun w => { w with pc := pc }) k) ∨
    (∃ w, st.workers[k]? = some w ∧ w.pc = Pc.returned ∧
      Socket.readStep st k = setPc (release (Thread.worker k) st w.self) k Pc.done) := by
  cases h : st.workers[k]? with
  | none => exact Or.inl (readStep_none h)
  | some w =>
    cases hpc : w.pc with
    | start =>
      refine Or.inr (Or.inl ⟨w, Pc.loopHead 0, rfl, by simp [hpc], by simp, ?_, ?_⟩) <;>
        rw [readStep_start h hpc] <;> rfl
    | loopHead i =>
      by_cases hi : i < seconds * 10
      · cases hq : Socket.quit st w.self with
        | true =>
          refine Or.inr (Or.inl ⟨w, Pc.returned, rfl, by simp [hpc], by simp, ?_, ?_⟩) <;>
            rw [readStep_poll_true h hpc hi hq] <;> rfl
        | false =>
          refine Or.inr (Or.inl ⟨w, Pc.sleeping i, rfl, by simp [hpc], by simp, ?_, ?_⟩) <;>
            rw [readStep_poll_false h hpc hi hq] <;> rfl
      · refine Or.inr (Or.inl ⟨w, Pc.returned, rfl, by simp [hpc], by simp, ?_, ?_⟩) <;>
          rw [readStep_loop_exit h hpc hi] <;> rfl
    | sleeping i =>
      refine Or.inr (Or.inl ⟨w, Pc.loopHead (i + 1), rfl, by simp [hpc], by simp, ?_, ?_⟩) <;>
        rw [readStep_sleeping h hpc] <;> rfl
    | returned => exact Or.inr (Or.inr ⟨w, rfl, hpc, readStep_returned h hpc⟩)
    | done => exact Or.inl (readStep_done h hpc)

theorem exec_append (st : State) (xs ys : List Step) :
    exec st (xs ++ ys) = exec (exec st xs) ys := by
  simp [exec, List.foldl_append]

/-! ## Handle allocation -/

theorem step_sSocketPtrs_of_ne_open (st : State) (x : Step) (hx : x ≠ Step.callOpen) :
    (step st x).sSocketPtrs = st.sSocketPtrs := by
  cases x with
  | callOpen => exact absurd rfl hx
  | callClose h => simp [step]
  | worker k => simp [step]

theorem opened_eq_range' (st : State) (steps : List Step) :
    opened st steps = List.range' st.sSocketPtrs.length (steps.count Step.callOpen) := by
  induction steps generalizing st with
  | nil => simp [opened]
  | cons x rest ih =>
    cases x with
    | callOpen =>
      simp [opened, ih, Open_fst, Open_snd, List.range'_succ]
    | callClose h =>
      simp [opened, ih, step, List.count_cons]
    | worker k =>
      simp [opened, ih, step, List.count_cons]

/-- C1: in every sequence of `Open`, `Close` and worker steps run from the
initial registry, the calls to `Open` return `1, 2, 3, …` in call order (the
`n`-th call returns `n`); so every handle is positive, the handles are strictly
increasing in call order, and no handle is issued twice. -/
theorem open_returns_successive_handles (steps : List Step) :
    opened init steps = List.range' 1 (steps.count Step.callOpen) ∧
    (∀ n, 1 ≤ n → n ≤ steps.count Step.callOpen →
      (opened init steps)[n - 1]? = some n) ∧
    (∀ h ∈ opened init steps, 0 < h) ∧
    (opened init steps).Pairwise (fun a b => a < b) ∧
    (opened init steps).Nodup := by
  have h := opened_eq_range' init steps
  have h1 : init.sSocketPtrs.length = 1 := rfl
  rw [h1] at h
  rw [h]
  refine ⟨rfl, ?_, ?_, List.pairwise_lt_range' 1 _, List.nodup_range' 1 _⟩
  · intro n h1 hn
    rw [List.getElem?_range' 1 1 (by omega)]
    congr 1
    omega
  · intro x hx
    rw [List.mem_range'_1] at hx
    omega

/-! ## `Close` -/

theorem lock_LOG (who : Thread) (st : State) (x : Msg) (pS : WeakPtr) :
    WeakPtr.lock (LOG who st x) pS = WeakPtr.lock st pS := rfl

theorem lock_setQuit (st : State) (s : Nat) (pS : WeakPtr) :
    WeakPtr.lock (setQuit st s) pS = WeakPtr.lock st pS := by
  cases pS with
  | none => rfl
  | some a =>
    simp only [WeakPtr.lock, setQuit, List.getElem?_modify]
    cases st.heap[a]? with
    | none => rfl
    | some o => by_cases h : s = a <;> simp [h]

theorem lockSlot_of_lt (st : State) (h : Nat) (hlt : h < st.sSocketPtrs.length) :
    lockSlot st h = WeakPtr.lock st (st.sSocketPtrs.get ⟨h, hlt⟩) := by
  simp [lockSlot, List.getElem?_eq_getElem hlt]

theorem slot_eq_none_iff (st : State) (h : Nat) : slot st h = none ↔ lockSlot st h = none := by
  unfold slot
  cases hl : lockSlot st h with
  | none => simp
  | some s =>
    have hlt : h < st.sSocketPtrs.length := by
      by_contra hge
      simp [lockSlot, List.getElem?_eq_none (Nat.le_of_not_lt hge)] at hl
    rw [lockSlot_of_lt st h hlt] at hl
    obtain ⟨_, o, ho, _⟩ := lock_eq_some hl
    simp [ho]

/-- `Close`, case by case on the guard and on the slot. -/
theorem Close_eq (who : Thread) (st : State) (h : Nat) :
    Socket.Close who st h = Except.ok
      (if 0 < h ∧ h < st.sSocketPtrs.length then
        match lockSlot st h with
        | some s => setQuit st s
        | none => LOG who st (Msg.alreadyDeleted h)
      else st) := by
  by_cases hg : 0 < h ∧ h < st.sSocketPtrs.length
  · rw [if_pos hg]
    cases hl : lockSlot st h with
    | none =>
      rw [lockSlot_of_lt st h hg.2] at hl
      exact Close_of_lock_none who st h hg.1 hg.2 hl
    | some s =>
      rw [lockSlot_of_lt st h hg.2] at hl
      exact Close_of_lock_some who st h s hg.1 hg.2 hl
  · rw [if_neg hg]
    exact Close_of_not_guard who st h hg

/-- C4: `Close(h)` never raises, and when `h` is `0`, or not below the size
of the registry, or names a slot that does not resolve any more, it leaves the
registry, every control block (handle, flag, use count) and every worker as
they were.  Holds in every state, reachable or not. -/
theorem Close_bad_handle_is_noop (who : Thread) (st : State) (h : Nat)
    (hbad : h = 0 ∨ st.sSocketPtrs.length ≤ h ∨ slot st h = none) :
    ∃ st1, Socket.Close who st h = Except.ok st1 ∧
      st1.sSocketPtrs = st.sSocketPtrs ∧ st1.heap = st.heap ∧ st1.workers = st.workers := by
  refine ⟨_, Close_eq who st h, ?_⟩
  by_cases hg : 0 < h ∧ h < st.sSocketPtrs.length
  · have hs : slot st h = none := by
      rcases hbad with h0 | hge | hs
      · omega
      · omega
      · exact hs
    rw [slot_eq_none_iff] at hs
    simp only [if_pos hg, hs]
    exact ⟨rfl, rfl, rfl⟩
  · simp only [if_neg hg]
    exact ⟨trivial, trivial, trivial⟩

/-- C7 (as amended): the events that `Close(h)` appends to the trace are
exactly one line "Socket h has already been deleted" when `0 < h <` registry
size and slot `h` does not resolve, and nothing at all otherwise; in
particular nothing for `h = 0` and nothing for a handle never issued. -/
theorem Close_log_output (who : Thread) (st : State) (h : Nat) :
    newEvents st (Socket.closed who st h) =
      (if 0 < h ∧ h < st.sSocketPtrs.length ∧ slot st h = none
        then [Event.log who (Msg.alreadyDeleted h)] else []) ∧
    logLines (newEvents st (Socket.closed who st h)) =
      (if 0 < h ∧ h < st.sSocketPtrs.length ∧ slot st h = none then 1 else 0) := by
  rw [closed_eq_of_Close (Close_eq who st h)]
  by_cases hg : 0 < h ∧ h < st.sSocketPtrs.length
  · rw [if_pos hg]
    cases hl : lockSlot st h with
    | none =>
      have hs := (slot_eq_none_iff st h).2 hl
      simp [hg, hs, newEvents, logLines]
    | some s =>
      have hs : slot st h ≠ none := fun hn => by
        rw [slot_eq_none_iff, hl] at hn
        cases hn
      simp [hg, hs, newEvents, logLines, setQuit]
  · rw [if_neg hg]
    have hg2 : ¬ (0 < h ∧ h < st.sSocketPtrs.length ∧ slot st h = none) :=
      fun hc => hg ⟨hc.1, hc.2.1⟩
    simp [hg2, newEvents, logLines]

/-- C7 (as stated) fails: `999` is non-zero and was never issued in the
initial state, yet `Close(999)` emits no log line, not one. -/
theorem Close_unissued_handle_emits_nothing :
    999 ≠ 0 ∧ init.sSocketPtrs.length ≤ 999 ∧
    Socket.Close mainThread init 999 = Except.ok init ∧
    logLines (newEvents init (Socket.closed mainThread init 999)) = 0 ∧
    ¬ (logLines (newEvents init (Socket.closed mainThread init 999)) = 1) :=
  ⟨by decide, by decide, rfl, by decide, by decide⟩

/-- C8: `Close(h)` applied twice gives the same registry, the same control
blocks (so the same cancellation flags) and the same workers as `Close(h)`
applied once; neither call raises.  Holds for every state and handle. -/
theorem Close_idempotent (who : Thread) (st : State) (h : Nat) :
    ∃ st1 st2, Socket.Close who st h = Except.ok st1 ∧
      Socket.Close who st1 h = Except.ok st2 ∧
      st2.sSocketPtrs = st1.sSocketPtrs ∧ st2.heap = st1.heap ∧
      st2.workers = st1.workers := by
  refine ⟨_, _, Close_eq who st h, Close_eq who _ h, ?_⟩
  by_cases hg : 0 < h ∧ h < st.sSocketPtrs.length
  · simp only [if_pos hg]
    cases hl : lockSlot st h with
    | none =>
      have h2 : lockSlot (LOG who st (Msg.alreadyDeleted h)) h = none := hl
      simp [hg, h2]
    | some s =>
      have h2 : lockSlot (setQuit st s) h = some s := by
        rw [← hl]
        unfold lockSlot
        have : (setQuit st s).sSocketPtrs = st.sSocketPtrs := rfl
        rw [this]
        cases st.sSocketPtrs[h]? with
        | none => rfl
        | some pS => exact lock_setQuit st s pS
      have h3 : (setQuit st s).sSocketPtrs = st.sSocketPtrs := rfl
      simp only [h3, if_pos hg, h2]
      refine ⟨rfl, ?_, rfl⟩
      simp only [setQuit, modify_modify_same]
      congr 1
  · simp only [if_neg hg]
    exact ⟨trivial, trivial, trivial⟩

/-! ## Monotonicity of the cancellation flag -/

theorem step_heap_getElem? (st : State) (x : Step) (a : Nat) (o : Socket)
    (ho : st.heap[a]? = some o) :
    ∃ o1, (step st x).heap[a]? = some o1 ∧ o1.m_handle = o.m_handle ∧
      (o.m_quit = true → o1.m_quit = true) := by
  cases x with
  | callOpen =>
    refine ⟨o, ?_, rfl, id⟩
    have hlt : a < st.heap.length := by
      by_contra hge
      rw [List.getElem?_eq_none (Nat.le_of_not_lt hge)] at ho
      cases ho
    simp [step, Open_snd, List.getElem?_append_left hlt, ho]
  | callClose h =>
    simp only [step, closed_eq_of_Close (Close_eq mainThread st h)]
    split
    · split
      · next s _ =>
        simp only [setQuit, List.getElem?_modify, ho]
        by_cases hs : s = a <;> simp [hs]
      · exact ⟨o, ho, rfl, id⟩
    · exact ⟨o, ho, rfl, id⟩
  | worker k =>
    simp only [step]
    rcases readStep_shape st k with h | ⟨w, pc, _, _, _, hh, _⟩ | ⟨w, _, _, h⟩
    · rw [h]; exact ⟨o, ho, rfl, id⟩
    · rw [hh]; exact ⟨o, ho, rfl, id⟩
    · rw [h]
      simp only [setPc_heap, release_heap, List.getElem?_modify, ho]
      by_cases hs : w.self = a <;> simp [hs]

/-- C10: whatever the step (`Open`, `Close(h)` for any `h`, or any action of
any worker, its exit included), a resource whose `m_quit` is true before the
step has `m_quit` true after it, under the same handle: no step writes
`false`.  Holds for every state, reachable or not. -/
theorem quit_flag_is_monotonic (st : State) (x : Step) (a : Nat) (o : Socket)
    (ho : st.heap[a]? = some o) (hq : o.m_quit = true) :
    ∃ o1, (step st x).heap[a]? = some o1 ∧ o1.m_quit = true ∧
      o1.m_handle = o.m_handle := by
  obtain ⟨o1, h1, h2, h3⟩ := step_heap_getElem? st x a o ho
  exact ⟨o1, h1, h3 hq, h2⟩

/-! ## Slots -/

theorem lockSlot_setQuit (st : State) (s i : Nat) :
    lockSlot (setQuit st s) i = lockSlot st i := by
  unfold lockSlot
  have : (setQuit st s).sSocketPtrs = st.sSocketPtrs := rfl
  rw [this]
  cases st.sSocketPtrs[i]? with
  | none => rfl
  | some pS => exact lock_setQuit st s pS

theorem slot_some_iff {st : State} {i : Nat} {r : Socket} :
    slot st i = some r ↔ ∃ s, lockSlot st i = some s ∧ st.heap[s]? = some r := by
  unfold slot
  cases lockSlot st i with
  | none => simp
  | some s => simp


/-! ## Concurrent calls of `Open`: the invariant -/

theorem keepsHandles_refl (m : State) : keepsHandles m m := fun _ _ => rfl

theorem keepsHandles_of_heap_eq {m m1 : State} (h : m1.heap = m.heap) : keepsHandles m m1 := by
  intro s _
  simp [Socket.getHandle, h]

theorem keepsHandles_modify {m m1 : State} (f : Socket → Socket) (a : Nat)
    (hf : ∀ o, (f o).m_handle = o.m_handle) (h : m1.heap = m.heap.modify f a) :
    keepsHandles m m1 := by
  intro s _
  simp only [Socket.getHandle, h, List.getElem?_modify]
  cases m.heap[s]? with
  | none => rfl
  | some o => by_cases ha : a = s <;> simp [ha, hf]

theorem keepsHandles_alloc (m : State) : keepsHandles m (Socket.alloc m).2 := by
  intro s hs
  have hlt : s < m.heap.length := by
    by_contra hge
    simp [Socket.getHandle, List.getElem?_eq_none (Nat.le_of_not_lt hge)] at hs
  simp [Socket.getHandle, Socket.alloc, List.getElem?_append_left hlt]

theorem keepsHandles_run (m : State) (s : Nat) : keepsHandles m (Socket.run m s) :=
  keepsHandles_modify (fun o => { o with useCount := o.useCount + 1 }) s (fun _ => rfl) rfl

theorem keepsHandles_release (who : Thread) (m : State) (s : Nat) :
    keepsHandles m (release who m s) :=
  keepsHandles_modify (fun o => { o with useCount := o.useCount - 1 }) s (fun _ => rfl)
    (release_heap who m s)

theorem keepsHandles_readStep (m : State) (k : Nat) :
    keepsHandles m (Socket.readStep m k) := by
  rcases readStep_shape m k with h | ⟨_, _, _, _, _, hh, _⟩ | ⟨w, _, _, h⟩
  · rw [h]; exact keepsHandles_refl m
  · exact keepsHandles_of_heap_eq hh
  · rw [h]
    exact keepsHandles_modify (fun o => { o with useCount := o.useCount - 1 }) w.self
      (fun _ => rfl) (by simp)

theorem getHandle_alloc (m : State) :
    Socket.getHandle (Socket.alloc m).2 (Socket.alloc m).1 = m.sSocketPtrs.length := by
  simp [Socket.getHandle, Socket.alloc, Socket.NextHandle]

theorem handleIn_keeps {m m1 : State} (hk : keepsHandles m m1) (pc : OpenPc) (h : Nat)
    (hh : pc.handleIn m1 = some h) :
    ∃ h0, pc.handleIn m = some h0 ∧ (h0 ≠ 0 → h = h0) := by
  cases pc with
  | waiting => simp [OpenPc.handleIn] at hh
  | locked => simp [OpenPc.handleIn] at hh
  | allocated s =>
    simp only [OpenPc.handleIn, Option.some.injEq] at hh ⊢
    exact ⟨_, rfl, fun h0 => by rw [← hh, hk s h0]⟩
  | constructed s =>
    simp only [OpenPc.handleIn, Option.some.injEq] at hh ⊢
    exact ⟨_, rfl, fun h0 => by rw [← hh, hk s h0]⟩
  | registered s =>
    simp only [OpenPc.handleIn, Option.some.injEq] at hh ⊢
    exact ⟨_, rfl, fun h0 => by rw [← hh, hk s h0]⟩
  | unlocked s =>
    simp only [OpenPc.handleIn, Option.some.injEq] at hh ⊢
    exact ⟨_, rfl, fun h0 => by rw [← hh, hk s h0]⟩
  | spawned s h1 =>
    simp only [OpenPc.handleIn, Option.some.injEq] at hh ⊢
    exact ⟨_, rfl, fun _ => hh.symm⟩
  | returned h1 =>
    simp only [OpenPc.handleIn, Option.some.injEq] at hh ⊢
    exact ⟨_, rfl, fun _ => hh.symm⟩

theorem getElem?_set_of_some {α : Type} {l : List α} {t j : Nat} {a b : α}
    (ht : l[t]? = some b) :
    (l.set t a)[j]? = if t = j then some a else l[j]? := by
  have hlt : t < l.length := by
    by_contra hge
    rw [List.getElem?_eq_none (Nat.le_of_not_lt hge)] at ht
    cases ht
  rw [List.getElem?_set]
  simp [hlt]

/-- The invariant is kept when only the process state changes, handles and
registry size being preserved. -/
theorem CInv_mem {c : CState} (hI : CInv c) (m1 : State) (hk : keepsHandles c.mem m1)
    (hlen : m1.sSocketPtrs.length = c.mem.sSocketPtrs.length) :
    CInv { c with mem := m1 } := by
  refine ⟨hI.nodup, hI.mem_acq, ?_, ?_⟩
  · intro i t pc hi ht
    obtain ⟨h1, h2⟩ := hI.pos i t pc hi ht
    refine ⟨fun h hh => ?_, h2⟩
    obtain ⟨h0, hh0, himp⟩ := handleIn_keeps hk pc h hh
    have := h1 h0 hh0
    rw [himp (by omega), this]
  · have hs := hI.size
    show match c.sSktCreationMutex with
      | none => m1.sSocketPtrs.length = c.acquired.length + 1
      | some t => ∃ pc, c.callers[t]? = some pc ∧ pc.holds = true ∧
          m1.sSocketPtrs.length = c.acquired.length + (if pc.hasRegistered then 1 else 0)
    rw [hlen]
    exact hs

theorem CInv.index_of_caller {c : CState} (hI : CInv c) {t : Nat} {pc : OpenPc}
    (hpc : c.callers[t]? = some pc) (hw : pc ≠ OpenPc.waiting) :
    ∃ i : Nat, c.acquired[i]? = some t :=
  List.mem_iff_getElem?.1 ((hI.mem_acq t).2 ⟨pc, hpc, hw⟩)

theorem CInv.holder {c : CState} (hI : CInv c) {t : Nat} {pc : OpenPc}
    (hpc : c.callers[t]? = some pc) (hh : pc.holds = true) :
    c.sSktCreationMutex = some t ∧
    c.mem.sSocketPtrs.length = c.acquired.length + (if pc.hasRegistered then 1 else 0) ∧
    ∃ i : Nat, c.acquired[i]? = some t ∧ i + 1 = c.acquired.length := by
  have hw : pc ≠ OpenPc.waiting := by
    intro h
    rw [h] at hh
    simp [OpenPc.holds] at hh
  obtain ⟨i, hi⟩ := hI.index_of_caller hpc hw
  obtain ⟨hm, hlen⟩ := (hI.pos i t pc hi hpc).2 hh
  have hs := hI.size
  simp only [hm] at hs
  obtain ⟨pc0, hpc0, _, hsz⟩ := hs
  rw [hpc] at hpc0
  cases hpc0
  exact ⟨hm, hsz, i, hi, hlen⟩

/-- The invariant is kept by every action of a caller other than taking the
mutex, stated once for all of them. -/
theorem CInv_update {c : CState} (hI : CInv c) (t : Nat) (pc pc1 : OpenPc) (m1 : State)
    (hpc : c.callers[t]? = some pc)
    (hA : pc ≠ OpenPc.waiting) (hA1 : pc1 ≠ OpenPc.waiting)
    (hB : keepsHandles c.mem m1)
    (hC : ∀ h, pc1.handleIn m1 = some h →
      pc.handleIn c.mem = some h ∨ (pc = OpenPc.locked ∧ h = c.mem.sSocketPtrs.length))
    (hD : pc1.holds = true → pc.holds = true)
    (hF : pc.hasRegistered = true → pc1.hasRegistered = true)
    (hG : m1.sSocketPtrs.length = c.mem.sSocketPtrs.length +
      (if pc1.hasRegistered = true ∧ pc.hasRegistered = false then 1 else 0))
    (hH : pc.holds = true → pc1.holds = false → pc1.hasRegistered = true)
    (hJ : pc.holds = false → pc1.hasRegistered = true → pc.hasRegistered = true) :
    CInv { mem := m1,
           sSktCreationMutex :=
             if pc.holds = true ∧ pc1.holds = false then none else c.sSktCreationMutex,
           callers := c.callers.set t pc1,
           acquired := c.acquired } := by
  refine ⟨hI.nodup, ?_, ?_, ?_⟩
  · intro t1
    rw [hI.mem_acq t1]
    show _ ↔ ∃ pc2, (c.callers.set t pc1)[t1]? = some pc2 ∧ pc2 ≠ OpenPc.waiting
    rw [getElem?_set_of_some hpc]
    by_cases htt : t = t1
    · subst htt
      simp [hpc, hA, hA1]
    · simp [htt]
  · intro i t1 pc2 hi ht1
    have ht1 : (c.callers.set t pc1)[t1]? = some pc2 := ht1
    have hi : c.acquired[i]? = some t1 := hi
    rw [getElem?_set_of_some hpc] at ht1
    show (∀ h, pc2.handleIn m1 = some h → h = i + 1) ∧
      (pc2.holds = true →
        (if pc.holds = true ∧ pc1.holds = false then none else c.sSktCreationMutex) = some t1 ∧
        i + 1 = c.acquired.length)
    by_cases htt : t = t1
    · subst htt
      simp only [if_true, Option.some.injEq] at ht1
      subst ht1
      obtain ⟨h1, h2⟩ := hI.pos i t pc hi hpc
      constructor
      · intro h hh
        rcases hC h hh with hold | ⟨hl, hh2⟩
        · exact h1 h hold
        · subst hl
          obtain ⟨_, hsz, j, hj, hjl⟩ := hI.holder hpc rfl
          have hij : i = j := by
            obtain ⟨hi1, hi2⟩ := List.getElem?_eq_some.1 hi
            obtain ⟨hj1, hj2⟩ := List.getElem?_eq_some.1 hj
            exact (List.Nodup.getElem_inj_iff hI.nodup).1 (hi2.trans hj2.symm)
          simp [OpenPc.hasRegistered] at hsz
          omega
      · intro hh1
        have hh := hD hh1
        obtain ⟨hm, hlen⟩ := h2 hh
        exact ⟨by simp [hh1, hm], hlen⟩
    · simp only [htt, if_false] at ht1
      obtain ⟨h1, h2⟩ := hI.pos i t1 pc2 hi ht1
      constructor
      · intro h hh
        obtain ⟨h0, hh0, himp⟩ := handleIn_keeps hB pc2 h hh
        have := h1 h0 hh0
        rw [himp (by omega), this]
      · intro hh1
        obtain ⟨hm, hlen⟩ := h2 hh1
        refine ⟨?_, hlen⟩
        have hph : pc.holds = false := by
          cases hp : pc.holds with
          | false => rfl
          | true =>
            exfalso
            obtain ⟨hm2, _⟩ := hI.holder hpc hp
            rw [hm] at hm2
            cases hm2
            exact htt rfl
        simp [hph, hm]
  · show match (if pc.holds = true ∧ pc1.holds = false then none else c.sSktCreationMutex) with
      | none => m1.sSocketPtrs.length = c.acquired.length + 1
      | some t2 => ∃ pc2, (c.callers.set t pc1)[t2]? = some pc2 ∧ pc2.holds = true ∧
          m1.sSocketPtrs.length = c.acquired.length + (if pc2.hasRegistered then 1 else 0)
    cases hp : pc.holds with
    | true =>
      obtain ⟨hm, hsz, _⟩ := hI.holder hpc hp
      cases hp1 : pc1.holds with
      | false =>
        have hr1 := hH hp hp1
        simp only [and_self, if_true]
        rw [hG, hsz]
        cases hr : pc.hasRegistered <;> simp [hr, hr1]
      | true =>
        simp only [Bool.true_eq_false, and_false, if_false, hm]
        refine ⟨pc1, by rw [getElem?_set_of_some hpc]; simp, hp1, ?_⟩
        rw [hG, hsz]
        cases hr : pc.hasRegistered with
        | true => simp [hF hr]
        | false => cases hr1 : pc1.hasRegistered <;> simp
    | false =>
      have hp1 : pc1.holds = false := by
        cases h : pc1.holds with
        | false => rfl
        | true =>
          have := hD h
          rw [hp] at this
          cases this
      have hlen : m1.sSocketPtrs.length = c.mem.sSocketPtrs.length := by
        rw [hG]
        cases hr1 : pc1.hasRegistered with
        | false => simp
        | true => simp [hJ hp hr1]
      simp only [Bool.false_eq_true, false_and, if_false]
      have hs := hI.size
      cases hm : c.sSktCreationMutex with
      | none =>
        simp only [hm] at hs
        show m1.sSocketPtrs.length = c.acquired.length + 1
        rw [hlen, hs]
      | some t2 =>
        simp only [hm] at hs
        obtain ⟨pc0, hpc0, hh0, hsz⟩ := hs
        have hne : t ≠ t2 := by
          intro h
          subst h
          rw [hpc] at hpc0
          cases hpc0
          rw [hp] at hh0
          cases hh0
        refine ⟨pc0, ?_, hh0, by rw [hlen, hsz]⟩
        rw [getElem?_set_of_some hpc]
        simp [hne, hpc0]

theorem CInv_acquire {c : CState} (hI : CInv c) (t : Nat)
    (hpc : c.callers[t]? = some OpenPc.waiting) (hm : c.sSktCreationMutex = none) :
    CInv { c with sSktCreationMutex := some t, callers := c.callers.set t OpenPc.locked,
                  acquired := c.acquired ++ [t] } := by
  have hnot : t ∉ c.acquired := by
    intro h
    obtain ⟨pc, h1, h2⟩ := (hI.mem_acq t).1 h
    rw [hpc] at h1
    cases h1
    exact h2 rfl
  refine ⟨?_, ?_, ?_, ?_⟩
  · show (c.acquired ++ [t]).Nodup
    rw [List.nodup_append]
    refine ⟨hI.nodup, List.nodup_singleton t, ?_⟩
    intro x hx hx2
    rw [List.mem_singleton] at hx2
    subst hx2
    exact hnot hx
  · intro t1
    show t1 ∈ c.acquired ++ [t] ↔
      ∃ pc, (c.callers.set t OpenPc.locked)[t1]? = some pc ∧ pc ≠ OpenPc.waiting
    rw [getElem?_set_of_some hpc, List.mem_append, List.mem_singleton, hI.mem_acq t1]
    by_cases htt : t = t1
    · subst htt
      simp
    · have htt2 : ¬ t1 = t := fun h => htt h.symm
      simp [htt, htt2]
  · intro i t1 pc1 hi ht1
    have hi : (c.acquired ++ [t])[i]? = some t1 := hi
    have ht1 : (c.callers.set t OpenPc.locked)[t1]? = some pc1 := ht1
    show (∀ h, pc1.handleIn c.mem = some h → h = i + 1) ∧
      (pc1.holds = true → some t = some t1 ∧ i + 1 = (c.acquired ++ [t]).length)
    rw [getElem?_set_of_some hpc] at ht1
    rw [List.getElem?_append] at hi
    by_cases hlt : i < c.acquired.length
    · simp only [hlt, if_true] at hi
      have hne : t ≠ t1 := by
        intro h
        subst h
        exact hnot (List.getElem?_mem hi)
      simp only [hne, if_false] at ht1
      obtain ⟨h1, h2⟩ := hI.pos i t1 pc1 hi ht1
      refine ⟨h1, fun hh => ?_⟩
      rw [hm] at h2
      exact absurd (h2 hh).1 (by simp)
    · simp only [hlt, if_false] at hi
      have hi0 : i = c.acquired.length := by
        by_contra hne
        have : i - c.acquired.length ≠ 0 := by omega
        obtain ⟨n, hn⟩ := Nat.exists_eq_succ_of_ne_zero this
        simp [hn] at hi
      subst hi0
      simp at hi
      subst hi
      simp only [if_true, Option.some.injEq] at ht1
      subst ht1
      exact ⟨fun h hh => by simp [OpenPc.handleIn] at hh, fun _ => ⟨rfl, by simp⟩⟩
  · show ∃ pc, (c.callers.set t OpenPc.locked)[t]? = some pc ∧ pc.holds = true ∧
      c.mem.sSocketPtrs.length = (c.acquired ++ [t]).length + (if pc.hasRegistered then 1 else 0)
    refine ⟨OpenPc.locked, by rw [getElem?_set_of_some hpc]; simp, rfl, ?_⟩
    have hs := hI.size
    simp only [hm] at hs
    simp [OpenPc.hasRegistered, hs]

/-- Every action of a caller keeps the invariant. -/
theorem CInv_callerStep {c : CState} (hI : CInv c) (t : Nat) (pc : OpenPc)
    (hpc : c.callers[t]? = some pc) : CInv (callerStep c t pc) := by
  cases pc with
  | waiting =>
    cases hm : c.sSktCreationMutex with
    | some t0 =>
      have : callerStep c t OpenPc.waiting = c := by simp [callerStep, hm]
      rw [this]
      exact hI
    | none =>
      have : callerStep c t OpenPc.waiting =
          { c with sSktCreationMutex := some t, callers := c.callers.set t OpenPc.locked,
                   acquired := c.acquired ++ [t] } := by
        simp [callerStep, hm]
      rw [this]
      exact CInv_acquire hI t hpc hm
  | locked =>
    exact CInv_update hI t OpenPc.locked (OpenPc.allocated (Socket.alloc c.mem).1)
      (Socket.alloc c.mem).2 hpc (by simp) (by simp) (keepsHandles_alloc c.mem)
      (fun h hh => Or.inr ⟨rfl, by
        simp only [OpenPc.handleIn, Option.some.injEq] at hh
        rw [← hh, getHandle_alloc]⟩)
      (fun _ => rfl) (fun h => by simp [OpenPc.hasRegistered] at h)
      (by simp [OpenPc.hasRegistered, Socket.alloc])
      (fun _ h => by simp [OpenPc.holds] at h) (fun h => by simp [OpenPc.holds] at h)
  | allocated s =>
    exact CInv_update hI t (OpenPc.allocated s) (OpenPc.constructed s)
      (Socket.ctorBody (Thread.caller t) c.mem s) hpc (by simp) (by simp)
      (keepsHandles_of_heap_eq rfl) (fun h hh => Or.inl hh)
      (fun _ => rfl) (fun h => by simp [OpenPc.hasRegistered] at h)
      (by simp [OpenPc.hasRegistered, Socket.ctorBody])
      (fun _ h => by simp [OpenPc.holds] at h) (fun h => by simp [OpenPc.holds] at h)
  | constructed s =>
    exact CInv_update hI t (OpenPc.constructed s) (OpenPc.registered s)
      (Socket.RegisterSkt c.mem s) hpc (by simp) (by simp)
      (keepsHandles_of_heap_eq rfl) (fun h hh => Or.inl hh)
      (fun _ => rfl) (fun h => by simp [OpenPc.hasRegistered] at h)
      (by simp [OpenPc.hasRegistered, Socket.RegisterSkt])
      (fun _ h => by simp [OpenPc.holds] at h) (fun h => by simp [OpenPc.holds] at h)
  | registered s =>
    exact CInv_update hI t (OpenPc.registered s) (OpenPc.unlocked s) c.mem hpc
      (by simp) (by simp) (keepsHandles_refl c.mem) (fun h hh => Or.inl hh)
      (fun h => by simp [OpenPc.holds] at h) (fun _ => rfl)
      (by simp [OpenPc.hasRegistered])
      (fun _ _ => rfl) (fun h => by simp [OpenPc.holds] at h)
  | unlocked s =>
    exact CInv_update hI t (OpenPc.unlocked s) (OpenPc.spawned s (Socket.getHandle c.mem s))
      (Socket.run c.mem s) hpc (by simp) (by simp) (keepsHandles_run c.mem s)
      (fun h hh => Or.inl hh)
      (fun h => by simp [OpenPc.holds] at h) (fun _ => rfl)
      (by simp [OpenPc.hasRegistered, Socket.run, retain])
      (fun h => by simp [OpenPc.holds] at h) (fun _ _ => rfl)
  | spawned s h0 =>
    exact CInv_update hI t (OpenPc.spawned s h0) (OpenPc.returned h0)
      (release (Thread.caller t) c.mem s) hpc (by simp) (by simp)
      (keepsHandles_release _ c.mem s) (fun h hh => Or.inl hh)
      (fun h => by simp [OpenPc.holds] at h) (fun _ => rfl)
      (by simp [OpenPc.hasRegistered])
      (fun h => by simp [OpenPc.holds] at h) (fun _ _ => rfl)
  | returned h0 => exact hI

theorem CInv_cstep {c : CState} (hI : CInv c) (x : CStep) : CInv (cstep c x) := by
  cases x with
  | caller t =>
    simp only [cstep]
    cases hpc : c.callers[t]? with
    | none => exact hI
    | some pc => exact CInv_callerStep hI t pc hpc
  | worker k =>
    exact CInv_mem hI (Socket.readStep c.mem k) (keepsHandles_readStep c.mem k)
      (by rw [readStep_sSocketPtrs])

theorem CInv_cinit (n : Nat) : CInv (cinit n) := by
  refine ⟨by simp [cinit], ?_, ?_, ?_⟩
  · intro t
    simp only [cinit, List.not_mem_nil, false_iff]
    rintro ⟨pc, h1, h2⟩
    have := List.getElem?_mem h1
    rw [List.mem_replicate] at this
    exact h2 this.2
  · intro i t pc hi
    simp [cinit] at hi
  · simp [cinit, init]

theorem CInv_crun {c : CState} (hI : CInv c) (sched : List CStep) : CInv (crun c sched) := by
  induction sched generalizing c with
  | nil => exact hI
  | cons x rest ih => exact ih (CInv_cstep hI x)

/-! ## Concurrent calls of `Open`: every call returns -/

theorem crun_append (c : CState) (xs ys : List CStep) :
    crun c (xs ++ ys) = crun (crun c xs) ys := by
  simp [crun, List.foldl_append]

theorem cstep_callers_length (c : CState) (x : CStep) :
    (cstep c x).callers.length = c.callers.length := by
  cases x with
  | caller t =>
    simp only [cstep]
    cases hpc : c.callers[t]? with
    | none => rfl
    | some pc =>
      cases pc <;> simp only [callerStep, List.length_set]
      split <;> simp
  | worker k => rfl

theorem crun_callers_length (c : CState) (sched : List CStep) :
    (crun c sched).callers.length = c.callers.length := by
  induction sched generalizing c with
  | nil => rfl
  | cons x rest ih =>
    show (crun (cstep c x) rest).callers.length = _
    rw [ih, cstep_callers_length]

theorem CInv.mutex_holder {c : CState} (hI : CInv c) {t : Nat}
    (hm : c.sSktCreationMutex = some t) :
    ∃ pc, c.callers[t]? = some pc ∧ pc.holds = true := by
  have hs := hI.size
  simp only [hm] at hs
  obtain ⟨pc0, hpc0, hh0, _⟩ := hs
  exact ⟨pc0, hpc0, hh0⟩

/-- A caller that is not blocked advances by one action; the other callers
stay where they are. -/
theorem caller_progress {c : CState} (hI : CInv c) (t : Nat) (pc : OpenPc)
    (hpc : c.callers[t]? = some pc) (hU : unblocked c t) :
    unblocked (cstep c (CStep.caller t)) t ∧
    (∃ pc1, (cstep c (CStep.caller t)).callers[t]? = some pc1 ∧ pc1.left = pc.left - 1) ∧
    ∀ t1, t1 ≠ t → (cstep c (CStep.caller t)).callers[t1]? = c.callers[t1]? := by
  have hset : ∀ (pc1 : OpenPc) (t1 : Nat), t1 ≠ t → (c.callers.set t pc1)[t1]? = c.callers[t1]? := by
    intro pc1 t1 hne
    rw [getElem?_set_of_some hpc]
    have hne2 : ¬ t = t1 := fun h => hne h.symm
    simp [hne2]
  have hself : ∀ pc1 : OpenPc, (c.callers.set t pc1)[t]? = some pc1 := by
    intro pc1
    rw [getElem?_set_of_some hpc]
    simp
  simp only [cstep, hpc]
  cases pc with
  | waiting =>
    have hm : c.sSktCreationMutex = none := by
      rcases hU with h | h
      · exact h
      · exfalso
        obtain ⟨pc0, hpc0, hh0⟩ := hI.mutex_holder h
        rw [hpc] at hpc0
        cases hpc0
        simp [OpenPc.holds] at hh0
    simp only [callerStep, hm]
    exact ⟨Or.inr rfl, ⟨_, hself _, rfl⟩, hset _⟩
  | locked => exact ⟨hU, ⟨_, hself _, rfl⟩, hset _⟩
  | allocated s => exact ⟨hU, ⟨_, hself _, rfl⟩, hset _⟩
  | constructed s => exact ⟨hU, ⟨_, hself _, rfl⟩, hset _⟩
  | registered s => exact ⟨Or.inl rfl, ⟨_, hself _, rfl⟩, hset _⟩
  | unlocked s => exact ⟨hU, ⟨_, hself _, rfl⟩, hset _⟩
  | spawned s h => exact ⟨hU, ⟨_, hself _, rfl⟩, hset _⟩
  | returned h => exact ⟨hU, ⟨_, hpc, rfl⟩, fun _ _ => rfl⟩

theorem caller_progress_n {c : CState} (hI : CInv c) (t : Nat) (pc : OpenPc)
    (hpc : c.callers[t]? = some pc) (hU : unblocked c t) (n : Nat) :
    unblocked (crun c (List.replicate n (CStep.caller t))) t ∧
    (∃ pc1, (crun c (List.replicate n (CStep.caller t))).callers[t]? = some pc1 ∧
      pc1.left = pc.left - n) ∧
    ∀ t1, t1 ≠ t →
      (crun c (List.replicate n (CStep.caller t))).callers[t1]? = c.callers[t1]? := by
  induction n generalizing c pc with
  | zero => exact ⟨hU, ⟨pc, hpc, rfl⟩, fun _ _ => rfl⟩
  | succ n ih =>
    obtain ⟨hU1, ⟨pc1, hpc1, hl1⟩, ho1⟩ := caller_progress hI t pc hpc hU
    obtain ⟨hU2, ⟨pc2, hpc2, hl2⟩, ho2⟩ := ih (CInv_cstep hI _) pc1 hpc1 hU1
    refine ⟨hU2, ⟨pc2, hpc2, ?_⟩, fun t1 hne => ?_⟩
    · rw [hl2, hl1]
      omega
    · exact (ho2 t1 hne).trans (ho1 t1 hne)

theorem result_of_left_eq_zero {pc : OpenPc} (h : pc.left = 0) : pc.result ≠ none := by
  cases pc <;> simp [OpenPc.left] at h
  simp [OpenPc.result]

theorem left_le (pc : OpenPc) : pc.left ≤ 7 := by
  cases pc <;> simp [OpenPc.left]

/-- Seven steps of an unblocked caller make it return, with the mutex free
afterwards and the other callers where they were. -/
theorem finish_one {c : CState} (hI : CInv c) (t : Nat) (pc : OpenPc)
    (hpc : c.callers[t]? = some pc) (hU : unblocked c t) :
    (crun c (List.replicate 7 (CStep.caller t))).sSktCreationMutex = none ∧
    (∃ pc1, (crun c (List.replicate 7 (CStep.caller t))).callers[t]? = some pc1 ∧
      pc1.result ≠ none) ∧
    ∀ t1, t1 ≠ t →
      (crun c (List.replicate 7 (CStep.caller t))).callers[t1]? = c.callers[t1]? := by
  obtain ⟨hU1, ⟨pc1, hpc1, hl1⟩, ho1⟩ := caller_progress_n hI t pc hpc hU 7
  have hI1 := CInv_crun hI (List.replicate 7 (CStep.caller t))
  have hz : pc1.left = 0 := by
    have := left_le pc
    omega
  have hres := result_of_left_eq_zero hz
  refine ⟨?_, ⟨pc1, hpc1, hres⟩, ho1⟩
  rcases hU1 with h | h
  · exact h
  · exfalso
    obtain ⟨pc0, hpc0, hh0⟩ := hI1.mutex_holder h
    rw [hpc1] at hpc0
    cases hpc0
    cases pc1 <;> simp [OpenPc.left] at hz
    simp [OpenPc.holds] at hh0

/-- Giving seven steps to each of the first `k` callers in turn, starting with
the mutex free, makes all of them return and keeps the callers that had
returned. -/
theorem finish_prefix {c : CState} (hI : CInv c) (hm : c.sSktCreationMutex = none) (k : Nat)
    (hk : k ≤ c.callers.length) :
    (crun c ((List.range k).flatMap fun t => List.replicate 7 (CStep.caller t))
      ).sSktCreationMutex = none ∧
    (∀ t pc, t < k →
      (crun c ((List.range k).flatMap fun t => List.replicate 7 (CStep.caller t))
        ).callers[t]? = some pc → pc.result ≠ none) ∧
    (∀ t pc, k ≤ t →
      (crun c ((List.range k).flatMap fun t => List.replicate 7 (CStep.caller t))
        ).callers[t]? = some pc → c.callers[t]? = some pc) := by
  induction k with
  | zero =>
    refine ⟨by simpa [crun] using hm, fun t pc ht => by omega, fun t pc _ h => ?_⟩
    simpa [crun] using h
  | succ k ih =>
    obtain ⟨hm1, hdone, hrest⟩ := ih (by omega)
    rw [List.range_succ, List.flatMap_append, List.flatMap_singleton, crun_append]
    have hI1 := CInv_crun hI ((List.range k).flatMap fun t => List.replicate 7 (CStep.caller t))
    have hlen := crun_callers_length c
      ((List.range k).flatMap fun t => List.replicate 7 (CStep.caller t))
    have hklt : k < (crun c ((List.range k).flatMap fun t =>
        List.replicate 7 (CStep.caller t))).callers.length := by
      rw [hlen]
      omega
    have hpc := List.getElem?_eq_getElem hklt
    obtain ⟨hm2, ⟨pc1, hpc1, hres⟩, ho⟩ := finish_one hI1 k _ hpc (Or.inl hm1)
    refine ⟨hm2, fun t pc ht h => ?_, fun t pc ht h => ?_⟩
    · by_cases htk : t = k
      · subst htk
        rw [hpc1] at h
        cases h
        exact hres
      · rw [ho t htk] at h
        exact hdone t pc (by omega) h
    · have htk : t ≠ k := by omega
      rw [ho t htk] at h
      exact hrest t pc (by omega) h

/-- From every state of the concurrent machine that satisfies the invariant,
the schedule `finishAll` lets every call of `Open` return. -/
theorem finishAll_allReturned {c : CState} (hI : CInv c) :
    allReturned (crun c (finishAll c c.callers.length)) := by
  unfold finishAll
  rw [crun_append]
  have key : ∀ c1 : CState, CInv c1 → c1.sSktCreationMutex = none →
      c1.callers.length = c.callers.length →
      allReturned (crun c1 ((List.range c.callers.length).flatMap fun t =>
        List.replicate 7 (CStep.caller t))) := by
    intro c1 hI1 hm1 hlen
    obtain ⟨_, hdone, _⟩ := finish_prefix hI1 hm1 c.callers.length (by omega)
    intro pc hmem
    obtain ⟨t, ht⟩ := List.mem_iff_getElem?.1 hmem
    have hlt : t < c.callers.length := by
      obtain ⟨h1, _⟩ := List.getElem?_eq_some.1 ht
      rw [crun_callers_length, hlen] at h1
      exact h1
    exact hdone t pc hlt ht
  cases hm : c.sSktCreationMutex with
  | none => exact key c hI hm rfl
  | some t0 =>
    obtain ⟨pc0, hpc0, _⟩ := hI.mutex_holder hm
    obtain ⟨hm1, _, _⟩ := finish_one hI t0 pc0 hpc0 (Or.inr hm)
    exact key _ (CInv_crun hI _) hm1 (crun_callers_length c _)

/-! ## Concurrent calls of `Open`: the handles -/

theorem CInv_of_creachable {n : Nat} {c : CState} (hr : creachable n c) :
    CInv c ∧ c.callers.length = n := by
  obtain ⟨sched, rfl⟩ := hr
  exact ⟨CInv_crun (CInv_cinit n) sched, by simp [crun_callers_length, cinit]⟩

theorem CInv.acquired_length_le {c : CState} (hI : CInv c) :
    c.acquired.length ≤ c.callers.length := by
  have hsub : c.acquired ⊆ List.range c.callers.length := by
    intro t ht
    obtain ⟨pc, hpc, _⟩ := (hI.mem_acq t).1 ht
    rw [List.mem_range]
    exact (List.getElem?_eq_some.1 hpc).1
  have := (List.Nodup.subperm hI.nodup hsub).length_le
  simpa using this

theorem ne_waiting_of_result {pc : OpenPc} (h : pc.result ≠ none) : pc ≠ OpenPc.waiting := by
  intro hw
  rw [hw] at h
  exact h rfl

theorem returned_of_result {pc : OpenPc} (h : pc.result ≠ none) :
    ∃ handle, pc = OpenPc.returned handle := by
  cases pc <;> simp [OpenPc.result] at h
  exact ⟨_, rfl⟩

theorem CInv.acquired_length_eq {c : CState} (hI : CInv c) (hall : allReturned c) :
    c.acquired.length = c.callers.length := by
  apply Nat.le_antisymm hI.acquired_length_le
  have hsub : List.range c.callers.length ⊆ c.acquired := by
    intro t ht
    rw [List.mem_range] at ht
    have hpc := List.getElem?_eq_getElem ht
    exact (hI.mem_acq t).2 ⟨_, hpc, ne_waiting_of_result (hall _ (List.getElem?_mem hpc))⟩
  have := (List.Nodup.subperm (List.nodup_range _) hsub).length_le
  simpa using this

/-- The caller who was the `i`-th (from `0`) to take the creation mutex
returns `i + 1`. -/
theorem CInv.returned_handle {c : CState} (hI : CInv c) {t h : Nat}
    (hpc : c.callers[t]? = some (OpenPc.returned h)) :
    ∃ i : Nat, c.acquired[i]? = some t ∧ h = i + 1 := by
  obtain ⟨i, hi⟩ := hI.index_of_caller hpc (by simp)
  exact ⟨i, hi, (hI.pos i t _ hi hpc).1 h rfl⟩

/-- C2: in every state that `n` concurrent calls of `Open` can reach from
the initial state, under any interleaving of their atomic actions and of the
steps of the workers they start (with `NextHandle` and `RegisterSkt` two
separate critical sections inside `sSktCreationMutex`): a call that has
returned `h` has `0 < h ≤ n` and was the `h`-th to take the creation mutex;
two calls never return the same handle; once all calls have returned, the
handles listed in the order in which the calls took the mutex are exactly
`1, 2, …, n`; and every such state can be continued so that all calls
return. -/
theorem concurrent_opens_get_successive_handles (n : Nat) (c : CState)
    (hr : creachable n c) :
    (∀ (t h : Nat), c.callers[t]? = some (OpenPc.returned h) →
      0 < h ∧ h ≤ n ∧ c.acquired[h - 1]? = some t) ∧
    (∀ (t1 t2 h : Nat), c.callers[t1]? = some (OpenPc.returned h) →
      c.callers[t2]? = some (OpenPc.returned h) → t1 = t2) ∧
    (allReturned c → resultsInOrder c = (List.range' 1 n).map some) ∧
    allReturned (crun c (finishAll c n)) := by
  obtain ⟨hI, hlen⟩ := CInv_of_creachable hr
  have h1 : ∀ (t h : Nat), c.callers[t]? = some (OpenPc.returned h) →
      0 < h ∧ h ≤ n ∧ c.acquired[h - 1]? = some t := by
    intro t h hpc
    obtain ⟨i, hi, rfl⟩ := hI.returned_handle hpc
    have hlt := (List.getElem?_eq_some.1 hi).1
    have := hI.acquired_length_le
    exact ⟨by omega, by omega, by simpa using hi⟩
  refine ⟨h1, ?_, ?_, ?_⟩
  · intro t1 t2 h hp1 hp2
    have e1 := (h1 t1 h hp1).2.2
    have e2 := (h1 t2 h hp2).2.2
    rw [e1] at e2
    exact Option.some.inj e2
  · intro hall
    have hlen2 := hI.acquired_length_eq hall
    apply List.ext_getElem?
    intro i
    simp only [resultsInOrder, List.getElem?_map]
    by_cases hi : i < n
    · have hilt : i < c.acquired.length := by omega
      have hai := List.getElem?_eq_getElem hilt
      obtain ⟨pc, hpc, _⟩ := (hI.mem_acq _).1 (List.getElem?_mem hai)
      obtain ⟨h, rfl⟩ := returned_of_result (hall pc (List.getElem?_mem hpc))
      have hh := (hI.pos i _ _ hai hpc).1 h rfl
      rw [hai, List.getElem?_range' 1 1 hi]
      simp [hpc, OpenPc.result, hh]
      omega
    · have h1 : c.acquired[i]? = none := List.getElem?_eq_none (by omega)
      have h2 : (List.range' 1 n)[i]? = none := List.getElem?_eq_none (by simp; omega)
      rw [h1, h2]
      rfl
  · rw [← hlen]
    exact finishAll_allReturned hI

/-- Instance of `concurrent_opens_get_successive_handles` on an interleaving
of two calls: the second caller took the mutex first and got `1`. -/
theorem concurrent_opens_get_successive_handles_witness :
    creachable 2 (crun (cinit 2) twoCallersSchedule) ∧
    allReturned (crun (cinit 2) twoCallersSchedule) ∧
    (crun (cinit 2) twoCallersSchedule).callers = [OpenPc.returned 2, OpenPc.returned 1] ∧
    (crun (cinit 2) twoCallersSchedule).acquired = [1, 0] ∧
    resultsInOrder (crun (cinit 2) twoCallersSchedule) = (List.range' 1 2).map some :=
  have hr : creachable 2 (crun (cinit 2) twoCallersSchedule) := ⟨_, rfl⟩
  have ha : allReturned (crun (cinit 2) twoCallersSchedule) := by
    unfold allReturned
    decide
  ⟨hr, ha, by decide, by decide,
    (concurrent_opens_get_successive_handles 2 _ hr).2.2.1 ha⟩

/-- A caller that runs its seven actions without interruption, starting with
the mutex free, leaves the process in the state computed by `Socket.Open` and
returns the handle computed by `Socket.Open`. -/
theorem solo_caller_eq_Open (c : CState) (t : Nat)
    (hpc : c.callers[t]? = some OpenPc.waiting) (hm : c.sSktCreationMutex = none) :
    (crun c (List.replicate 7 (CStep.caller t))).mem = (Socket.Open (Thread.caller t) c.mem).2 ∧
    (crun c (List.replicate 7 (CStep.caller t))).callers[t]? =
      some (OpenPc.returned (Socket.Open (Thread.caller t) c.mem).1) := by
  have hlt : t < c.callers.length := (List.getElem?_eq_some.1 hpc).1
  simp [crun, List.replicate, cstep, callerStep, hpc, hm, hlt, Socket.Open]

/-! ## The general machine: invariant -/

theorem countP_set_add {α : Type} (p : α → Bool) (l : List α) (t : Nat) (x y : α)
    (h : l[t]? = some x) :
    (l.set t y).countP p + (if p x = true then 1 else 0) =
      l.countP p + (if p y = true then 1 else 0) := by
  induction l generalizing t with
  | nil => simp at h
  | cons z l ih =>
    cases t with
    | zero =>
      simp at h
      subst h
      simp [List.countP_cons]
      omega
    | succ t =>
      simp at h
      have := ih t h
      simp [List.countP_cons]
      omega

theorem modify_eq_set_of_some {α : Type} (f : α → α) (l : List α) (k : Nat) (x : α)
    (h : l[k]? = some x) : l.modify f k = l.set k (f x) := by
  apply List.ext_getElem?
  intro m
  rw [List.getElem?_modify, getElem?_set_of_some h]
  by_cases hk : k = m
  · subst hk
    simp [h]
  · simp [hk]

theorem countP_modify_add {α : Type} (p : α → Bool) (f : α → α) (l : List α) (k : Nat)
    (x : α) (h : l[k]? = some x) :
    (l.modify f k).countP p + (if p x = true then 1 else 0) =
      l.countP p + (if p (f x) = true then 1 else 0) := by
  rw [modify_eq_set_of_some f l k x h]
  exact countP_set_add p l k x (f x) h

theorem lt_length_of_getElem? {α : Type} {l : List α} {i : Nat} {x : α}
    (h : l[i]? = some x) : i < l.length :=
  (List.getElem?_eq_some.1 h).1

theorem mem_set_of_some {α : Type} {l : List α} {t : Nat} {x y z : α} (h : l[t]? = some x)
    (hz : z ∈ l.set t y) : z = y ∨ ∃ t1, t1 ≠ t ∧ l[t1]? = some z := by
  obtain ⟨i, hi⟩ := List.mem_iff_getElem?.1 hz
  rw [getElem?_set_of_some h] at hi
  by_cases hti : t = i
  · simp [hti] at hi
    exact Or.inl hi.symm
  · simp [hti] at hi
    exact Or.inr ⟨i, fun h => hti h.symm, hi⟩

theorem openOk_of_lengths {m m1 : State} (pc : OpenPc)
    (hr : m1.sSocketPtrs.length = m.sSocketPtrs.length)
    (hh : m1.heap.length = m.heap.length) (h : openOk m pc) : openOk m1 pc := by
  cases pc <;> simp only [openOk, hr, hh] at h ⊢ <;> exact h

theorem openOk_mono {m m1 : State} (pc : OpenPc) (hu : pc.unregistered = false)
    (hr : m.sSocketPtrs.length ≤ m1.sSocketPtrs.length) (h : openOk m pc) :
    openOk m1 pc := by
  cases pc <;> simp only [openOk, OpenPc.unregistered] at h hu ⊢
  · cases hu
  · cases hu
  · omega
  · omega
  · omega
  · omega

/-- A caller that has allocated but not registered holds the creation mutex. -/
theorem holds_of_unregistered {pc : OpenPc} (h : pc.unregistered = true) : pc.holds = true := by
  cases pc <;> simp [OpenPc.unregistered] at h <;> rfl

/-- While caller `t` holds the creation mutex, no other caller is between its
allocation and its registration. -/
theorem GInv.no_other_unregistered {g : GState} (hI : GInv g) {t : Nat} {pc : OpenPc}
    (hpc : g.callers[t]? = some pc) (hh : pc.holds = true) (t1 : Nat) (pc1 : OpenPc)
    (hne : t1 ≠ t) (hpc1 : g.callers[t1]? = some pc1) : pc1.unregistered = false := by
  cases hu : pc1.unregistered with
  | false => rfl
  | true =>
    exfalso
    have h1 := hI.excl t1 pc1 hpc1 (holds_of_unregistered hu)
    have h2 := hI.excl t pc hpc hh
    rw [h1] at h2
    exact hne (Option.some.inj h2)

theorem GInv.addr_lt {g : GState} (hI : GInv g) {s : Nat}
    (h : s + 1 < g.mem.sSocketPtrs.length) : s < g.mem.heap.length := by
  have := hI.bound
  omega

theorem GInv.owns_lt {g : GState} (hI : GInv g) {t : Nat} {pc : OpenPc} {a : Nat}
    (hpc : g.callers[t]? = some pc) (ho : pc.owns a = true) : a < g.mem.heap.length := by
  have hok := hI.opn t pc hpc
  have hb := hI.bound
  cases pc <;> simp [OpenPc.owns] at ho <;> subst ho <;> simp only [openOk] at hok <;> omega

theorem GInv_ginit : GInv ginit := by
  refine ⟨?_, ?_, ?_, ?_, ?_, ?_, ?_, ?_, ?_, ?_⟩ <;> simp [ginit, init]

theorem grun_append (g : GState) (xs ys : List GStep) :
    grun g (xs ++ ys) = grun (grun g xs) ys := by
  simp [grun, List.foldl_append]

theorem countP_set_same {α : Type} (p : α → Bool) (l : List α) (t : Nat) (x y : α)
    (h : l[t]? = some x) (hp : p y = p x) : (l.set t y).countP p = l.countP p := by
  have := countP_set_add p l t x y h
  rw [hp] at this
  omega

/-- Exclusion of the creation mutex after caller `t` moved from `pc` to `pc1`. -/
theorem excl_set {g g1 : GState} (t : Nat) (pc pc1 : OpenPc)
    (hpc : g.callers[t]? = some pc) (hc : g1.callers = g.callers.set t pc1)
    (hex1 : pc1.holds = true → g1.sSktCreationMutex = some t)
    (hex2 : ∀ t1 pc2, t1 ≠ t → g.callers[t1]? = some pc2 → pc2.holds = true →
      g1.sSktCreationMutex = some t1) :
    ∀ (t1 : Nat) (pc2 : OpenPc), g1.callers[t1]? = some pc2 → pc2.holds = true →
      g1.sSktCreationMutex = some t1 := by
  intro t1 pc2 h1 hh
  rw [hc, getElem?_set_of_some hpc] at h1
  by_cases htt : t = t1
  · subst htt
    simp at h1
    subst h1
    exact hex1 hh
  · simp [htt] at h1
    exact hex2 t1 pc2 (fun h => htt h.symm) h1 hh

/-- The facts about each caller after caller `t` moved from `pc` to `pc1`. -/
theorem opn_set {g g1 : GState} (t : Nat) (pc pc1 : OpenPc)
    (hpc : g.callers[t]? = some pc) (hc : g1.callers = g.callers.set t pc1)
    (hok : openOk g1.mem pc1)
    (hothers : ∀ t1 pc2, t1 ≠ t → g.callers[t1]? = some pc2 → openOk g1.mem pc2) :
    ∀ (t1 : Nat) (pc2 : OpenPc), g1.callers[t1]? = some pc2 → openOk g1.mem pc2 := by
  intro t1 pc2 h1
  rw [hc, getElem?_set_of_some hpc] at h1
  by_cases htt : t = t1
  · subst htt
    simp at h1
    subst h1
    exact hok
  · simp [htt] at h1
    exact hothers t1 pc2 (fun h => htt h.symm) h1

/-- A caller moves between two program counters that own, and stand for, the
same things, while the registry, the heap and the workers stay as they are. -/
theorem GInv_set_simple {g g1 : GState} (hI : GInv g) (t : Nat) (pc pc1 : OpenPc)
    (hpc : g.callers[t]? = some pc) (hc : g1.callers = g.callers.set t pc1)
    (hcl : g1.closing = g.closing)
    (hreg : g1.mem.sSocketPtrs = g.mem.sSocketPtrs) (hheap : g1.mem.heap = g.mem.heap)
    (hw : g1.mem.workers = g.mem.workers)
    (hown : ∀ a, pc1.owns a = pc.owns a) (hpre : ∀ a, pc1.prespawn a = pc.prespawn a)
    (hun : pc1.unregistered = pc.unregistered)
    (hok : openOk g.mem pc → openOk g1.mem pc1)
    (hex1 : pc1.holds = true → g1.sSktCreationMutex = some t)
    (hex2 : ∀ t1 pc2, t1 ≠ t → g.callers[t1]? = some pc2 → pc2.holds = true →
      g1.sSktCreationMutex = some t1) :
    GInv g1 := by
  have hlen : g1.mem.sSocketPtrs.length = g.mem.sSocketPtrs.length := by rw [hreg]
  have hhl : g1.mem.heap.length = g.mem.heap.length := by rw [hheap]
  refine ⟨excl_set t pc pc1 hpc hc hex1 hex2, ?_, ?_, ?_, ?_, ?_, ?_, ?_, ?_, ?_⟩
  · rw [hreg]; exact hI.reg
  · rw [hreg, hheap]; exact hI.bound
  · intro hall
    rw [hreg, hheap]
    apply hI.full
    intro pc2 hmem
    obtain ⟨t1, h1⟩ := List.mem_iff_getElem?.1 hmem
    by_cases htt : t1 = t
    · subst htt
      rw [hpc] at h1
      cases h1
      rw [← hun]
      apply hall
      rw [hc]
      exact List.getElem?_mem
        (by rw [getElem?_set_of_some hpc]; simp : (g.callers.set t1 pc1)[t1]? = some pc1)
    · apply hall
      rw [hc]
      refine List.getElem?_mem (n := t1) ?_
      rw [getElem?_set_of_some hpc]
      have hne : ¬ t = t1 := fun h => htt h.symm
      simp [hne, h1]
  · rw [hheap]; exact hI.hnd
  · exact opn_set t pc pc1 hpc hc (hok (hI.opn t pc hpc))
      (fun t1 pc2 _ h1 => openOk_of_lengths pc2 hlen hhl (hI.opn t1 pc2 h1))
  · rw [hw, hreg]; exact hI.wrk
  · rw [hcl, hreg]; exact hI.cls
  · intro a
    rw [hc, hw, hheap, countP_set_same _ _ _ pc pc1 hpc (hpre a)]
    exact hI.life a
  · intro a o ho
    rw [hheap] at ho
    rw [hI.cnt a o ho]
    simp only [owners, hc, hw, hcl]
    rw [countP_set_same _ _ _ pc pc1 hpc (hown a)]

/-- Only the trace changes. -/
theorem GInv_trace_only {g g1 : GState} (hI : GInv g)
    (hc : g1.callers = g.callers) (hx : g1.sSktCreationMutex = g.sSktCreationMutex)
    (hcl : g1.closing = g.closing)
    (hreg : g1.mem.sSocketPtrs = g.mem.sSocketPtrs) (hheap : g1.mem.heap = g.mem.heap)
    (hw : g1.mem.workers = g.mem.workers) : GInv g1 := by
  refine ⟨?_, ?_, ?_, ?_, ?_, ?_, ?_, ?_, ?_, ?_⟩
  · rw [hc, hx]; exact hI.excl
  · rw [hreg]; exact hI.reg
  · rw [hreg, hheap]; exact hI.bound
  · rw [hc, hreg, hheap]; exact hI.full
  · rw [hheap]; exact hI.hnd
  · intro t pc h
    rw [hc] at h
    exact openOk_of_lengths pc (by rw [hreg]) (by rw [hheap]) (hI.opn t pc h)
  · rw [hw, hreg]; exact hI.wrk
  · rw [hcl, hreg]; exact hI.cls
  · rw [hc, hw, hheap]; exact hI.life
  · intro a o ho
    rw [hheap] at ho
    rw [hI.cnt a o ho]
    simp only [owners, hc, hw, hcl]

/-- A thread calls `Open`. -/
theorem GInv_callOpen {g g1 : GState} (hI : GInv g)
    (hc : g1.callers = g.callers ++ [OpenPc.waiting])
    (hx : g1.sSktCreationMutex = g.sSktCreationMutex) (hcl : g1.closing = g.closing)
    (hm : g1.mem = g.mem) : GInv g1 := by
  have hget : ∀ (t : Nat) (pc : OpenPc), g1.callers[t]? = some pc →
      pc = OpenPc.waiting ∨ g.callers[t]? = some pc := by
    intro t pc h
    rw [hc, List.getElem?_append] at h
    split at h
    · exact Or.inr h
    · left
      have := List.getElem?_mem h
      simpa using this
  refine ⟨?_, ?_, ?_, ?_, ?_, ?_, ?_, ?_, ?_, ?_⟩
  · intro t pc h hh
    rcases hget t pc h with rfl | h1
    · simp [OpenPc.holds] at hh
    · rw [hx]; exact hI.excl t pc h1 hh
  · rw [hm]; exact hI.reg
  · rw [hm]; exact hI.bound
  · intro hall
    rw [hm]
    apply hI.full
    intro pc hmem
    apply hall
    rw [hc]
    exact List.mem_append_left _ hmem
  · rw [hm]; exact hI.hnd
  · intro t pc h
    rcases hget t pc h with rfl | h1
    · trivial
    · rw [hm]; exact hI.opn t pc h1
  · rw [hm]; exact hI.wrk
  · rw [hcl, hm]; exact hI.cls
  · intro a
    rw [hc, hm]
    simp only [List.countP_append, List.countP_cons, List.countP_nil, OpenPc.prespawn]
    simpa using hI.life a
  · intro a o ho
    rw [hm] at ho
    rw [hI.cnt a o ho]
    simp only [owners, hc, hm, hcl, List.countP_append, List.countP_cons, List.countP_nil,
      OpenPc.owns]
    simp

/-- The registry keeps its size and one control block has its use count or its
flag rewritten; what the callers, the workers and the call of `Close` may
have changed at the same time is passed in field by field. -/
theorem GInv_modify {g g1 : GState} (hI : GInv g) (s : Nat) (f : Socket → Socket)
    (hf : ∀ o, (f o).m_handle = o.m_handle)
    (hheap : g1.mem.heap = g.mem.heap.modify f s)
    (hreg : g1.mem.sSocketPtrs = g.mem.sSocketPtrs)
    (hexcl : ∀ (t : Nat) (pc : OpenPc), g1.callers[t]? = some pc → pc.holds = true →
      g1.sSktCreationMutex = some t)
    (hfull : (∀ pc ∈ g1.callers, OpenPc.unregistered pc = false) →
      ∀ pc ∈ g.callers, OpenPc.unregistered pc = false)
    (hopn : ∀ (t : Nat) (pc : OpenPc), g1.callers[t]? = some pc → openOk g.mem pc)
    (hwrk : ∀ (k : Nat) (w : Worker), g1.mem.workers[k]? = some w →
      w.self + 1 < g.mem.sSocketPtrs.length)
    (hcls : ∀ (cp : ClosePc), g1.closing = some cp → cp.addr + 1 < g.mem.sSocketPtrs.length)
    (hlife : ∀ (a : Nat), g1.callers.countP (OpenPc.prespawn a) +
        g1.mem.workers.countP (Worker.isFor a) =
      g.callers.countP (OpenPc.prespawn a) + g.mem.workers.countP (Worker.isFor a))
    (hcnt : ∀ (a : Nat) (o : Socket), g.mem.heap[a]? = some o →
      (if s = a then (f o).useCount else o.useCount) = owners g1 a) :
    GInv g1 := by
  have hhl : g1.mem.heap.length = g.mem.heap.length := by rw [hheap]; simp
  have hlen : g1.mem.sSocketPtrs.length = g.mem.sSocketPtrs.length := by rw [hreg]
  refine ⟨hexcl, ?_, ?_, ?_, ?_, ?_, ?_, ?_, ?_, ?_⟩
  · rw [hreg]; exact hI.reg
  · rw [hlen, hhl]; exact hI.bound
  · intro hall
    rw [hlen, hhl]
    exact hI.full (hfull hall)
  · intro a o ho
    rw [hheap] at ho
    obtain ⟨x, hx, rfl⟩ := getElem?_modify_some ho
    have := hI.hnd a x hx
    split <;> simp [hf, this]
  · intro t pc h
    exact openOk_of_lengths pc hlen hhl (hopn t pc h)
  · intro k w h
    rw [hlen]; exact hwrk k w h
  · intro cp h
    rw [hlen]; exact hcls cp h
  · intro a
    rw [hlife a, hhl]
    exact hI.life a
  · intro a o ho
    rw [hheap] at ho
    obtain ⟨x, hx, rfl⟩ := getElem?_modify_some ho
    rw [← hcnt a x hx]
    split <;> rfl

theorem closeOwns_none (a : Nat) : closeOwns none a = 0 := rfl

theorem closeOwns_some (cp : ClosePc) (a : Nat) :
    closeOwns (some cp) a = if cp.addr = a then 1 else 0 := rfl

/-- `run()`: the caller hands a second reference to a new detached thread. -/
theorem GInv_run {g g1 : GState} (hI : GInv g) (t s h : Nat)
    (hpc : g.callers[t]? = some (OpenPc.unlocked s)) (hh : h = Socket.getHandle g.mem s)
    (hc : g1.callers = g.callers.set t (OpenPc.spawned s h))
    (hx : g1.sSktCreationMutex = g.sSktCreationMutex) (hcl : g1.closing = g.closing)
    (hm : g1.mem = Socket.run g.mem s) : GInv g1 := by
  have hok := hI.opn t _ hpc
  simp only [openOk] at hok
  have hslt := hI.addr_lt hok
  obtain ⟨o, ho⟩ : ∃ o, g.mem.heap[s]? = some o := ⟨_, List.getElem?_eq_getElem hslt⟩
  have hhs : h = s + 1 := by
    rw [hh]
    simp [Socket.getHandle, ho, hI.hnd s o ho]
  have hw : g1.mem.workers = g.mem.workers ++ [{ self := s, pc := Pc.start }] := by
    rw [hm]; rfl
  apply GInv_modify hI s (fun o => { o with useCount := o.useCount + 1 }) (fun _ => rfl)
    (by rw [hm]; rfl) (by rw [hm]; rfl)
  · exact excl_set t _ _ hpc hc (fun h => by simp [OpenPc.holds] at h)
      (fun t1 pc2 _ h1 hh1 => by rw [hx]; exact hI.excl t1 pc2 h1 hh1)
  · intro hall pc hmem
    obtain ⟨t1, h1⟩ := List.mem_iff_getElem?.1 hmem
    by_cases htt : t1 = t
    · subst htt
      rw [hpc] at h1
      cases h1
      rfl
    · apply hall
      rw [hc]
      refine List.getElem?_mem (n := t1) ?_
      rw [getElem?_set_of_some hpc]
      have hne : ¬ t = t1 := fun h => htt h.symm
      simp [hne, h1]
  · exact @opn_set g { g1 with mem := g.mem } t _ _ hpc hc ⟨hhs, hok⟩
      (fun t1 pc2 _ h1 => hI.opn t1 pc2 h1)
  · intro k w h
    rw [hw, List.getElem?_append] at h
    split at h
    · exact hI.wrk k w h
    · have := List.getElem?_mem h
      simp at this
      subst this
      exact hok
  · intro cp h
    rw [hcl] at h
    exact hI.cls cp h
  · intro a
    have := countP_set_add (OpenPc.prespawn a) g.callers t _ (OpenPc.spawned s h) hpc
    rw [hc, hw]
    simp only [List.countP_append, List.countP_cons, List.countP_nil, OpenPc.prespawn,
      Worker.isFor] at this ⊢
    simp at this ⊢
    omega
  · intro a x hx
    have h1 := countP_set_same (OpenPc.owns a) g.callers t _ (OpenPc.spawned s h) hpc
      (by simp [OpenPc.owns])
    have h2 := hI.cnt a x hx
    simp only [owners, hc, hw, hcl, h1, List.countP_append, List.countP_cons,
      List.countP_nil, Worker.owns] at h2 ⊢
    by_cases hsa : s = a
    · simp [hsa] at h2 ⊢
      omega
    · simp [hsa] at h2 ⊢
      omega

theorem full_of_set_same {g g1 : GState} (t : Nat) (pc pc1 : OpenPc)
    (hpc : g.callers[t]? = some pc) (hc : g1.callers = g.callers.set t pc1)
    (hun : pc.unregistered = false) :
    (∀ pc2 ∈ g1.callers, OpenPc.unregistered pc2 = false) →
      ∀ pc2 ∈ g.callers, OpenPc.unregistered pc2 = false := by
  intro hall pc2 hmem
  obtain ⟨t1, h1⟩ := List.mem_iff_getElem?.1 hmem
  by_cases htt : t1 = t
  · subst htt
    rw [hpc] at h1
    cases h1
    exact hun
  · apply hall
    rw [hc]
    refine List.getElem?_mem (n := t1) ?_
    rw [getElem?_set_of_some hpc]
    have hne : ¬ t = t1 := fun h => htt h.symm
    simp [hne, h1]

/-- The return of `Open`: the local `s` is destroyed. -/
theorem GInv_openRelease {g g1 : GState} (hI : GInv g) (t s h : Nat)
    (hpc : g.callers[t]? = some (OpenPc.spawned s h))
    (hc : g1.callers = g.callers.set t (OpenPc.returned h))
    (hx : g1.sSktCreationMutex = g.sSktCreationMutex) (hcl : g1.closing = g.closing)
    (hm : g1.mem = release (Thread.caller t) g.mem s) : GInv g1 := by
  have hok := hI.opn t _ hpc
  simp only [openOk] at hok
  apply GInv_modify hI s (fun o => { o with useCount := o.useCount - 1 }) (fun _ => rfl)
    (by rw [hm]; exact release_heap _ _ _) (by rw [hm]; simp)
  · exact excl_set t _ _ hpc hc (fun h => by simp [OpenPc.holds] at h)
      (fun t1 pc2 _ h1 hh1 => by rw [hx]; exact hI.excl t1 pc2 h1 hh1)
  · exact full_of_set_same t _ _ hpc hc rfl
  · exact @opn_set g { g1 with mem := g.mem } t _ _ hpc hc
      (show 0 < h ∧ h < g.mem.sSocketPtrs.length from ⟨by omega, by omega⟩)
      (fun t1 pc2 _ h1 => hI.opn t1 pc2 h1)
  · intro k w hw
    rw [hm] at hw
    simp only [release_workers] at hw
    exact hI.wrk k w hw
  · intro cp h
    rw [hcl] at h
    exact hI.cls cp h
  · intro a
    rw [hc, hm, release_workers,
      countP_set_same _ _ _ _ (OpenPc.returned h) hpc (by simp [OpenPc.prespawn])]
  · intro a x hx
    have h1 := countP_set_add (OpenPc.owns a) g.callers t _ (OpenPc.returned h) hpc
    have h2 := hI.cnt a x hx
    simp only [owners, hc, hm, hcl, release_workers] at h2 ⊢
    simp only [OpenPc.owns] at h1
    by_cases hsa : s = a
    · simp [hsa] at h1 h2 ⊢
      omega
    · simp [hsa] at h1 h2 ⊢
      omega

/-- The call of `Close` obtains its strong reference. -/
theorem GInv_closeRetain {g g1 : GState} (hI : GInv g) (who s : Nat)
    (hs : s + 1 < g.mem.sSocketPtrs.length) (hnone : g.closing = none)
    (hc : g1.toCState = { g.toCState with mem := retain g.mem s })
    (hcl : g1.closing = some (ClosePc.locked who s)) : GInv g1 := by
  have hcal : g1.callers = g.callers := by rw [show g1.callers = g1.toCState.callers from rfl, hc]
  have hmx : g1.sSktCreationMutex = g.sSktCreationMutex := by
    rw [show g1.sSktCreationMutex = g1.toCState.sSktCreationMutex from rfl, hc]
  have hm : g1.mem = retain g.mem s := by rw [show g1.mem = g1.toCState.mem from rfl, hc]
  apply GInv_modify hI s (fun o => { o with useCount := o.useCount + 1 }) (fun _ => rfl)
    (by rw [hm]; rfl) (by rw [hm]; rfl)
  · rw [hcal, hmx]; exact hI.excl
  · rw [hcal]; exact id
  · rw [hcal]; exact hI.opn
  · rw [hm]; exact hI.wrk
  · intro cp h
    rw [hcl] at h
    cases h
    exact hs
  · intro a
    rw [hcal, hm]; rfl
  · intro a x hx
    have h2 := hI.cnt a x hx
    simp only [owners, hcal, hm, hcl, hnone, closeOwns_none, closeOwns_some,
      ClosePc.addr] at h2 ⊢
    have hwk : (retain g.mem s).workers = g.mem.workers := rfl
    rw [hwk]
    by_cases hsa : s = a
    · simp [hsa] at h2 ⊢
      omega
    · simp [hsa] at h2 ⊢
      omega

/-- The store `s->m_quit = true` of the call of `Close`. -/
theorem GInv_closeStore {g g1 : GState} (hI : GInv g) (who s : Nat)
    (hold : g.closing = some (ClosePc.locked who s))
    (hc : g1.toCState = { g.toCState with mem := setQuit g.mem s })
    (hcl : g1.closing = some (ClosePc.stored who s)) : GInv g1 := by
  have hcal : g1.callers = g.callers := by rw [show g1.callers = g1.toCState.callers from rfl, hc]
  have hmx : g1.sSktCreationMutex = g.sSktCreationMutex := by
    rw [show g1.sSktCreationMutex = g1.toCState.sSktCreationMutex from rfl, hc]
  have hm : g1.mem = setQuit g.mem s := by rw [show g1.mem = g1.toCState.mem from rfl, hc]
  apply GInv_modify hI s (fun o => { o with m_quit := true }) (fun _ => rfl)
    (by rw [hm]; rfl) (by rw [hm]; rfl)
  · rw [hcal, hmx]; exact hI.excl
  · rw [hcal]; exact id
  · rw [hcal]; exact hI.opn
  · rw [hm]; exact hI.wrk
  · intro cp h
    rw [hcl] at h
    cases h
    exact hI.cls (ClosePc.locked who s) hold
  · intro a
    rw [hcal, hm]; rfl
  · intro a x hx
    have h2 := hI.cnt a x hx
    simp only [owners, hcal, hm, hcl, hold, closeOwns_some, ClosePc.addr] at h2 ⊢
    have hwk : (setQuit g.mem s).workers = g.mem.workers := rfl
    rw [hwk, ← h2]
    split <;> rfl

/-- The end of the call of `Close`: its strong reference is destroyed. -/
theorem GInv_closeRelease {g g1 : GState} (hI : GInv g) (who s : Nat)
    (hold : g.closing = some (ClosePc.stored who s))
    (hc : g1.toCState = { g.toCState with mem := release (Thread.caller who) g.mem s })
    (hcl : g1.closing = none) : GInv g1 := by
  have hcal : g1.callers = g.callers := by rw [show g1.callers = g1.toCState.callers from rfl, hc]
  have hmx : g1.sSktCreationMutex = g.sSktCreationMutex := by
    rw [show g1.sSktCreationMutex = g1.toCState.sSktCreationMutex from rfl, hc]
  have hm : g1.mem = release (Thread.caller who) g.mem s := by
    rw [show g1.mem = g1.toCState.mem from rfl, hc]
  apply GInv_modify hI s (fun o => { o with useCount := o.useCount - 1 }) (fun _ => rfl)
    (by rw [hm]; exact release_heap _ _ _) (by rw [hm]; simp)
  · rw [hcal, hmx]; exact hI.excl
  · rw [hcal]; exact id
  · rw [hcal]; exact hI.opn
  · rw [hm, release_workers]; exact hI.wrk
  · intro cp h
    rw [hcl] at h
    cases h
  · intro a
    rw [hcal, hm, release_workers]
  · intro a x hx
    have h2 := hI.cnt a x hx
    simp only [owners, hcal, hm, hcl, hold, closeOwns_none, closeOwns_some, ClosePc.addr,
      release_workers] at h2 ⊢
    by_cases hsa : s = a
    · simp [hsa] at h2 ⊢
      omega
    · simp [hsa] at h2 ⊢
      omega

/-- A detached thread moves inside `read` without touching the heap. -/
theorem GInv_workerMove {g g1 : GState} (hI : GInv g) (k : Nat) (w : Worker) (pc : Pc)
    (hw : g.mem.workers[k]? = some w) (hnd : w.pc ≠ Pc.done) (hnd1 : pc ≠ Pc.done)
    (hc : g1.callers = g.callers) (hx : g1.sSktCreationMutex = g.sSktCreationMutex)
    (hcl : g1.closing = g.closing)
    (hreg : g1.mem.sSocketPtrs = g.mem.sSocketPtrs) (hheap : g1.mem.heap = g.mem.heap)
    (hws : g1.mem.workers = g.mem.workers.modify (fun v => { v with pc := pc }) k) :
    GInv g1 := by
  have hmod : g.mem.heap = g.mem.heap.modify id 0 := by
    symm
    exact modify_eq_self id _ 0 (fun _ _ => rfl)
  apply GInv_modify hI 0 id (fun _ => rfl) (by rw [hheap]; exact hmod) hreg
  · rw [hc, hx]; exact hI.excl
  · rw [hc]; exact id
  · rw [hc]; exact hI.opn
  · intro j v hv
    rw [hws] at hv
    obtain ⟨x, hx2, rfl⟩ := getElem?_modify_some hv
    have := hI.wrk j x hx2
    split <;> exact this
  · rw [hcl]; exact hI.cls
  · intro a
    have := countP_modify_add (Worker.isFor a) (fun v => { v with pc := pc }) g.mem.workers k w hw
    rw [hc, hws]
    simp only [Worker.isFor] at this ⊢
    omega
  · intro a x hx2
    have h1 := countP_modify_add (Worker.owns a) (fun v => { v with pc := pc })
      g.mem.workers k w hw
    have h2 := hI.cnt a x hx2
    simp only [owners, hc, hws, hcl] at h2 ⊢
    simp only [Worker.owns, hnd, hnd1, decide_False, Bool.not_false, Bool.and_true] at h1
    simp only [id]
    split <;> omega

/-- A detached thread ends: `self` is destroyed. -/
theorem GInv_workerRelease {g g1 : GState} (hI : GInv g) (k : Nat) (w : Worker)
    (hw : g.mem.workers[k]? = some w) (hpc : w.pc = Pc.returned)
    (hc : g1.callers = g.callers) (hx : g1.sSktCreationMutex = g.sSktCreationMutex)
    (hcl : g1.closing = g.closing)
    (hm : g1.mem = setPc (release (Thread.worker k) g.mem w.self) k Pc.done) : GInv g1 := by
  have hws : g1.mem.workers = g.mem.workers.modify (fun v => { v with pc := Pc.done }) k := by
    rw [hm]; simp
  apply GInv_modify hI w.self (fun o => { o with useCount := o.useCount - 1 }) (fun _ => rfl)
    (by rw [hm]; simp) (by rw [hm]; simp)
  · rw [hc, hx]; exact hI.excl
  · rw [hc]; exact id
  · rw [hc]; exact hI.opn
  · intro j v hv
    rw [hws] at hv
    obtain ⟨x, hx2, rfl⟩ := getElem?_modify_some hv
    have := hI.wrk j x hx2
    split <;> exact this
  · rw [hcl]; exact hI.cls
  · intro a
    have := countP_modify_add (Worker.isFor a) (fun v => { v with pc := Pc.done })
      g.mem.workers k w hw
    rw [hc, hws]
    simp only [Worker.isFor] at this ⊢
    omega
  · intro a x hx2
    have h1 := countP_modify_add (Worker.owns a) (fun v => { v with pc := Pc.done })
      g.mem.workers k w hw
    have h2 := hI.cnt a x hx2
    simp only [owners, hc, hws, hcl] at h2 ⊢
    simp only [Worker.owns, hpc] at h1
    by_cases hsa : w.self = a
    · simp [hsa] at h1 h2 ⊢
      omega
    · simp [hsa] at h1 h2 ⊢
      omega

theorem GInv_worker {g : GState} (hI : GInv g) (k : Nat) :
    GInv { g with mem := Socket.readStep g.mem k } := by
  rcases readStep_shape g.mem k with h | ⟨w, pc, hw, hpc, hne, hh, hws⟩ | ⟨w, hw, hpc, h⟩
  · exact GInv_trace_only hI rfl rfl rfl (by rw [h]) (by rw [h]) (by rw [h])
  · exact GInv_workerMove hI k w pc hw hpc hne rfl rfl rfl (readStep_sSocketPtrs _ _) hh hws
  · exact GInv_workerRelease hI k w hw hpc rfl rfl rfl h

/-- `make_shared<Socket>()` with `m_handle(NextHandle())`. -/
theorem GInv_alloc {g g1 : GState} (hI : GInv g) (t : Nat)
    (hpc : g.callers[t]? = some OpenPc.locked)
    (hc : g1.callers = g.callers.set t (OpenPc.allocated g.mem.heap.length))
    (hx : g1.sSktCreationMutex = g.sSktCreationMutex) (hcl : g1.closing = g.closing)
    (hm : g1.mem = (Socket.alloc g.mem).2) : GInv g1 := by
  have hreg : g1.mem.sSocketPtrs = g.mem.sSocketPtrs := by rw [hm]; rfl
  have hheap : g1.mem.heap = g.mem.heap ++
      [{ m_handle := g.mem.sSocketPtrs.length, m_quit := false, useCount := 1 }] := by
    rw [hm]; rfl
  have hw : g1.mem.workers = g.mem.workers := by rw [hm]; rfl
  have hnoun : ∀ pc ∈ g.callers, OpenPc.unregistered pc = false := by
    intro pc hmem
    obtain ⟨t1, h1⟩ := List.mem_iff_getElem?.1 hmem
    by_cases htt : t1 = t
    · subst htt
      rw [hpc] at h1
      cases h1
      rfl
    · exact hI.no_other_unregistered hpc rfl t1 pc htt h1
  have hsize := hI.full hnoun
  have hhl : g1.mem.heap.length = g.mem.heap.length + 1 := by rw [hheap]; simp
  have hget : ∀ (a : Nat) (o : Socket), g1.mem.heap[a]? = some o →
      g.mem.heap[a]? = some o ∨ (a = g.mem.heap.length ∧
        o = { m_handle := g.mem.sSocketPtrs.length, m_quit := false, useCount := 1 }) := by
    intro a o ho
    rw [hheap, List.getElem?_append] at ho
    split at ho
    · exact Or.inl ho
    · next hge =>
      right
      have : a = g.mem.heap.length := by
        by_contra hne
        have : a - g.mem.heap.length ≠ 0 := by omega
        obtain ⟨n, hn⟩ := Nat.exists_eq_succ_of_ne_zero this
        simp [hn] at ho
      subst this
      simp at ho
      exact ⟨rfl, ho.symm⟩
  refine ⟨?_, ?_, ?_, ?_, ?_, ?_, ?_, ?_, ?_, ?_⟩
  · exact excl_set t _ _ hpc hc (fun _ => by rw [hx]; exact hI.excl t _ hpc rfl)
      (fun t1 pc2 _ h1 hh1 => by rw [hx]; exact hI.excl t1 pc2 h1 hh1)
  · rw [hreg]; exact hI.reg
  · rw [hreg, hhl]
    have := hI.bound
    omega
  · intro hall
    exfalso
    have : OpenPc.unregistered (OpenPc.allocated g.mem.heap.length) = false := by
      apply hall
      rw [hc]
      refine List.getElem?_mem (n := t) ?_
      rw [getElem?_set_of_some hpc]
      simp
    simp [OpenPc.unregistered] at this
  · intro a o ho
    rcases hget a o ho with h | ⟨rfl, rfl⟩
    · exact hI.hnd a o h
    · exact hsize
  · refine opn_set t _ _ hpc hc ?_ ?_
    · show g.mem.heap.length + 1 = g1.mem.heap.length ∧
        g1.mem.sSocketPtrs.length = g1.mem.heap.length
      rw [hhl, hreg, hsize]
      exact ⟨rfl, rfl⟩
    · intro t1 pc2 hne h1
      exact openOk_mono pc2 (hI.no_other_unregistered hpc rfl t1 pc2 hne h1)
        (by rw [hreg]) (hI.opn t1 pc2 h1)
  · rw [hw, hreg]; exact hI.wrk
  · rw [hcl, hreg]; exact hI.cls
  · intro a
    have h1 := countP_set_add (OpenPc.prespawn a) g.callers t _
      (OpenPc.allocated g.mem.heap.length) hpc
    have h2 := hI.life a
    rw [hc, hw, hhl]
    simp only [OpenPc.prespawn] at h1
    by_cases hsa : g.mem.heap.length = a
    · simp [hsa] at h1
      rw [if_neg (by omega)] at h2
      rw [if_pos (by omega)]
      rw [← hsa] at h1 h2 ⊢
      omega
    · simp [hsa] at h1
      by_cases hlt : a < g.mem.heap.length
      · rw [if_pos hlt] at h2
        rw [if_pos (by omega)]
        omega
      · rw [if_neg hlt] at h2
        rw [if_neg (by omega)]
        omega
  · intro a o ho
    have h1 := countP_set_add (OpenPc.owns a) g.callers t _
      (OpenPc.allocated g.mem.heap.length) hpc
    simp only [OpenPc.owns] at h1
    simp only [owners, hc, hw, hcl]
    rcases hget a o ho with h | ⟨rfl, rfl⟩
    · have h2 := hI.cnt a o h
      have hlt := lt_length_of_getElem? h
      have hsa : ¬ g.mem.heap.length = a := by omega
      simp only [owners] at h2
      simp [hsa] at h1
      omega
    · have hc0 : g.callers.countP (OpenPc.owns g.mem.heap.length) = 0 := by
        rw [List.countP_eq_zero]
        intro pc hmem hown
        obtain ⟨t1, h1⟩ := List.mem_iff_getElem?.1 hmem
        have := hI.owns_lt h1 hown
        omega
      have hw0 : g.mem.workers.countP (Worker.owns g.mem.heap.length) = 0 := by
        rw [List.countP_eq_zero]
        intro w hmem hown
        obtain ⟨k, hk⟩ := List.mem_iff_getElem?.1 hmem
        have := hI.addr_lt (hI.wrk k w hk)
        simp [Worker.owns] at hown
        omega
      have hcl0 : closeOwns g.closing g.mem.heap.length = 0 := by
        cases hcp : g.closing with
        | none => rfl
        | some cp =>
          have := hI.addr_lt (hI.cls cp hcp)
          simp only [closeOwns]
          rw [if_neg (by omega)]
      simp at h1
      show 1 = _
      omega

/-- `RegisterSkt`. -/
theorem GInv_register {g g1 : GState} (hI : GInv g) (t s : Nat)
    (hpc : g.callers[t]? = some (OpenPc.constructed s))
    (hc : g1.callers = g.callers.set t (OpenPc.registered s))
    (hx : g1.sSktCreationMutex = g.sSktCreationMutex) (hcl : g1.closing = g.closing)
    (hm : g1.mem = Socket.RegisterSkt g.mem s) : GInv g1 := by
  have hreg : g1.mem.sSocketPtrs = g.mem.sSocketPtrs ++ [some s] := by rw [hm]; rfl
  have hheap : g1.mem.heap = g.mem.heap := by rw [hm]; rfl
  have hw : g1.mem.workers = g.mem.workers := by rw [hm]; rfl
  have hok := hI.opn t _ hpc
  simp only [openOk] at hok
  have hlen : g1.mem.sSocketPtrs.length = g.mem.sSocketPtrs.length + 1 := by rw [hreg]; simp
  refine ⟨?_, ?_, ?_, ?_, ?_, ?_, ?_, ?_, ?_, ?_⟩
  · exact excl_set t _ _ hpc hc (fun _ => by rw [hx]; exact hI.excl t _ hpc rfl)
      (fun t1 pc2 _ h1 hh1 => by rw [hx]; exact hI.excl t1 pc2 h1 hh1)
  · rw [hlen, hreg]
    have h1 := hI.reg
    have hs : g.mem.sSocketPtrs.length = s + 1 := by omega
    rw [hs] at h1 ⊢
    simp only [Nat.add_sub_cancel] at h1 ⊢
    rw [List.range_succ, h1]
    simp
  · rw [hlen, hheap]; omega
  · intro _
    rw [hlen, hheap]; omega
  · rw [hheap]; exact hI.hnd
  · refine opn_set t _ _ hpc hc ?_ ?_
    · show s + 1 < g1.mem.sSocketPtrs.length
      omega
    · intro t1 pc2 hne h1
      exact openOk_mono pc2 (hI.no_other_unregistered hpc rfl t1 pc2 hne h1)
        (by omega) (hI.opn t1 pc2 h1)
  · intro k w h
    rw [hw] at h
    have := hI.wrk k w h
    omega
  · intro cp h
    rw [hcl] at h
    have := hI.cls cp h
    omega
  · intro a
    rw [hc, hw, hheap,
      countP_set_same _ _ _ _ (OpenPc.registered s) hpc (by simp [OpenPc.prespawn])]
    exact hI.life a
  · intro a o ho
    rw [hheap] at ho
    rw [hI.cnt a o ho]
    simp only [owners, hc, hw, hcl]
    rw [countP_set_same _ _ _ _ (OpenPc.registered s) hpc (by simp [OpenPc.owns])]

/-- In a state satisfying the invariant, a slot that locks is slot `s + 1` for
the address `s` it yields. -/
theorem GInv.lockSlot_some {g : GState} (hI : GInv g) {i s : Nat}
    (h : lockSlot g.mem i = some s) : i = s + 1 ∧ i < g.mem.sSocketPtrs.length := by
  have hlt : i < g.mem.sSocketPtrs.length := by
    by_contra hge
    simp [lockSlot, List.getElem?_eq_none (Nat.le_of_not_lt hge)] at h
  refine ⟨?_, hlt⟩
  rw [lockSlot_of_lt g.mem i hlt] at h
  obtain ⟨hp, _⟩ := lock_eq_some h
  have hreg := hI.reg
  have hp2 : g.mem.sSocketPtrs[i]? = some (some s) := by
    rw [List.getElem?_eq_getElem hlt]
    exact congrArg some hp
  rw [hreg] at hp2
  cases i with
  | zero => simp at hp2
  | succ j =>
    simp at hp2
    obtain ⟨hj, hjs⟩ := List.getElem?_eq_some.1 hp2
    simp at hjs
    omega

/-- `closeEnter`, case by case on the mutex, the guard and the slot. -/
theorem closeEnter_eq (g : GState) (who h : Nat) :
    closeEnter g who h =
      match g.closing with
      | some _ => g
      | none =>
        if 0 < h ∧ h < g.mem.sSocketPtrs.length then
          match lockSlot g.mem h with
          | some s => { g with mem := retain g.mem s, closing := some (ClosePc.locked who s) }
          | none => { g with mem := LOG (Thread.caller who) g.mem (Msg.alreadyDeleted h) }
        else g := by
  unfold closeEnter
  cases g.closing with
  | some cp => rfl
  | none =>
    by_cases hg : 0 < h ∧ h < g.mem.sSocketPtrs.length
    · simp only [if_pos hg, vectorAt_of_lt _ _ hg.2, lockSlot_of_lt _ _ hg.2]
    · simp only [if_neg hg]

theorem GInv_closeEnter {g : GState} (hI : GInv g) (who h : Nat) :
    GInv (closeEnter g who h) := by
  rw [closeEnter_eq]
  cases hcl : g.closing with
  | some cp => exact hI
  | none =>
    by_cases hg : 0 < h ∧ h < g.mem.sSocketPtrs.length
    · simp only [if_pos hg]
      cases hl : lockSlot g.mem h with
      | none => exact GInv_trace_only hI rfl rfl hcl.symm rfl rfl rfl
      | some s =>
        have hs := hI.lockSlot_some hl
        exact GInv_closeRetain hI who s (by omega) hcl rfl rfl
    · simp only [if_neg hg]
      exact hI

theorem GInv_closeStep {g : GState} (hI : GInv g) : GInv (closeStep g) := by
  unfold closeStep
  cases hcl : g.closing with
  | none => exact hI
  | some cp =>
    cases cp with
    | locked who s => exact GInv_closeStore hI who s hcl rfl rfl
    | stored who s => exact GInv_closeRelease hI who s hcl rfl rfl

theorem GInv_openStep {g : GState} (hI : GInv g) (t : Nat) (pc : OpenPc)
    (hpc : g.callers[t]? = some pc) :
    GInv { g with toCState := callerStep g.toCState t pc } := by
  cases pc with
  | waiting =>
    cases hm : g.sSktCreationMutex with
    | some t0 =>
      have : callerStep g.toCState t OpenPc.waiting = g.toCState := by
        simp [callerStep, hm]
      rw [this]
      exact hI
    | none =>
      have : callerStep g.toCState t OpenPc.waiting =
          { g.toCState with sSktCreationMutex := some t,
                            callers := g.callers.set t OpenPc.locked,
                            acquired := g.acquired ++ [t] } := by
        simp [callerStep, hm]
      rw [this]
      refine GInv_set_simple hI t _ OpenPc.locked hpc rfl rfl rfl rfl rfl
        (fun _ => rfl) (fun _ => rfl) rfl (fun _ => trivial) (fun _ => rfl) ?_
      intro t1 pc2 _ h1 hh1
      have := hI.excl t1 pc2 h1 hh1
      rw [hm] at this
      cases this
  | locked => exact GInv_alloc hI t hpc rfl rfl rfl rfl
  | allocated s =>
    exact GInv_set_simple hI t _ (OpenPc.constructed s) hpc rfl rfl rfl rfl rfl
      (fun _ => rfl) (fun _ => rfl) rfl (fun h => h)
      (fun _ => hI.excl t _ hpc rfl) (fun t1 pc2 _ h1 hh1 => hI.excl t1 pc2 h1 hh1)
  | constructed s => exact GInv_register hI t s hpc rfl rfl rfl rfl
  | registered s =>
    refine GInv_set_simple hI t _ (OpenPc.unlocked s) hpc rfl rfl rfl rfl rfl
      (fun _ => rfl) (fun _ => rfl) rfl (fun h => h)
      (fun h => by simp [OpenPc.holds] at h) ?_
    intro t1 pc2 hne h1 hh1
    have e1 := hI.excl t1 pc2 h1 hh1
    have e2 := hI.excl t _ hpc rfl
    rw [e1] at e2
    exact absurd (Option.some.inj e2) hne
  | unlocked s => exact GInv_run hI t s _ hpc rfl rfl rfl rfl rfl
  | spawned s h => exact GInv_openRelease hI t s h hpc rfl rfl rfl rfl
  | returned h => exact hI

/-- Every step of the general machine keeps the invariant. -/
theorem GInv_gstep {g : GState} (hI : GInv g) (x : GStep) : GInv (gstep g x) := by
  cases x with
  | callOpen => exact GInv_callOpen hI rfl rfl rfl rfl
  | openStep t =>
    simp only [gstep]
    cases hpc : g.callers[t]? with
    | none => exact hI
    | some pc =>
      simp only []
      split
      · exact hI
      · exact GInv_openStep hI t pc hpc
  | closeEnter who h => exact GInv_closeEnter hI who h
  | closeStep => exact GInv_closeStep hI
  | worker k => exact GInv_worker hI k

theorem GInv_grun {g : GState} (hI : GInv g) (sched : List GStep) : GInv (grun g sched) := by
  induction sched generalizing g with
  | nil => exact hI
  | cons x rest ih => exact ih (GInv_gstep hI x)

theorem GInv_of_greachable {g : GState} (hr : greachable g) : GInv g := by
  obtain ⟨sched, rfl⟩ := hr
  exact GInv_grun GInv_ginit sched

theorem greachable_grun {g : GState} (hr : greachable g) (sched : List GStep) :
    greachable (grun g sched) := by
  obtain ⟨pre, rfl⟩ := hr
  exact ⟨pre ++ sched, (grun_append ginit pre sched).symm⟩

theorem greachable_gstep {g : GState} (hr : greachable g) (x : GStep) :
    greachable (gstep g x) :=
  greachable_grun hr [x]

/-! ## The general machine: what a step may change -/

theorem sameFlags_refl (m : State) : sameFlags m m := fun _ o h => ⟨o, h, rfl, rfl⟩

theorem sameFlags_trans {m m1 m2 : State} (h1 : sameFlags m m1) (h2 : sameFlags m1 m2) :
    sameFlags m m2 := by
  intro a o ho
  obtain ⟨o1, ho1, e1, e2⟩ := h1 a o ho
  obtain ⟨o2, ho2, e3, e4⟩ := h2 a o1 ho1
  exact ⟨o2, ho2, e3.trans e1, e4.trans e2⟩

theorem sameFlags_of_heap_eq {m m1 : State} (h : m1.heap = m.heap) : sameFlags m m1 := by
  intro a o ho
  exact ⟨o, by rw [h]; exact ho, rfl, rfl⟩

theorem sameFlags_modify {m m1 : State} (f : Socket → Socket) (s : Nat)
    (hf : ∀ o, (f o).m_handle = o.m_handle ∧ (f o).m_quit = o.m_quit)
    (h : m1.heap = m.heap.modify f s) : sameFlags m m1 := by
  intro a o ho
  rw [h, List.getElem?_modify, ho]
  by_cases hs : s = a
  · exact ⟨f o, by simp [hs], (hf o).1, (hf o).2⟩
  · exact ⟨o, by simp [hs], rfl, rfl⟩

theorem sameFlags_alloc (m : State) : sameFlags m (Socket.alloc m).2 := by
  intro a o ho
  have hlt := lt_length_of_getElem? ho
  exact ⟨o, by simp [Socket.alloc, List.getElem?_append_left hlt, ho], rfl, rfl⟩

theorem sameFlags_retain (m : State) (s : Nat) : sameFlags m (retain m s) :=
  sameFlags_modify (fun o => { o with useCount := o.useCount + 1 }) s
    (fun _ => ⟨rfl, rfl⟩) rfl

theorem sameFlags_run (m : State) (s : Nat) : sameFlags m (Socket.run m s) :=
  sameFlags_modify (fun o => { o with useCount := o.useCount + 1 }) s
    (fun _ => ⟨rfl, rfl⟩) rfl

theorem sameFlags_release (who : Thread) (m : State) (s : Nat) :
    sameFlags m (release who m s) :=
  sameFlags_modify (fun o => { o with useCount := o.useCount - 1 }) s
    (fun _ => ⟨rfl, rfl⟩) (release_heap who m s)

theorem sameFlags_readStep (m : State) (k : Nat) : sameFlags m (Socket.readStep m k) := by
  rcases readStep_shape m k with h | ⟨_, _, _, _, _, hh, _⟩ | ⟨w, _, _, h⟩
  · rw [h]; exact sameFlags_refl m
  · exact sameFlags_of_heap_eq hh
  · rw [h]
    exact sameFlags_modify (fun o => { o with useCount := o.useCount - 1 }) w.self
      (fun _ => ⟨rfl, rfl⟩) (by simp)

theorem callerOnly_nil : callerOnly [] := fun _ h => by cases h

theorem callerOnly_singleton (t : Nat) (msg : Msg) :
    callerOnly [Event.log (Thread.caller t) msg] := by
  intro e he
  simp at he
  exact ⟨t, msg, he⟩

theorem readEventsOf_callerOnly (k : Nat) {es : List Event} (h : callerOnly es) :
    readEventsOf k es = [] := by
  unfold readEventsOf
  rw [List.filter_eq_nil_iff]
  intro e he
  obtain ⟨t, msg, rfl⟩ := h e he
  cases msg <;> simp [Event.isRead]

theorem load_not_mem_callerOnly {es : List Event} (h : callerOnly es) (k : Nat) (b : Bool) :
    Event.load k b ∉ es := by
  intro hmem
  obtain ⟨t, msg, he⟩ := h _ hmem
  cases he

/-- What `release` appends to the trace. -/
theorem release_trace_cases (who : Thread) (m : State) (s : Nat) :
    (release who m s).trace = m.trace ∨
    ∃ o, m.heap[s]? = some o ∧ o.useCount = 1 ∧
      (release who m s).trace = m.trace ++ [Event.log who (Msg.destructed o.m_handle)] := by
  rw [release_trace]
  cases ho : m.heap[s]? with
  | none => exact Or.inl rfl
  | some o =>
    by_cases h1 : o.useCount = 1
    · right
      exact ⟨o, rfl, h1, by simp [h1]⟩
    · left
      simp [h1]

/-- What an action of a call of `Open` does to the process state: the registry
and the heap keep their sizes unless the action is `RegisterSkt` or the
allocation, every flag is kept, the workers already there are kept, and the
trace grows by lines of the caller. -/
theorem callerStep_frame (c : CState) (t : Nat) (pc : OpenPc) :
    sameFlags c.mem (callerStep c t pc).mem ∧
    (∃ es, (callerStep c t pc).mem.trace = c.mem.trace ++ es ∧ callerOnly es) ∧
    (∀ (k : Nat) (w : Worker), c.mem.workers[k]? = some w →
      (callerStep c t pc).mem.workers[k]? = some w) ∧
    (∀ (k : Nat), c.mem.workers[k]? = none →
      (callerStep c t pc).mem.workers[k]? = none ∨
      ∃ s : Nat, (callerStep c t pc).mem.workers[k]? =
        some ({ self := s, pc := Pc.start } : Worker)) ∧
    (pc.needsRegistry = false →
      (callerStep c t pc).mem.sSocketPtrs = c.mem.sSocketPtrs ∧
      (callerStep c t pc).mem.heap.length = c.mem.heap.length) := by
  cases pc with
  | waiting =>
    have hm : (callerStep c t OpenPc.waiting).mem = c.mem := by
      simp only [callerStep]
      split <;> rfl
    rw [hm]
    exact ⟨sameFlags_refl _, ⟨[], by simp, callerOnly_nil⟩, fun _ _ h => h,
      fun _ h => Or.inl h, fun _ => ⟨rfl, rfl⟩⟩
  | locked =>
    exact ⟨sameFlags_alloc _, ⟨[], by simp [callerStep, Socket.alloc], callerOnly_nil⟩,
      fun _ _ h => h, fun _ h => Or.inl h, fun h => by simp [OpenPc.needsRegistry] at h⟩
  | allocated s =>
    exact ⟨sameFlags_of_heap_eq rfl, ⟨_, rfl, callerOnly_singleton _ _⟩,
      fun _ _ h => h, fun _ h => Or.inl h, fun _ => ⟨rfl, rfl⟩⟩
  | constructed s =>
    exact ⟨sameFlags_of_heap_eq rfl, ⟨[], by simp [callerStep, Socket.RegisterSkt], callerOnly_nil⟩,
      fun _ _ h => h, fun _ h => Or.inl h, fun h => by simp [OpenPc.needsRegistry] at h⟩
  | registered s =>
    exact ⟨sameFlags_refl _, ⟨[], by simp [callerStep], callerOnly_nil⟩, fun _ _ h => h,
      fun _ h => Or.inl h, fun _ => ⟨rfl, rfl⟩⟩
  | unlocked s =>
    refine ⟨sameFlags_run _ _, ⟨[], by simp [callerStep, Socket.run, retain], callerOnly_nil⟩,
      ?_, ?_, fun _ => ⟨rfl, by simp [callerStep, Socket.run, retain]⟩⟩
    · intro k w h
      show (c.mem.workers ++ [_])[k]? = some w
      rw [List.getElem?_append_left (lt_length_of_getElem? h)]
      exact h
    · intro k h
      show (c.mem.workers ++ [_])[k]? = none ∨ ∃ s1, (c.mem.workers ++ [_])[k]? = some _
      by_cases hk : k = c.mem.workers.length
      · right
        exact ⟨s, by simp [hk]⟩
      · left
        rw [List.getElem?_eq_none_iff] at h ⊢
        simp
        omega
  | spawned s h =>
    refine ⟨sameFlags_release _ _ _, ?_, fun _ _ h => by simpa [callerStep] using h,
      fun _ h => Or.inl (by simpa [callerStep] using h),
      fun _ => ⟨by simp [callerStep], by simp [callerStep]⟩⟩
    rcases release_trace_cases (Thread.caller t) c.mem s with h1 | ⟨o, _, _, h1⟩
    · exact ⟨[], by simp [callerStep, h1], callerOnly_nil⟩
    · exact ⟨_, h1, callerOnly_singleton _ _⟩
  | returned h =>
    exact ⟨sameFlags_refl _, ⟨[], by simp [callerStep], callerOnly_nil⟩, fun _ _ h => h,
      fun _ h => Or.inl h, fun _ => ⟨rfl, rfl⟩⟩

theorem readEventsOf_append (k : Nat) (xs ys : List Event) :
    readEventsOf k (xs ++ ys) = readEventsOf k xs ++ readEventsOf k ys := by
  simp [readEventsOf]

/-- A step of thread `k` is the local step of `read` at the value of `m_quit`
of its object; the events of `read()` it adds are those of the local step, and
it adds no event of `read()` of another thread. -/
theorem readStep_self (st : State) {k : Nat} {w : Worker}
    (hw : st.workers[k]? = some w) :
    (Socket.readStep st k).workers =
      st.workers.modify
        (fun v => { v with pc := (localStep k (Socket.quit st w.self) w.pc).1 }) k ∧
    ∃ es, (Socket.readStep st k).trace = st.trace ++ es ∧
      readEventsOf k es = (localStep k (Socket.quit st w.self) w.pc).2 ∧
      ∀ j, j ≠ k → readEventsOf j es = [] := by
  cases hpc : w.pc with
  | start =>
    rw [readStep_start hw hpc]
    refine ⟨by simp [localStep], _, rfl, by simp [readEventsOf, Event.isRead, localStep], ?_⟩
    intro j hj
    have : ¬ k = j := fun h => hj h.symm
    simp [readEventsOf, Event.isRead, this]
  | loopHead i =>
    by_cases hi : i < seconds * 10
    · cases hq : Socket.quit st w.self with
      | true =>
        rw [readStep_poll_true hw hpc hi hq]
        refine ⟨by simp [localStep, hi],
          [Event.load k true, Event.log (Thread.worker k) Msg.quittingEarly],
          by simp, by simp [readEventsOf, Event.isRead, localStep, hi], ?_⟩
        intro j hj
        have : ¬ k = j := fun h => hj h.symm
        simp [readEventsOf, Event.isRead, this]
      | false =>
        rw [readStep_poll_false hw hpc hi hq]
        refine ⟨by simp [localStep, hi], [Event.load k false], by simp,
          by simp [readEventsOf, Event.isRead, localStep, hi], ?_⟩
        intro j hj
        have : ¬ k = j := fun h => hj h.symm
        simp [readEventsOf, Event.isRead, this]
    · rw [readStep_loop_exit hw hpc hi]
      exact ⟨by simp [localStep, hi], [], by simp, by simp [readEventsOf, localStep, hi],
        fun _ _ => rfl⟩
  | sleeping i =>
    rw [readStep_sleeping hw hpc]
    refine ⟨by simp [localStep],
      [Event.sleep k 100, Event.log (Thread.worker k) Msg.stillReading], by simp,
      by simp [readEventsOf, Event.isRead, localStep], ?_⟩
    intro j hj
    have : ¬ k = j := fun h => hj h.symm
    simp [readEventsOf, Event.isRead, this]
  | returned =>
    rw [readStep_returned hw hpc]
    refine ⟨by simp [localStep], ?_⟩
    rcases release_trace_cases (Thread.worker k) st w.self with h1 | ⟨o, _, _, h1⟩
    · exact ⟨[], by simp [h1], by simp [readEventsOf, localStep], fun _ _ => rfl⟩
    · exact ⟨_, by simpa using h1, by simp [readEventsOf, Event.isRead, localStep],
        fun _ _ => by simp [readEventsOf, Event.isRead]⟩
  | done =>
    rw [readStep_done hw hpc]
    refine ⟨?_, [], by simp, by simp [readEventsOf, localStep], fun _ _ => rfl⟩
    symm
    apply modify_eq_self
    intro x hx
    rw [hw] at hx
    cases hx
    cases w
    simp_all [localStep]

/-- What the steps of `Close` append to the trace, and that they leave the
workers alone. -/
theorem close_frame (g : GState) (who h : Nat) :
    ((closeEnter g who h).mem.workers = g.mem.workers ∧
      ∃ es, (closeEnter g who h).mem.trace = g.mem.trace ++ es ∧ callerOnly es) ∧
    ((closeStep g).mem.workers = g.mem.workers ∧
      ∃ es, (closeStep g).mem.trace = g.mem.trace ++ es ∧ callerOnly es) := by
  constructor
  · rw [closeEnter_eq]
    cases g.closing with
    | some cp => exact ⟨rfl, [], by simp, callerOnly_nil⟩
    | none =>
      by_cases hg : 0 < h ∧ h < g.mem.sSocketPtrs.length
      · rw [if_pos hg]
        cases lockSlot g.mem h with
        | none => exact ⟨rfl, _, rfl, callerOnly_singleton _ _⟩
        | some s => exact ⟨rfl, [], by simp [retain], callerOnly_nil⟩
      · rw [if_neg hg]
        exact ⟨rfl, [], by simp, callerOnly_nil⟩
  · unfold closeStep
    cases g.closing with
    | none => exact ⟨rfl, [], by simp, callerOnly_nil⟩
    | some cp =>
      cases cp with
      | locked who1 s => exact ⟨rfl, [], by simp [setQuit], callerOnly_nil⟩
      | stored who1 s =>
        refine ⟨by simp, ?_⟩
        rcases release_trace_cases (Thread.caller who1) g.mem s with h1 | ⟨o, _, _, h1⟩
        · exact ⟨[], by simp [h1], callerOnly_nil⟩
        · exact ⟨_, h1, callerOnly_singleton _ _⟩

/-- How one step of the general machine looks from the detached thread `k`:
either it is a step of `k` itself, or it adds no event of `read()` of `k` and
leaves `k` where it is (a call of `run()` may create thread `k`, at `start`). -/
theorem gstep_view (g : GState) (x : GStep) (k : Nat) :
    ∃ es, (gstep g x).mem.trace = g.mem.trace ++ es ∧
      ((x = GStep.worker k ∧ ∃ w, g.mem.workers[k]? = some w ∧
          (gstep g x).mem.workers[k]? =
            some { w with pc := (localStep k (Socket.quit g.mem w.self) w.pc).1 } ∧
          readEventsOf k es = (localStep k (Socket.quit g.mem w.self) w.pc).2) ∨
       (readEventsOf k es = [] ∧ (x = GStep.worker k → g.mem.workers[k]? = none) ∧
          ((gstep g x).mem.workers[k]? = g.mem.workers[k]? ∨
           (g.mem.workers[k]? = none ∧ ∃ s : Nat, (gstep g x).mem.workers[k]? =
              some ({ self := s, pc := Pc.start } : Worker))))) := by
  have hother : ∀ (g1 : GState) (es : List Event), g1.mem.trace = g.mem.trace ++ es →
      callerOnly es → x ≠ GStep.worker k →
      ((g1.mem.workers[k]? = g.mem.workers[k]? ∨
        (g.mem.workers[k]? = none ∧ ∃ s : Nat, g1.mem.workers[k]? =
          some ({ self := s, pc := Pc.start } : Worker)))) →
      ∃ es, g1.mem.trace = g.mem.trace ++ es ∧
      ((x = GStep.worker k ∧ ∃ w, g.mem.workers[k]? = some w ∧
          g1.mem.workers[k]? =
            some { w with pc := (localStep k (Socket.quit g.mem w.self) w.pc).1 } ∧
          readEventsOf k es = (localStep k (Socket.quit g.mem w.self) w.pc).2) ∨
       (readEventsOf k es = [] ∧ (x = GStep.worker k → g.mem.workers[k]? = none) ∧
          (g1.mem.workers[k]? = g.mem.workers[k]? ∨
           (g.mem.workers[k]? = none ∧ ∃ s : Nat, g1.mem.workers[k]? =
              some ({ self := s, pc := Pc.start } : Worker))))) :=
    fun g1 es ht hco hx hw =>
      ⟨es, ht, Or.inr ⟨readEventsOf_callerOnly k hco, fun h => absurd h hx, hw⟩⟩
  cases x with
  | callOpen =>
    exact hother _ [] (by simp [gstep]) callerOnly_nil (by simp) (Or.inl rfl)
  | openStep t =>
    simp only [gstep]
    cases hpc : g.callers[t]? with
    | none => exact hother _ [] (by simp) callerOnly_nil (by simp) (Or.inl rfl)
    | some pc =>
      simp only []
      split
      · exact hother _ [] (by simp) callerOnly_nil (by simp) (Or.inl rfl)
      · obtain ⟨_, ⟨es, ht, hco⟩, hk1, hk2, _⟩ := callerStep_frame g.toCState t pc
        refine hother _ es ht hco (by simp) ?_
        cases hw : g.mem.workers[k]? with
        | some w => exact Or.inl (hk1 k w hw)
        | none =>
          rcases hk2 k hw with h | h
          · exact Or.inl h
          · exact Or.inr ⟨rfl, h⟩
  | closeEnter who h =>
    obtain ⟨⟨hw, es, ht, hco⟩, _⟩ := close_frame g who h
    exact hother _ es ht hco (by simp)
      (Or.inl (by show (closeEnter g who h).mem.workers[k]? = _; rw [hw]))
  | closeStep =>
    obtain ⟨_, ⟨hw, es, ht, hco⟩⟩ := close_frame g 0 0
    exact hother _ es ht hco (by simp)
      (Or.inl (by show (closeStep g).mem.workers[k]? = _; rw [hw]))
  | worker j =>
    simp only [gstep]
    cases hw : g.mem.workers[j]? with
    | none =>
      rw [readStep_none hw]
      refine ⟨[], by simp, Or.inr ⟨rfl, fun hx => ?_, Or.inl rfl⟩⟩
      cases hx
      exact hw
    | some w =>
      obtain ⟨hws, es, ht, hes, hoth⟩ := readStep_self g.mem hw
      refine ⟨es, ht, ?_⟩
      by_cases hjk : j = k
      · subst hjk
        left
        refine ⟨rfl, w, hw, ?_, hes⟩
        show (Socket.readStep g.mem j).workers[j]? = _
        rw [hws]
        simp [hw]
      · right
        refine ⟨hoth k (fun h => hjk h.symm), fun hx => ?_, Or.inl ?_⟩
        · cases hx
          exact absurd rfl hjk
        · show (Socket.readStep g.mem j).workers[k]? = _
          rw [hws, List.getElem?_modify_ne _ _ hjk]

/-! ## One detached thread inside the general machine -/

theorem pcOf_eq_some {st : State} {k : Nat} {w : Worker} (hw : st.workers[k]? = some w) :
    pcOf st k = some w.pc := by
  simp [pcOf, hw]

theorem pcOf_of_workers_eq {st st1 : State} {k : Nat}
    (h : st1.workers[k]? = st.workers[k]?) : pcOf st1 k = pcOf st k := by
  simp [pcOf, h]

theorem worker_of_pcOf {st : State} {k : Nat} {pc : Pc} (h : pcOf st k = some pc) :
    ∃ w, st.workers[k]? = some w ∧ w.pc = pc := by
  unfold pcOf at h
  cases hw : st.workers[k]? with
  | none => simp [hw] at h
  | some w =>
    simp [hw] at h
    exact ⟨w, rfl, h⟩

/-- A local step keeps the events of `read()` in the shape dictated by the
program counter. -/
theorem WTrace_localStep (k : Nat) (q : Bool) (pc : Pc) (es : List Event)
    (h : WTrace k (some pc) es) :
    WTrace k (some (localStep k q pc).1) (es ++ (localStep k q pc).2) := by
  cases pc with
  | start =>
    simp only [WTrace] at h
    subst h
    simp [localStep, WTrace, iterations]
  | loopHead i =>
    simp only [WTrace] at h
    obtain ⟨hi, rfl⟩ := h
    by_cases hlt : i < seconds * 10
    · cases q with
      | true =>
        simp only [localStep, if_pos hlt, if_true, WTrace]
        exact Or.inr ⟨i, hlt, by simp [earlyRun]⟩
      | false =>
        simp only [localStep, if_pos hlt, WTrace]
        exact ⟨hlt, by simp⟩
    · have : i = seconds * 10 := by omega
      subst this
      simp [localStep, WTrace, naturalRun]
  | sleeping i =>
    simp only [WTrace] at h
    obtain ⟨hi, rfl⟩ := h
    simp only [localStep, WTrace]
    exact ⟨hi, by simp [iterations]⟩
  | returned => simpa [localStep, WTrace] using h
  | done => simpa [localStep] using h

theorem WTrace_gstep (g : GState) (k : Nat)
    (hW : WTrace k (pcOf g.mem k) (readEventsOf k g.mem.trace)) (x : GStep) :
    WTrace k (pcOf (gstep g x).mem k) (readEventsOf k (gstep g x).mem.trace) := by
  obtain ⟨es, ht, h⟩ := gstep_view g x k
  rw [ht, readEventsOf_append]
  rcases h with ⟨_, w, hw, hw1, hes⟩ | ⟨hes, _, hw1 | ⟨hn, s, hw1⟩⟩
  · rw [pcOf_eq_some hw1, hes]
    rw [pcOf_eq_some hw] at hW
    exact WTrace_localStep k _ _ _ hW
  · rw [hes, pcOf_of_workers_eq hw1, List.append_nil]
    exact hW
  · rw [hes, pcOf_eq_some hw1, List.append_nil]
    have : pcOf g.mem k = none := by simp [pcOf, hn]
    rw [this] at hW
    exact hW

theorem WTrace_grun (g : GState) (k : Nat)
    (hW : WTrace k (pcOf g.mem k) (readEventsOf k g.mem.trace)) (sched : List GStep) :
    WTrace k (pcOf (grun g sched).mem k) (readEventsOf k (grun g sched).mem.trace) := by
  induction sched generalizing g with
  | nil => exact hW
  | cons x rest ih => exact ih (gstep g x) (WTrace_gstep g k hW x)

/-- In every reachable state the events of `read()` of each detached thread are
the ones its program counter dictates. -/
theorem WTrace_of_greachable {g : GState} (hr : greachable g) (k : Nat) :
    WTrace k (pcOf g.mem k) (readEventsOf k g.mem.trace) := by
  obtain ⟨sched, rfl⟩ := hr
  exact WTrace_grun ginit k (by simp [WTrace, pcOf, ginit, init, readEventsOf]) sched

/-! ### Termination of the worker -/

theorem remaining_localStep (k : Nat) (q : Bool) (pc : Pc) :
    remaining (localStep k q pc).1 ≤ remaining pc - 1 := by
  cases pc with
  | start => simp [localStep, remaining, seconds]
  | loopHead i =>
    by_cases hlt : i < seconds * 10
    · simp only [seconds] at hlt
      cases q
      · simp [localStep, remaining, seconds, hlt]
        omega
      · simp [localStep, remaining, seconds, hlt]
    · simp [localStep, remaining, hlt]
  | sleeping i => simp [localStep, remaining]
  | returned => simp [localStep, remaining]
  | done => simp [localStep, remaining]

theorem remaining_gstep (g : GState) (k : Nat) (w : Worker)
    (hw : g.mem.workers[k]? = some w) (x : GStep) :
    ∃ w1, (gstep g x).mem.workers[k]? = some w1 ∧ w1.self = w.self ∧
      remaining w1.pc ≤ remaining w.pc - (if x = GStep.worker k then 1 else 0) := by
  obtain ⟨es, _, h⟩ := gstep_view g x k
  rcases h with ⟨hx, w0, hw0, hw1, _⟩ | ⟨_, hx, hw1 | ⟨hn, _⟩⟩
  · rw [hw] at hw0
    cases hw0
    refine ⟨_, hw1, rfl, ?_⟩
    rw [if_pos hx]
    exact remaining_localStep k _ _
  · refine ⟨w, by rw [hw1, hw], rfl, ?_⟩
    have hne : x ≠ GStep.worker k := fun hxk => by
      rw [hx hxk] at hw
      cases hw
    simp [hne]
  · rw [hn] at hw
    cases hw

theorem remaining_grun (g : GState) (k : Nat) (w : Worker)
    (hw : g.mem.workers[k]? = some w) (sched : List GStep) :
    ∃ w1, (grun g sched).mem.workers[k]? = some w1 ∧ w1.self = w.self ∧
      remaining w1.pc ≤ remaining w.pc - sched.count (GStep.worker k) := by
  induction sched generalizing g w with
  | nil => exact ⟨w, hw, rfl, by simp⟩
  | cons x rest ih =>
    obtain ⟨w1, h1, hs1, hle1⟩ := remaining_gstep g k w hw x
    obtain ⟨w2, h2, hs2, hle2⟩ := ih (gstep g x) w1 h1
    refine ⟨w2, h2, hs2.trans hs1, ?_⟩
    rw [List.count_cons]
    by_cases hx : x = GStep.worker k
    · simp [hx] at hle1 ⊢
      omega
    · have hx2 : ¬ (x == GStep.worker k) = true := by simpa using hx
      simp [hx] at hle1
      simp [hx2]
      omega

theorem remaining_le (pc : Pc) : remaining pc ≤ 2 * (seconds * 10) + 3 := by
  cases pc <;> simp only [remaining] <;> omega

theorem eq_done_of_remaining_eq_zero {pc : Pc} (h : remaining pc = 0) : pc = Pc.done := by
  cases pc <;> simp [remaining] at h ⊢

/-! ### Counting in the runs of a worker -/

theorem count_sleep_iterations (k n : Nat) :
    (iterations k n).count (Event.sleep k 100) = n := by
  induction n with
  | zero => rfl
  | succ n ih => simp [iterations, ih, List.count_cons]

theorem count_load_iterations (k n : Nat) :
    (iterations k n).count (Event.load k false) = n := by
  induction n with
  | zero => rfl
  | succ n ih => simp [iterations, ih, List.count_cons]

theorem count_still_iterations (k n : Nat) :
    (iterations k n).count (Event.log (Thread.worker k) Msg.stillReading) = n := by
  induction n with
  | zero => rfl
  | succ n ih => simp [iterations, ih, List.count_cons]

theorem sleptMs_append (xs ys : List Event) :
    sleptMs (xs ++ ys) = sleptMs xs + sleptMs ys := by
  induction xs with
  | nil => simp [sleptMs]
  | cons e xs ih =>
    cases e <;> simp [sleptMs, ih]
    omega

theorem sleptMs_iterations (k n : Nat) : sleptMs (iterations k n) = 100 * n := by
  induction n with
  | zero => rfl
  | succ n ih =>
    simp [iterations, sleptMs_append, ih, sleptMs]
    omega

theorem quitting_not_mem_iterations (k n : Nat) :
    Event.log (Thread.worker k) Msg.quittingEarly ∉ iterations k n := by
  induction n with
  | zero => simp [iterations]
  | succ n ih => simp [iterations, ih]

theorem load_true_not_mem_iterations (k n : Nat) : Event.load k true ∉ iterations k n := by
  induction n with
  | zero => simp [iterations]
  | succ n ih => simp [iterations, ih]

theorem mem_of_mem_readEventsOf {k : Nat} {e : Event} {es : List Event}
    (h : e ∈ readEventsOf k es) : e ∈ es :=
  (List.mem_filter.1 h).1

theorem count_load_naturalRun (k : Nat) :
    (naturalRun k).count (Event.load k false) = seconds * 10 := by
  unfold naturalRun
  rw [List.count_cons, count_load_iterations]
  simp

theorem count_sleep_naturalRun (k : Nat) :
    (naturalRun k).count (Event.sleep k 100) = seconds * 10 := by
  unfold naturalRun
  rw [List.count_cons, count_sleep_iterations]
  simp

theorem count_still_naturalRun (k : Nat) :
    (naturalRun k).count (Event.log (Thread.worker k) Msg.stillReading) = seconds * 10 := by
  unfold naturalRun
  rw [List.count_cons, count_still_iterations]
  simp

theorem sleptMs_log_cons (who : Thread) (m : Msg) (es : List Event) :
    sleptMs (Event.log who m :: es) = sleptMs es := rfl

theorem sleptMs_naturalRun (k : Nat) : sleptMs (naturalRun k) = 100 * (seconds * 10) := by
  unfold naturalRun
  rw [sleptMs_log_cons, sleptMs_iterations]

theorem quitting_not_mem_naturalRun (k : Nat) :
    Event.log (Thread.worker k) Msg.quittingEarly ∉ naturalRun k := by
  unfold naturalRun
  simp [quitting_not_mem_iterations]

theorem load_true_not_mem_naturalRun (k : Nat) : Event.load k true ∉ naturalRun k := by
  unfold naturalRun
  simp [load_true_not_mem_iterations]

theorem count_sleep_earlyRun (k i : Nat) :
    (earlyRun k i).count (Event.sleep k 100) = i := by
  unfold earlyRun
  rw [List.cons_append, List.count_cons, List.count_append, count_sleep_iterations]
  simp

theorem quitting_mem_earlyRun (k i : Nat) :
    Event.log (Thread.worker k) Msg.quittingEarly ∈ earlyRun k i := by
  simp [earlyRun]

theorem load_true_mem_earlyRun (k i : Nat) : Event.load k true ∈ earlyRun k i := by
  simp [earlyRun]

/-! ## Flags, and what stays put while a call of `Close` holds the registry -/

theorem runLocal_acc (k : Nat) (q : Bool) (n : Nat) (pc : Pc) (acc : List Event) :
    runLocal k q n (pc, acc) =
      ((runLocal k q n (pc, [])).1, acc ++ (runLocal k q n (pc, [])).2) := by
  induction n generalizing pc acc with
  | zero => simp [runLocal]
  | succ n ih =>
    simp only [runLocal, List.nil_append]
    rw [ih, ih _ (localStep k q pc).2]
    simp

theorem runLocal_done (k : Nat) (q : Bool) (n : Nat) (acc : List Event) :
    runLocal k q n (Pc.done, acc) = (Pc.done, acc) := by
  induction n with
  | zero => rfl
  | succ n ih => simp [runLocal, localStep, ih]

theorem runLocal_add (k : Nat) (q : Bool) (n m : Nat) (x : Pc × List Event) :
    runLocal k q (n + m) x = runLocal k q m (runLocal k q n x) := by
  induction n generalizing x with
  | zero => simp [runLocal]
  | succ n ih =>
    rw [Nat.succ_add]
    simp only [runLocal]
    exact ih _

/-- With the flag set, three steps take a thread that has a poll ahead
through that poll, the early exit and the drop of `self`. -/
theorem runLocal_quit (k : Nat) (pc : Pc) (hahead : pollAhead pc = true) (n : Nat)
    (hn : 3 ≤ n) :
    runLocal k true n (pc, []) =
      (Pc.done, beforeNextPoll k pc ++
        [Event.load k true, Event.log (Thread.worker k) Msg.quittingEarly]) := by
  obtain ⟨m, rfl⟩ : ∃ m, n = 3 + m := ⟨n - 3, by omega⟩
  rw [runLocal_add]
  have h3 : runLocal k true 3 (pc, []) =
      (Pc.done, beforeNextPoll k pc ++
        [Event.load k true, Event.log (Thread.worker k) Msg.quittingEarly]) := by
    cases pc with
    | start => simp [runLocal, localStep, beforeNextPoll, seconds]
    | loopHead i =>
      have hi : i < seconds * 10 := by simpa [pollAhead] using hahead
      simp [runLocal, localStep, beforeNextPoll, hi]
    | sleeping i =>
      have hi : i + 1 < seconds * 10 := by simpa [pollAhead] using hahead
      simp [runLocal, localStep, beforeNextPoll, hi]
    | returned => simp [pollAhead] at hahead
    | done => simp [pollAhead] at hahead
  rw [h3, runLocal_done]

theorem readStep_heap_length (m : State) (k : Nat) :
    (Socket.readStep m k).heap.length = m.heap.length := by
  rcases readStep_shape m k with h | ⟨_, _, _, _, _, hh, _⟩ | ⟨w, _, _, h⟩
  · rw [h]
  · rw [hh]
  · rw [h]
    simp

/-- No action other than the store of `Close` touches a handle or a flag. -/
theorem gstep_sameFlags (g : GState) (x : GStep) (hx : x ≠ GStep.closeStep) :
    sameFlags g.mem (gstep g x).mem := by
  cases x with
  | callOpen => exact sameFlags_refl _
  | openStep t =>
    simp only [gstep]
    cases hpc : g.callers[t]? with
    | none => exact sameFlags_refl _
    | some pc =>
      simp only []
      split
      · exact sameFlags_refl _
      · exact (callerStep_frame g.toCState t pc).1
  | closeEnter who h =>
    show sameFlags g.mem (closeEnter g who h).mem
    rw [closeEnter_eq]
    cases g.closing with
    | some cp => exact sameFlags_refl _
    | none =>
      by_cases hg : 0 < h ∧ h < g.mem.sSocketPtrs.length
      · rw [if_pos hg]
        cases lockSlot g.mem h with
        | none => exact sameFlags_of_heap_eq rfl
        | some s => exact sameFlags_retain _ _
      · rw [if_neg hg]
        exact sameFlags_refl _
  | closeStep => exact absurd rfl hx
  | worker k => exact sameFlags_readStep _ _

/-- Every control block keeps its handle, and a flag that is set stays set. -/
theorem gstep_flag_mono (g : GState) (x : GStep) (a : Nat) (o : Socket)
    (ho : g.mem.heap[a]? = some o) :
    ∃ o1, (gstep g x).mem.heap[a]? = some o1 ∧ o1.m_handle = o.m_handle ∧
      (o.m_quit = true → o1.m_quit = true) := by
  by_cases hx : x = GStep.closeStep
  · subst hx
    show ∃ o1, (closeStep g).mem.heap[a]? = some o1 ∧ _
    unfold closeStep
    cases g.closing with
    | none => exact ⟨o, ho, rfl, id⟩
    | some cp =>
      cases cp with
      | locked who s =>
        by_cases hs : s = a
        · exact ⟨{ o with m_quit := true }, by simp [setQuit, List.getElem?_modify, ho, hs],
            rfl, fun _ => rfl⟩
        · exact ⟨o, by simp [setQuit, List.getElem?_modify, ho, hs], rfl, id⟩
      | stored who s =>
        obtain ⟨o1, h1, h2, h3⟩ := sameFlags_release (Thread.caller who) g.mem s a o ho
        exact ⟨o1, h1, h2, fun h => by rw [h3, h]⟩
  · obtain ⟨o1, h1, h2, h3⟩ := gstep_sameFlags g x hx a o ho
    exact ⟨o1, h1, h2, fun h => by rw [h3, h]⟩

theorem quit_gstep (g : GState) (x : GStep) (s : Nat) (hq : Socket.quit g.mem s = true) :
    Socket.quit (gstep g x).mem s = true := by
  unfold Socket.quit at hq
  cases ho : g.mem.heap[s]? with
  | none => simp [ho] at hq
  | some o =>
    simp [ho] at hq
    obtain ⟨o1, h1, _, h3⟩ := gstep_flag_mono g x s o ho
    simp [Socket.quit, h1, h3 hq]

/-- Once `m_quit` of the object of thread `k` is set, the thread follows the
local steps of `read` with the flag reading `true`, whatever the other
threads do. -/
theorem quit_grun (g : GState) (k : Nat) (w : Worker)
    (hw : g.mem.workers[k]? = some w) (hq : Socket.quit g.mem w.self = true)
    (sched : List GStep) :
    (∃ w1, (grun g sched).mem.workers[k]? = some w1 ∧ w1.self = w.self ∧
      w1.pc = (runLocal k true (sched.count (GStep.worker k)) (w.pc, [])).1) ∧
    ∃ es, (grun g sched).mem.trace = g.mem.trace ++ es ∧
      readEventsOf k es = (runLocal k true (sched.count (GStep.worker k)) (w.pc, [])).2 := by
  induction sched generalizing g w with
  | nil => exact ⟨⟨w, hw, rfl, rfl⟩, [], by simp [grun], rfl⟩
  | cons x rest ih =>
    obtain ⟨es1, ht1, h⟩ := gstep_view g x k
    have hq1 := quit_gstep g x w.self hq
    rcases h with ⟨hx, w0, hw0, hw1, hes⟩ | ⟨hes, hx, hw1 | ⟨hn, _⟩⟩
    · rw [hw] at hw0
      cases hw0
      rw [hq] at hw1 hes
      obtain ⟨⟨w2, hw2, hs2, hpc2⟩, es2, ht2, h2⟩ := ih (gstep g x) _ hw1 hq1
      have hc : (x :: rest).count (GStep.worker k) = rest.count (GStep.worker k) + 1 := by
        simp [hx]
      rw [hc]
      simp only [runLocal, List.nil_append]
      rw [runLocal_acc]
      refine ⟨⟨w2, hw2, hs2, hpc2⟩, es1 ++ es2, ?_, ?_⟩
      · show (grun (gstep g x) rest).mem.trace = _
        rw [ht2, ht1, List.append_assoc]
      · rw [readEventsOf_append, h2, hes]
    · have hne : x ≠ GStep.worker k := fun hxk => by
        rw [hx hxk] at hw
        cases hw
      have hne2 : ¬ (x == GStep.worker k) = true := by simpa using hne
      obtain ⟨⟨w2, hw2, hs2, hpc2⟩, es2, ht2, h2⟩ :=
        ih (gstep g x) w (by rw [hw1, hw]) hq1
      have hc : (x :: rest).count (GStep.worker k) = rest.count (GStep.worker k) := by
        rw [List.count_cons]
        simp [hne2]
      rw [hc]
      refine ⟨⟨w2, hw2, hs2, hpc2⟩, es1 ++ es2, ?_, ?_⟩
      · show (grun (gstep g x) rest).mem.trace = _
        rw [ht2, ht1, List.append_assoc]
      · rw [readEventsOf_append, h2, hes, List.nil_append]
    · rw [hn] at hw
      cases hw

/-- While a call of `Close` holds `sSocketPtrsMutex`, the actions of the other
threads leave the call where it is, and cannot touch the registry or
allocate. -/
theorem gstep_frozen (g : GState) (cp : ClosePc) (hc : g.closing = some cp) (x : GStep)
    (hx : x ≠ GStep.closeStep) :
    (gstep g x).closing = some cp ∧
    (gstep g x).mem.sSocketPtrs = g.mem.sSocketPtrs ∧
    (gstep g x).mem.heap.length = g.mem.heap.length := by
  cases x with
  | callOpen => exact ⟨hc, rfl, rfl⟩
  | openStep t =>
    simp only [gstep]
    cases hpc : g.callers[t]? with
    | none => exact ⟨hc, rfl, rfl⟩
    | some pc =>
      simp only []
      by_cases hb : pc.needsRegistry = true ∧ g.closing.isSome = true
      · rw [if_pos hb]
        exact ⟨hc, rfl, rfl⟩
      · rw [if_neg hb]
        have hnr : pc.needsRegistry = false := by
          cases hp : pc.needsRegistry with
          | false => rfl
          | true => exact absurd ⟨hp, by simp [hc]⟩ hb
        obtain ⟨h1, h2⟩ := (callerStep_frame g.toCState t pc).2.2.2.2 hnr
        exact ⟨hc, h1, h2⟩
  | closeEnter who h =>
    have he : gstep g (GStep.closeEnter who h) = g := by
      show closeEnter g who h = g
      unfold closeEnter
      rw [hc]
    rw [he]
    exact ⟨hc, rfl, rfl⟩
  | closeStep => exact absurd rfl hx
  | worker k =>
    exact ⟨hc, readStep_sSocketPtrs _ _, readStep_heap_length _ _⟩

theorem grun_frozen (g : GState) (cp : ClosePc) (hc : g.closing = some cp)
    (d : List GStep) (hd : GStep.closeStep ∉ d) :
    (grun g d).closing = some cp ∧
    (grun g d).mem.sSocketPtrs = g.mem.sSocketPtrs ∧
    (grun g d).mem.heap.length = g.mem.heap.length ∧
    sameFlags g.mem (grun g d).mem := by
  induction d generalizing g with
  | nil => exact ⟨hc, rfl, rfl, sameFlags_refl _⟩
  | cons x rest ih =>
    have hx : x ≠ GStep.closeStep := fun h => hd (by simp [h])
    have hrest : GStep.closeStep ∉ rest := fun h => hd (List.mem_cons_of_mem _ h)
    obtain ⟨h1, h2, h3⟩ := gstep_frozen g cp hc x hx
    obtain ⟨i1, i2, i3, i4⟩ := ih (gstep g x) h1 hrest
    exact ⟨i1, i2.trans h2, i3.trans h3, sameFlags_trans (gstep_sameFlags g x hx) i4⟩

/-- The trace only grows. -/
theorem grun_trace (g : GState) (sched : List GStep) :
    ∃ es, (grun g sched).mem.trace = g.mem.trace ++ es := by
  induction sched generalizing g with
  | nil => exact ⟨[], by simp [grun]⟩
  | cons x rest ih =>
    obtain ⟨es1, h1, _⟩ := gstep_view g x 0
    obtain ⟨es2, h2⟩ := ih (gstep g x)
    exact ⟨es1 ++ es2, by
      show (grun (gstep g x) rest).mem.trace = _
      rw [h2, h1, List.append_assoc]⟩

/-! ## Slots in the general machine -/

theorem GInv.slot_entry {g : GState} (hI : GInv g) {a : Nat}
    (hlt : a + 1 < g.mem.sSocketPtrs.length) : g.mem.sSocketPtrs[a + 1]? = some (some a) := by
  rw [hI.reg, List.getElem?_cons_succ, List.getElem?_map, List.getElem?_range (by omega)]
  rfl

theorem GInv.lockSlot_succ {g : GState} (hI : GInv g) {a : Nat} {o : Socket}
    (hlt : a + 1 < g.mem.sSocketPtrs.length) (ho : g.mem.heap[a]? = some o) :
    lockSlot g.mem (a + 1) = if o.useCount = 0 then none else some a := by
  simp [lockSlot, hI.slot_entry hlt, WeakPtr.lock, ho]

/-- A slot that resolves is slot `m_handle` of the object it resolves to, and
that object is alive. -/
theorem GInv.slot_some {g : GState} (hI : GInv g) {i : Nat} {r : Socket}
    (h : slot g.mem i = some r) :
    0 < i ∧ i < g.mem.sSocketPtrs.length ∧ g.mem.heap[i - 1]? = some r ∧
      lockSlot g.mem i = some (i - 1) ∧ r.m_handle = i ∧ r.useCount ≠ 0 := by
  obtain ⟨s, hl, hr⟩ := slot_some_iff.1 h
  obtain ⟨hi, hlt⟩ := hI.lockSlot_some hl
  subst hi
  have hh := hI.hnd s r hr
  have hne : r.useCount ≠ 0 := by
    intro h0
    rw [hI.lockSlot_succ hlt hr, if_pos h0] at hl
    cases hl
  exact ⟨Nat.succ_pos s, hlt, hr, hl, hh, hne⟩

theorem countP_lt_of_getElem? {α : Type} (p q : α → Bool) (l : List α) (k : Nat) (x : α)
    (hx : l[k]? = some x) (hp : p x = true) (hq : q x = false)
    (hsub : ∀ y, q y = true → p y = true) : l.countP q + 1 ≤ l.countP p := by
  induction l generalizing k with
  | nil => simp at hx
  | cons y ys ih =>
    have hle : ys.countP q ≤ ys.countP p := List.countP_mono_left (fun z _ => hsub z)
    cases k with
    | zero =>
      simp at hx
      subst hx
      simp [List.countP_cons, hp, hq]
      exact hle
    | succ j =>
      simp at hx
      have := ih j hx
      simp only [List.countP_cons]
      by_cases hqy : q y = true
      · simp [hqy, hsub y hqy]
        omega
      · have : (if q y = true then 1 else 0) = 0 := by simp [hqy]
        rw [this]
        omega

/-- The detached thread `k` is the only one started for its object, so once it
has dropped `self` no detached thread holds that object. -/
theorem GInv.no_worker_owns {g : GState} (hI : GInv g) {k : Nat} {w : Worker}
    (hw : g.mem.workers[k]? = some w) (hd : w.pc = Pc.done) :
    g.mem.workers.countP (Worker.owns w.self) = 0 := by
  have hl := hI.life w.self
  have h1 := countP_lt_of_getElem? (Worker.isFor w.self) (Worker.owns w.self) g.mem.workers k w
    hw (by simp [Worker.isFor]) (by simp [Worker.owns, hd])
    (fun y hy => by
      simp [Worker.owns] at hy
      simp [Worker.isFor, hy.1])
  split at hl <;> omega

/-- Instance of `Close_bad_handle_is_noop` on the handle of a destroyed
resource. -/
theorem Close_bad_handle_is_noop_witness :
    slot destroyedState 1 = none ∧
    ∃ st1, Socket.Close mainThread destroyedState 1 = Except.ok st1 ∧
      st1.sSocketPtrs = destroyedState.sSocketPtrs ∧ st1.heap = destroyedState.heap ∧
      st1.workers = destroyedState.workers :=
  ⟨by decide,
   Close_bad_handle_is_noop mainThread destroyedState 1 (Or.inr (Or.inr (by decide)))⟩

/-- Instance of `quit_flag_is_monotonic`: a closed socket whose worker takes a
step. -/
theorem quit_flag_is_monotonic_witness :
    (exec init [Step.callOpen, Step.callClose 1]).heap[0]? =
      some { m_handle := 1, m_quit := true, useCount := 1 } ∧
    ∃ o1, (step (exec init [Step.callOpen, Step.callClose 1]) (Step.worker 0)).heap[0]? =
        some o1 ∧ o1.m_quit = true ∧ o1.m_handle = 1 :=
  ⟨by decide,
   quit_flag_is_monotonic (exec init [Step.callOpen, Step.callClose 1]) (Step.worker 0) 0
     { m_handle := 1, m_quit := true, useCount := 1 } (by decide) rfl⟩



/-! ## Handle resolution -/

/-- With no call of `Close` in progress, an action of a call of `Open` in the
general machine is the action of the concurrent machine. -/
theorem grun_openSteps (g : GState) (hc : g.closing = none) (t n : Nat) :
    grun g (List.replicate n (GStep.openStep t)) =
      { g with toCState := crun g.toCState (List.replicate n (CStep.caller t)) } := by
  induction n generalizing g with
  | zero => rfl
  | succ n ih =>
    have h1 : gstep g (GStep.openStep t) =
        { g with toCState := cstep g.toCState (CStep.caller t) } := by
      simp only [gstep, cstep]
      cases g.callers[t]? with
      | none => rfl
      | some pc =>
        simp only []
        rw [if_neg (by simp [hc])]
    show grun (gstep g (GStep.openStep t)) (List.replicate n (GStep.openStep t)) = _
    rw [h1, ih { g with toCState := cstep g.toCState (CStep.caller t) } hc]
    rfl

/-- A call of `Open` that runs without interruption, with the creation mutex
free and no `Close` in progress, computes `Socket.Open`: it returns the size
of the registry, and slot `handle` then resolves to the new `Socket`, whose
flag is `false`. -/
theorem uninterrupted_Open (g : GState) (hm : g.sSktCreationMutex = none)
    (hc : g.closing = none) :
    (grun g (openCall g.callers.length)).mem =
      (Socket.Open (Thread.caller g.callers.length) g.mem).2 ∧
    (grun g (openCall g.callers.length)).callers[g.callers.length]? =
      some (OpenPc.returned g.mem.sSocketPtrs.length) ∧
    slot (grun g (openCall g.callers.length)).mem g.mem.sSocketPtrs.length =
      some { m_handle := g.mem.sSocketPtrs.length, m_quit := false, useCount := 1 } := by
  have hrun : grun g (openCall g.callers.length) =
      grun (gstep g GStep.callOpen) (List.replicate 7 (GStep.openStep g.callers.length)) := by
    unfold openCall grun
    rw [List.foldl_cons]
  have hsolo := solo_caller_eq_Open (gstep g GStep.callOpen).toCState g.callers.length
    (by simp [gstep]) hm
  rw [hrun, grun_openSteps (gstep g GStep.callOpen) hc]
  have hmem : (Socket.Open (Thread.caller g.callers.length) (gstep g GStep.callOpen).mem) =
      (Socket.Open (Thread.caller g.callers.length) g.mem) := rfl
  rw [hmem, Open_fst] at hsolo
  refine ⟨hsolo.1, hsolo.2, ?_⟩
  show slot (crun _ _).mem _ = _
  rw [hsolo.1, Open_snd]
  simp [slot, lockSlot, WeakPtr.lock]

theorem grun_closeBeforeRelease (g : GState) (who h : Nat) (d1 d2 : List GStep) :
    grun g (closeBeforeRelease who h d1 d2) =
      grun (gstep (grun (gstep g (GStep.closeEnter who h)) d1) GStep.closeStep) d2 := by
  unfold closeBeforeRelease
  rw [show GStep.closeEnter who h :: d1 ++ GStep.closeStep :: d2 =
    [GStep.closeEnter who h] ++ (d1 ++ ([GStep.closeStep] ++ d2)) from by simp]
  rw [grun_append, grun_append, grun_append]
  rfl

theorem grun_closeCall (g : GState) (who h : Nat) (d1 d2 : List GStep) :
    grun g (closeCall who h d1 d2) =
      gstep (grun g (closeBeforeRelease who h d1 d2)) GStep.closeStep := by
  unfold closeCall
  rw [grun_append]
  rfl

/-- The first action of `Close` on a slot that locks. -/
theorem closeEnter_of_lock (g : GState) (who h s : Nat) (hc : g.closing = none)
    (h0 : 0 < h) (hlt : h < g.mem.sSocketPtrs.length) (hl : lockSlot g.mem h = some s) :
    gstep g (GStep.closeEnter who h) =
      { g with mem := retain g.mem s, closing := some (ClosePc.locked who s) } := by
  show closeEnter g who h = _
  rw [closeEnter_eq, hc]
  simp only []
  rw [if_pos ⟨h0, hlt⟩, hl]

theorem closeStep_of_locked (g : GState) (who s : Nat)
    (hc : g.closing = some (ClosePc.locked who s)) :
    gstep g GStep.closeStep =
      { g with mem := setQuit g.mem s, closing := some (ClosePc.stored who s) } := by
  show closeStep g = _
  unfold closeStep
  rw [hc]

theorem closeStep_of_stored (g : GState) (who s : Nat)
    (hc : g.closing = some (ClosePc.stored who s)) :
    gstep g GStep.closeStep =
      { g with mem := release (Thread.caller who) g.mem s, closing := none } := by
  show closeStep g = _
  unfold closeStep
  rw [hc]

/-- The state in which a call of `Close` on a live handle destroys its local
`s`: the call is past the store, the registry is the one it found, the flag of
its object is set and every other control block has the handle and the flag
it had. -/
theorem closeBeforeRelease_state {g : GState} (hI : GInv g) (hc : g.closing = none)
    (who h : Nat) (r : Socket) (hl : slot g.mem h = some r)
    (d1 d2 : List GStep) (hd1 : GStep.closeStep ∉ d1) (hd2 : GStep.closeStep ∉ d2) :
    (grun g (closeBeforeRelease who h d1 d2)).closing = some (ClosePc.stored who (h - 1)) ∧
    (grun g (closeBeforeRelease who h d1 d2)).mem.sSocketPtrs = g.mem.sSocketPtrs ∧
    (∃ o, (grun g (closeBeforeRelease who h d1 d2)).mem.heap[h - 1]? = some o ∧
      o.m_handle = h ∧ o.m_quit = true ∧ 0 < o.useCount) ∧
    (∀ (a : Nat) (o : Socket), a ≠ h - 1 → g.mem.heap[a]? = some o →
      ∃ o1, (grun g (closeBeforeRelease who h d1 d2)).mem.heap[a]? = some o1 ∧
        o1.m_handle = o.m_handle ∧ o1.m_quit = o.m_quit) ∧
    (gstep (grun (gstep g (GStep.closeEnter who h)) d1) GStep.closeStep).mem.trace =
      (grun (gstep g (GStep.closeEnter who h)) d1).mem.trace := by
  obtain ⟨h0, hlt, hr, hls, hh, _⟩ := hI.slot_some hl
  have hI2 : GInv (grun g (closeBeforeRelease who h d1 d2)) := GInv_grun hI _
  rw [grun_closeBeforeRelease] at hI2 ⊢
  have e1 := closeEnter_of_lock g who h (h - 1) hc h0 hlt hls
  obtain ⟨a1, a2, _, a4⟩ := grun_frozen (gstep g (GStep.closeEnter who h))
    (ClosePc.locked who (h - 1)) (by rw [e1]) d1 hd1
  have e2 := closeStep_of_locked _ who (h - 1) a1
  obtain ⟨b1, b2, _, b4⟩ := grun_frozen
    (gstep (grun (gstep g (GStep.closeEnter who h)) d1) GStep.closeStep)
    (ClosePc.stored who (h - 1)) (by rw [e2]) d2 hd2
  have f1 : sameFlags g.mem (gstep g (GStep.closeEnter who h)).mem := by
    rw [e1]
    exact sameFlags_retain _ _
  have f2 := sameFlags_trans f1 a4
  refine ⟨b1, ?_, ?_, ?_, ?_⟩
  · rw [b2, e2]
    show (grun (gstep g (GStep.closeEnter who h)) d1).mem.sSocketPtrs = _
    rw [a2, e1]
    rfl
  · obtain ⟨o1, ho1, hh1, _⟩ := f2 (h - 1) r hr
    have hb : (gstep (grun (gstep g (GStep.closeEnter who h)) d1) GStep.closeStep).mem.heap[h - 1]?
        = some { o1 with m_quit := true } := by
      rw [e2]
      simp [setQuit, ho1]
    obtain ⟨o2, ho2, hh2, hq2⟩ := b4 (h - 1) _ hb
    refine ⟨o2, ho2, by rw [hh2]; exact hh1.trans hh, by rw [hq2], ?_⟩
    have hcnt := hI2.cnt (h - 1) o2 ho2
    rw [hcnt]
    unfold owners
    rw [b1]
    simp [closeOwns, ClosePc.addr]
  · intro a o ha ho
    obtain ⟨o1, ho1, hh1, hq1⟩ := f2 a o ho
    have hb : (gstep (grun (gstep g (GStep.closeEnter who h)) d1) GStep.closeStep).mem.heap[a]?
        = some o1 := by
      rw [e2]
      simp only [setQuit]
      rw [List.getElem?_modify_ne _ _ (fun hne => ha hne.symm)]
      exact ho1
    obtain ⟨o2, ho2, hh2, hq2⟩ := b4 a o1 hb
    exact ⟨o2, ho2, hh2.trans hh1, hq2.trans hq1⟩
  · rw [e2]
    rfl

theorem closeStep_of_none (g : GState) (hc : g.closing = none) :
    gstep g GStep.closeStep = g := by
  show closeStep g = g
  unfold closeStep
  rw [hc]

/-- A call of `Close` that gets `sSocketPtrsMutex` and runs without
interruption computes `Socket.Close`. -/
theorem uninterrupted_Close (g : GState) (hc : g.closing = none) (who h : Nat) :
    (grun g (closeCall who h [] [])).mem = Socket.closed (Thread.caller who) g.mem h ∧
    (grun g (closeCall who h [] [])).closing = none := by
  have hrun : grun g (closeCall who h [] []) =
      gstep (gstep (gstep g (GStep.closeEnter who h)) GStep.closeStep) GStep.closeStep := rfl
  rw [hrun, closed_eq_of_Close (Close_eq (Thread.caller who) g.mem h)]
  by_cases hg : 0 < h ∧ h < g.mem.sSocketPtrs.length
  · rw [if_pos hg]
    cases hl : lockSlot g.mem h with
    | none =>
      have e1 : gstep g (GStep.closeEnter who h) =
          { g with mem := LOG (Thread.caller who) g.mem (Msg.alreadyDeleted h) } := by
        show closeEnter g who h = _
        rw [closeEnter_eq, hc]
        simp only []
        rw [if_pos hg, hl]
      have hc1 : ({ g with mem := LOG (Thread.caller who) g.mem (Msg.alreadyDeleted h) } :
          GState).closing = none := hc
      rw [e1, closeStep_of_none _ hc1, closeStep_of_none _ hc1]
      exact ⟨rfl, hc⟩
    | some s =>
      have e1 := closeEnter_of_lock g who h s hc hg.1 hg.2 hl
      have e2 := closeStep_of_locked (gstep g (GStep.closeEnter who h)) who s (by rw [e1])
      have e3 := closeStep_of_stored
        (gstep (gstep g (GStep.closeEnter who h)) GStep.closeStep) who s (by rw [e2])
      rw [e3, e2, e1]
      rw [lockSlot_of_lt g.mem h hg.2] at hl
      obtain ⟨_, o, ho, hne⟩ := lock_eq_some hl
      exact ⟨release_setQuit_retain (Thread.caller who) g.mem s o ho hne, rfl⟩
  · have e1 : gstep g (GStep.closeEnter who h) = g := by
      show closeEnter g who h = _
      rw [closeEnter_eq, hc]
      simp only []
      rw [if_neg hg]
    rw [if_neg hg, e1, closeStep_of_none _ hc, closeStep_of_none _ hc]
    exact ⟨rfl, hc⟩

set_option maxRecDepth 100000 in
/-- C5 (as stated) fails: `Close` on a live handle can emit a log line and
leave the slot expired.  `Close` holds `sSocketPtrsMutex`, which the detached
thread never takes: after the store to `m_quit` the thread polls, logs
"Quitting read early" and drops `self` while `Close` still holds its local
`s`; the destruction of `s` then runs `~Socket()` in the thread that called
`Close`, which logs "Socket 1 destructed", and slot `1` no longer resolves. -/
theorem Close_can_run_the_destructor :
    greachable openedOnce ∧
    slot openedOnce.mem 1 = some { m_handle := 1, m_quit := false, useCount := 1 } ∧
    (grun openedOnce (closeCall 9 1 [] (List.replicate 3 (GStep.worker 0)))).closing = none ∧
    newEvents openedOnce.mem
        (grun openedOnce (closeCall 9 1 [] (List.replicate 3 (GStep.worker 0)))).mem =
      [Event.log (Thread.worker 0) (Msg.readingFor 2), Event.load 0 true,
       Event.log (Thread.worker 0) Msg.quittingEarly,
       Event.log (Thread.caller 9) (Msg.destructed 1)] ∧
    slot (grun openedOnce (closeCall 9 1 [] (List.replicate 3 (GStep.worker 0)))).mem 1 =
      none :=
  ⟨⟨_, rfl⟩, by decide, by decide, by decide, by decide⟩

/-- C5 (as amended): take a reachable state, a handle `h` whose slot resolves
to a live `Socket`, and a call `Close(h)` that gets `sSocketPtrsMutex`, with
any steps `d1` of other threads between its `lock()` and its store and any
steps `d2` of other threads between its store and the destruction of its local
`s`.  The call returns; the registry is unchanged; when the call destroys `s`
the `Socket` of slot `h` carries handle `h` and has `m_quit` true, and every
other `Socket` has the handle and the flag it had; `lock()` and the store log
nothing; the destruction of `s` logs "Socket h destructed" and leaves slot `h`
expired exactly when `s` is the last strong reference (the detached thread has
dropped `self` in the meantime), and otherwise logs nothing and leaves the
slot resolving to the same `Socket` with `m_quit` true.  A call that is not
interrupted (`d1` and `d2` empty) changes `m_quit` and nothing else, and is
the result of `Socket.Close`. -/
theorem Close_live_handle_sets_quit (g : GState) (hr : greachable g) (hc : g.closing = none)
    (who h : Nat) (r : Socket) (hl : slot g.mem h = some r)
    (d1 d2 : List GStep) (hd1 : GStep.closeStep ∉ d1) (hd2 : GStep.closeStep ∉ d2) :
    (grun g (closeCall who h d1 d2)).closing = none ∧
    (grun g (closeCall who h d1 d2)).mem.sSocketPtrs = g.mem.sSocketPtrs ∧
    (∀ (a : Nat) (o : Socket), a ≠ h - 1 → g.mem.heap[a]? = some o →
      ∃ o1, (grun g (closeCall who h d1 d2)).mem.heap[a]? = some o1 ∧
        o1.m_handle = o.m_handle ∧ o1.m_quit = o.m_quit) ∧
    (gstep g (GStep.closeEnter who h)).mem.trace = g.mem.trace ∧
    (gstep (grun (gstep g (GStep.closeEnter who h)) d1) GStep.closeStep).mem.trace =
      (grun (gstep g (GStep.closeEnter who h)) d1).mem.trace ∧
    (∃ o, (grun g (closeBeforeRelease who h d1 d2)).mem.heap[h - 1]? = some o ∧
      o.m_handle = h ∧ o.m_quit = true ∧ 0 < o.useCount ∧
      (grun g (closeCall who h d1 d2)).mem.heap[h - 1]? =
        some { o with useCount := o.useCount - 1 } ∧
      (grun g (closeCall who h d1 d2)).mem.trace =
        (grun g (closeBeforeRelease who h d1 d2)).mem.trace ++
          (if o.useCount = 1 then [Event.log (Thread.caller who) (Msg.destructed h)]
           else []) ∧
      slot (grun g (closeCall who h d1 d2)).mem h =
        if o.useCount = 1 then none else some { o with useCount := o.useCount - 1 }) ∧
    (grun g (closeCall who h [] [])).mem = setQuit g.mem (h - 1) ∧
    Socket.Close (Thread.caller who) g.mem h = Except.ok (grun g (closeCall who h [] [])).mem := by
  have hI := GInv_of_greachable hr
  obtain ⟨h0, hlt, hrr, hls, hh, hne⟩ := hI.slot_some hl
  obtain ⟨c1, c2, ⟨o, ho, hoh, hoq, hou⟩, c4, c5⟩ :=
    closeBeforeRelease_state hI hc who h r hl d1 d2 hd1 hd2
  have hI3 : GInv (grun g (closeCall who h d1 d2)) := GInv_grun hI _
  have e3 := closeStep_of_stored _ who (h - 1) c1
  rw [grun_closeCall] at hI3 ⊢
  have e1 := closeEnter_of_lock g who h (h - 1) hc h0 hlt hls
  have hheap : (gstep (grun g (closeBeforeRelease who h d1 d2)) GStep.closeStep).mem.heap[h - 1]?
      = some { o with useCount := o.useCount - 1 } := by
    rw [e3]
    simp [ho]
  have hreg : (gstep (grun g (closeBeforeRelease who h d1 d2)) GStep.closeStep).mem.sSocketPtrs
      = g.mem.sSocketPtrs := by
    rw [e3]
    simp [c2]
  have hunint : (grun g (closeCall who h [] [])).mem = setQuit g.mem (h - 1) := by
    have : grun g (closeCall who h [] []) =
        gstep (gstep (gstep g (GStep.closeEnter who h)) GStep.closeStep) GStep.closeStep := rfl
    rw [this, closeStep_of_stored _ who (h - 1)
      (by rw [closeStep_of_locked _ who (h - 1) (by rw [e1])]),
      closeStep_of_locked _ who (h - 1) (by rw [e1]), e1]
    exact release_setQuit_retain (Thread.caller who) g.mem (h - 1) r hrr hne
  refine ⟨by rw [e3], hreg, ?_, by rw [e1]; rfl, c5, ⟨o, ho, hoh, hoq, hou, hheap, ?_, ?_⟩,
    hunint, ?_⟩
  · intro a o0 ha ho0
    obtain ⟨o1, ho1, hh1, hq1⟩ := c4 a o0 ha ho0
    obtain ⟨o2, ho2, hh2, hq2⟩ := sameFlags_release (Thread.caller who)
      (grun g (closeBeforeRelease who h d1 d2)).mem (h - 1) a o1 ho1
    refine ⟨o2, ?_, hh2.trans hh1, hq2.trans hq1⟩
    rw [e3]
    exact ho2
  · rw [e3]
    show (release _ _ _).trace = _
    rw [release_trace, ho]
    simp only []
    by_cases hu : o.useCount = 1
    · rw [if_pos hu, if_pos hu, hoh]
    · rw [if_neg hu, if_neg hu, List.append_nil]
  · have hlt3 : (h - 1) + 1 <
        (gstep (grun g (closeBeforeRelease who h d1 d2)) GStep.closeStep).mem.sSocketPtrs.length := by
      rw [hreg]
      omega
    have hls3 := hI3.lockSlot_succ hlt3 hheap
    have hh1 : h - 1 + 1 = h := by omega
    rw [hh1] at hls3
    unfold slot
    rw [hls3]
    by_cases hu : o.useCount = 1
    · rw [if_pos hu, if_pos (show ({ o with useCount := o.useCount - 1 } : Socket).useCount = 0
        from by show o.useCount - 1 = 0; omega)]
    · rw [if_neg hu, if_neg (show ¬ ({ o with useCount := o.useCount - 1 } : Socket).useCount = 0
        from by show ¬ o.useCount - 1 = 0; omega)]
      exact hheap
  · rw [hunint, Close_eq, if_pos ⟨h0, hlt⟩, hls]

/-- Instance of `Close_live_handle_sets_quit`: `Close(1)` on the socket of
`openedOnce`, its detached thread taking one step before the store and one
after it; the thread still holds `self` when `Close` destroys its local `s`,
so nothing is logged by `Close` and the slot still resolves. -/
theorem Close_live_handle_sets_quit_witness :
    greachable openedOnce ∧ openedOnce.closing = none ∧
    slot openedOnce.mem 1 = some { m_handle := 1, m_quit := false, useCount := 1 } ∧
    (grun openedOnce (closeCall 9 1 [GStep.worker 0] [GStep.worker 0])).closing = none ∧
    (grun openedOnce (closeCall 9 1 [GStep.worker 0] [GStep.worker 0])).mem.sSocketPtrs =
      openedOnce.mem.sSocketPtrs ∧
    (grun openedOnce (closeCall 9 1 [] [])).mem = setQuit openedOnce.mem 0 :=
  have hr : greachable openedOnce := ⟨_, rfl⟩
  have hl : slot openedOnce.mem 1 = some { m_handle := 1, m_quit := false, useCount := 1 } := by
    decide
  have h := Close_live_handle_sets_quit openedOnce hr (by decide) 9 1 _ hl
    [GStep.worker 0] [GStep.worker 0] (by decide) (by decide)
  ⟨hr, by decide, hl, h.1, h.2.1, h.2.2.2.2.2.2.1⟩

/-! ## Cancellation latency -/

set_option maxRecDepth 100000 in
/-- C6 (as stated) fails: after one `Open` and 40 steps of its detached thread
the loop of `read` has not returned (the thread is in the sleep of iteration
19, the last one), the resource is alive and `Close(1)` sets its `m_quit`; yet
the thread has no poll left, so it finishes the 20th sleep, never logs
"Quitting read early", and what `read()` did is the natural run. -/
theorem Close_during_last_sleep_is_not_observed :
    greachable lastSleep ∧
    pcOf lastSleep.mem 0 = some (Pc.sleeping 19) ∧
    notReturned (Pc.sleeping 19) = true ∧
    Socket.quit lastSleep.mem 0 = false ∧
    Socket.quit (grun lastSleep (closeCall 9 1 [] [])).mem 0 = true ∧
    pcOf (grun lastSleep (closeCall 9 1 [] [] ++ List.replicate 3 (GStep.worker 0))).mem 0 =
      some Pc.done ∧
    Event.log (Thread.worker 0) Msg.quittingEarly ∉
      (grun lastSleep (closeCall 9 1 [] [] ++ List.replicate 3 (GStep.worker 0))).mem.trace ∧
    (readEventsOf 0
      (grun lastSleep (closeCall 9 1 [] [] ++ List.replicate 3 (GStep.worker 0))).mem.trace).count
        (Event.sleep 0 100) = 20 ∧
    readEventsOf 0
      (grun lastSleep (closeCall 9 1 [] [] ++ List.replicate 3 (GStep.worker 0))).mem.trace =
        naturalRun 0 :=
  ⟨greachable_grun ⟨_, rfl⟩ _, by decide, by decide, by decide, by decide, by decide,
    by decide, by decide, by decide⟩

/-- C6 (as amended): take a reachable state in which a call of `Close` is
about to execute the store `s->m_quit = true`, and the detached thread `k` of
that `Socket` still has a poll of `m_quit` ahead (it has not started the loop,
or is about to poll, or is in a sleep other than the 20th).  After the store
the flag is set, and under every interleaving of the other threads that gives
thread `k` at least 3 steps, the thread has left `read()`; what it did in
`read()` after the store is exactly: at most the end of the sleep in progress
(with its "Still reading..." line), then a poll reading `true` and "Quitting
read early"; and over its whole life it slept fewer than 20 times. -/
theorem Close_with_poll_ahead_exits_early (g : GState) (hr : greachable g)
    (who s k : Nat) (w : Worker) (hc : g.closing = some (ClosePc.locked who s))
    (hw : g.mem.workers[k]? = some w) (hs : w.self = s) (hahead : pollAhead w.pc = true)
    (sched : List GStep) (hsched : 3 ≤ sched.count (GStep.worker k)) :
    Socket.quit (gstep g GStep.closeStep).mem s = true ∧
    pcOf (grun (gstep g GStep.closeStep) sched).mem k = some Pc.done ∧
    readEventsOf k
        (newEvents (gstep g GStep.closeStep).mem (grun (gstep g GStep.closeStep) sched).mem) =
      beforeNextPoll k w.pc ++
        [Event.load k true, Event.log (Thread.worker k) Msg.quittingEarly] ∧
    (beforeNextPoll k w.pc).count (Event.sleep k 100) ≤ 1 ∧
    Event.log (Thread.worker k) Msg.quittingEarly ∈
      (grun (gstep g GStep.closeStep) sched).mem.trace ∧
    (readEventsOf k (grun (gstep g GStep.closeStep) sched).mem.trace).count
      (Event.sleep k 100) < 20 := by
  have hI := GInv_of_greachable hr
  have hlt : s < g.mem.heap.length := hI.addr_lt (hI.cls _ hc)
  have e := closeStep_of_locked g who s hc
  have hq : Socket.quit (gstep g GStep.closeStep).mem s = true := by
    rw [e]
    simp [Socket.quit, setQuit, List.getElem?_eq_getElem hlt]
  have hw0 : (gstep g GStep.closeStep).mem.workers[k]? = some w := by
    rw [e]
    exact hw
  obtain ⟨⟨w1, hw1, _, hpc1⟩, es, ht, hes⟩ :=
    quit_grun (gstep g GStep.closeStep) k w hw0 (by rw [hs]; exact hq) sched
  rw [runLocal_quit k w.pc hahead _ hsched] at hpc1 hes
  have hpc : pcOf (grun (gstep g GStep.closeStep) sched).mem k = some Pc.done := by
    rw [pcOf_eq_some hw1, hpc1]
  have hW := WTrace_of_greachable (greachable_grun (greachable_gstep hr GStep.closeStep) sched) k
  rw [hpc] at hW
  simp only [WTrace] at hW
  have hmem : Event.load k true ∈
      readEventsOf k (grun (gstep g GStep.closeStep) sched).mem.trace := by
    rw [ht, readEventsOf_append, hes]
    simp
  have hearly : ∃ i, i < seconds * 10 ∧
      readEventsOf k (grun (gstep g GStep.closeStep) sched).mem.trace = earlyRun k i := by
    rcases hW with h | h
    · rw [h] at hmem
      exact absurd hmem (load_true_not_mem_naturalRun k)
    · exact h
  obtain ⟨i, hi, he⟩ := hearly
  refine ⟨hq, hpc, ?_, ?_, ?_, ?_⟩
  · rw [newEvents, ht, List.drop_left, hes]
  · cases w.pc <;> simp [beforeNextPoll, List.count_cons]
  · apply mem_of_mem_readEventsOf (k := k)
    rw [he]
    exact quitting_mem_earlyRun k i
  · rw [he, count_sleep_earlyRun]
    exact hi

/-- Instance of `Close_with_poll_ahead_exits_early`: `Close(1)` has locked the
slot of the socket of `openedOnce` while the detached thread has not started
its loop; an `Open` by another thread is interleaved with the three steps of
the detached thread. -/
theorem Close_with_poll_ahead_exits_early_witness :
    greachable (gstep openedOnce (GStep.closeEnter 9 1)) ∧
    (gstep openedOnce (GStep.closeEnter 9 1)).closing = some (ClosePc.locked 9 0) ∧
    pollAhead Pc.start = true ∧
    pcOf (grun (gstep (gstep openedOnce (GStep.closeEnter 9 1)) GStep.closeStep)
      [GStep.worker 0, GStep.callOpen, GStep.worker 0, GStep.openStep 1, GStep.worker 0]).mem 0 =
        some Pc.done :=
  have hr : greachable (gstep openedOnce (GStep.closeEnter 9 1)) :=
    greachable_gstep ⟨_, rfl⟩ _
  have h := Close_with_poll_ahead_exits_early (gstep openedOnce (GStep.closeEnter 9 1)) hr
    9 0 0 { self := 0, pc := Pc.start } (by decide) (by decide) (by decide) (by decide)
    [GStep.worker 0, GStep.callOpen, GStep.worker 0, GStep.openStep 1, GStep.worker 0]
    (by decide)
  ⟨hr, by decide, by decide, h.2.1⟩

/-! ## Natural completion -/

/-- Once the detached thread of a `Socket` has dropped `self`, and neither the
call of `Open` that created the `Socket` nor a call of `Close` holds it, the
slot has expired. -/
theorem GInv.slot_expired {g : GState} (hI : GInv g) {k : Nat} {w : Worker}
    (hw : g.mem.workers[k]? = some w) (hd : w.pc = Pc.done)
    (hopen : g.callers.countP (OpenPc.owns w.self) = 0)
    (hclose : closeOwns g.closing w.self = 0) :
    lockSlot g.mem (w.self + 1) = none := by
  have hlt := hI.wrk k w hw
  have ha := hI.addr_lt hlt
  have ho : g.mem.heap[w.self]? = some (g.mem.heap.get ⟨w.self, ha⟩) :=
    List.getElem?_eq_getElem ha
  have hc := hI.cnt _ _ ho
  unfold owners at hc
  rw [hopen, hclose, hI.no_worker_owns hw hd] at hc
  rw [hI.lockSlot_succ hlt ho, if_pos hc]

/-- C9: take any reachable state in which the detached thread `k` exists, and
any interleaving that gives thread `k` at least 43 steps and in which no poll
of `k` ever reads `true`.  Then thread `k` has left `read()` and dropped
`self`, and what it did in `read()` is exactly: "Reading for 2 seconds", then
20 times (poll reading `false`, sleep 100 ms, "Still reading..."): 20 polls,
20 sleeps, 2000 ms, 20 "Still reading..." lines, no "Quitting read early".
Its handle is in range; and once `self` was the only strong reference left
(the call of `Open` that created the `Socket` has destroyed its local `s`, and
no call of `Close` holds the `Socket`), the slot no longer resolves, and a
later `Close` of that handle takes the already-deleted branch. -/
theorem natural_completion (g : GState) (hr : greachable g) (k : Nat) (w : Worker)
    (hw : g.mem.workers[k]? = some w) (sched : List GStep)
    (hsched : 43 ≤ sched.count (GStep.worker k))
    (hfalse : Event.load k true ∉ (grun g sched).mem.trace) :
    (∃ w1, (grun g sched).mem.workers[k]? = some w1 ∧ w1.self = w.self ∧ w1.pc = Pc.done) ∧
    readEventsOf k (grun g sched).mem.trace = naturalRun k ∧
    (naturalRun k).count (Event.load k false) = 20 ∧
    (naturalRun k).count (Event.sleep k 100) = 20 ∧
    sleptMs (naturalRun k) = 2000 ∧
    (naturalRun k).count (Event.log (Thread.worker k) Msg.stillReading) = 20 ∧
    Event.log (Thread.worker k) Msg.quittingEarly ∉ naturalRun k ∧
    0 < w.self + 1 ∧ w.self + 1 < (grun g sched).mem.sSocketPtrs.length ∧
    ((grun g sched).callers.countP (OpenPc.owns w.self) = 0 →
      closeOwns (grun g sched).closing w.self = 0 →
      slot (grun g sched).mem (w.self + 1) = none ∧
      ∀ who : Nat, Socket.Close (Thread.caller who) (grun g sched).mem (w.self + 1) =
        Except.ok (LOG (Thread.caller who) (grun g sched).mem
          (Msg.alreadyDeleted (w.self + 1)))) ∧
    ((grun g sched).callers.countP (OpenPc.owns w.self) = 0 →
      (grun g sched).closing = none →
      ∀ who : Nat, gstep (grun g sched) (GStep.closeEnter who (w.self + 1)) =
        { grun g sched with
          mem := LOG (Thread.caller who) (grun g sched).mem
            (Msg.alreadyDeleted (w.self + 1)) }) := by
  have hr2 := greachable_grun hr sched
  have hI2 := GInv_of_greachable hr2
  obtain ⟨w1, hw1, hs1, hle⟩ := remaining_grun g k w hw sched
  have hb := remaining_le w.pc
  have hd : w1.pc = Pc.done :=
    eq_done_of_remaining_eq_zero (by simp [seconds] at hb; omega)
  have hW := WTrace_of_greachable hr2 k
  rw [pcOf_eq_some hw1, hd] at hW
  simp only [WTrace] at hW
  have hnat : readEventsOf k (grun g sched).mem.trace = naturalRun k := by
    rcases hW with h | ⟨i, _, h⟩
    · exact h
    · exfalso
      apply hfalse
      apply mem_of_mem_readEventsOf (k := k)
      rw [h]
      exact load_true_mem_earlyRun k i
  have hlt := hI2.wrk k w1 hw1
  rw [hs1] at hlt
  have hexp : (grun g sched).callers.countP (OpenPc.owns w.self) = 0 →
      closeOwns (grun g sched).closing w.self = 0 →
      lockSlot (grun g sched).mem (w.self + 1) = none := by
    intro h1 h2
    have := hI2.slot_expired hw1 hd (by rw [hs1]; exact h1) (by rw [hs1]; exact h2)
    rw [hs1] at this
    exact this
  refine ⟨⟨w1, hw1, hs1, hd⟩, hnat, count_load_naturalRun k, count_sleep_naturalRun k,
    sleptMs_naturalRun k, count_still_naturalRun k, quitting_not_mem_naturalRun k,
    Nat.succ_pos _, hlt, ?_, ?_⟩
  · intro h1 h2
    have hl := hexp h1 h2
    refine ⟨(slot_eq_none_iff _ _).2 hl, fun who => ?_⟩
    rw [Close_eq, if_pos ⟨Nat.succ_pos _, hlt⟩, hl]
  · intro h1 h2 who
    have hl := hexp h1 (by rw [h2]; rfl)
    show closeEnter (grun g sched) who (w.self + 1) = _
    rw [closeEnter_eq, h2]
    simp only []
    rw [if_pos ⟨Nat.succ_pos _, hlt⟩, hl]
    simp only [h2]

set_option maxRecDepth 100000 in
/-- Instance of `natural_completion`: the socket of `openedOnce`, never
closed, whose detached thread is given 43 steps; afterwards slot `1` has
expired. -/
theorem natural_completion_witness :
    greachable openedOnce ∧
    openedOnce.mem.workers[0]? = some { self := 0, pc := Pc.start } ∧
    43 ≤ (List.replicate 43 (GStep.worker 0)).count (GStep.worker 0) ∧
    Event.load 0 true ∉ (grun openedOnce (List.replicate 43 (GStep.worker 0))).mem.trace ∧
    readEventsOf 0 (grun openedOnce (List.replicate 43 (GStep.worker 0))).mem.trace =
      naturalRun 0 ∧
    slot (grun openedOnce (List.replicate 43 (GStep.worker 0))).mem 1 = none :=
  have hr : greachable openedOnce := ⟨_, rfl⟩
  have hf : Event.load 0 true ∉
      (grun openedOnce (List.replicate 43 (GStep.worker 0))).mem.trace := by
    decide
  have h := natural_completion openedOnce hr 0 { self := 0, pc := Pc.start } (by decide)
    (List.replicate 43 (GStep.worker 0)) (by decide) hf
  ⟨hr, by decide, by decide, hf, h.2.1,
    (h.2.2.2.2.2.2.2.2.2.1 (by decide) (by decide)).1⟩

/-! ## The sequential machine is the general machine with uninterrupted calls -/

theorem sameProcess_Open {st m : State} (h : sameProcess st m) (t : Nat) :
    sameProcess (Socket.Open mainThread st).2 (Socket.Open (Thread.caller t) m).2 := by
  obtain ⟨h1, h2, h3, h4⟩ := h
  rw [Open_snd, Open_snd]
  exact ⟨by simp [h1, h2], by simp [h1, h2], by simp [h2, h3],
    by simp [h1, h4, Event.anonymous, mainThread]⟩

theorem sameProcess_closed {st m : State} (h : sameProcess st m) (who : Thread) (i : Nat) :
    sameProcess (Socket.closed who st i) (Socket.closed who m i) := by
  obtain ⟨h1, h2, h3, h4⟩ := h
  have hl : lockSlot st i = lockSlot m i := by
    unfold lockSlot
    rw [h1]
    cases m.sSocketPtrs[i]? with
    | none => rfl
    | some pS =>
      cases pS with
      | none => rfl
      | some a => simp [WeakPtr.lock, h2]
  rw [closed_eq_of_Close (Close_eq who st i), closed_eq_of_Close (Close_eq who m i), h1, hl]
  by_cases hg : 0 < i ∧ i < m.sSocketPtrs.length
  · rw [if_pos hg, if_pos hg]
    cases lockSlot m i with
    | none => exact ⟨by simp [h1], by simp [h2], by simp [h3], by simp [h4]⟩
    | some s => exact ⟨h1, by simp [setQuit, h2], h3, h4⟩
  · rw [if_neg hg, if_neg hg]
    exact ⟨h1, h2, h3, h4⟩

theorem sameProcess_readStep {st m : State} (h : sameProcess st m) (k : Nat) :
    sameProcess (Socket.readStep st k) (Socket.readStep m k) := by
  obtain ⟨h1, h2, h3, h4⟩ := h
  cases hw : m.workers[k]? with
  | none =>
    rw [readStep_none hw, readStep_none (by rw [h3]; exact hw)]
    exact ⟨h1, h2, h3, h4⟩
  | some w =>
    have hw1 : st.workers[k]? = some w := by rw [h3]; exact hw
    have hq : Socket.quit st w.self = Socket.quit m w.self := by simp [Socket.quit, h2]
    cases hpc : w.pc with
    | start =>
      rw [readStep_start hw hpc, readStep_start hw1 hpc]
      exact ⟨by simp [h1], by simp [h2], by simp [h3], by simp [h4]⟩
    | loopHead i =>
      by_cases hi : i < seconds * 10
      · cases hqm : Socket.quit m w.self with
        | true =>
          rw [readStep_poll_true hw hpc hi hqm, readStep_poll_true hw1 hpc hi (hq.trans hqm)]
          exact ⟨by simp [h1], by simp [h2], by simp [h3], by simp [h4]⟩
        | false =>
          rw [readStep_poll_false hw hpc hi hqm, readStep_poll_false hw1 hpc hi (hq.trans hqm)]
          exact ⟨by simp [h1], by simp [h2], by simp [h3], by simp [h4]⟩
      · rw [readStep_loop_exit hw hpc hi, readStep_loop_exit hw1 hpc hi]
        exact ⟨by simp [h1], by simp [h2], by simp [h3], by simp [h4]⟩
    | sleeping i =>
      rw [readStep_sleeping hw hpc, readStep_sleeping hw1 hpc]
      exact ⟨by simp [h1], by simp [h2], by simp [h3], by simp [h4]⟩
    | returned =>
      rw [readStep_returned hw hpc, readStep_returned hw1 hpc]
      refine ⟨by simp [h1], by simp [h2], by simp [h3], ?_⟩
      simp only [setPc_trace, release_trace, h2]
      cases m.heap[w.self]? with
      | none => exact h4
      | some o =>
        simp only []
        split
        · simp [h4]
        · exact h4
    | done =>
      rw [readStep_done hw hpc, readStep_done hw1 hpc]
      exact ⟨h1, h2, h3, h4⟩

/-- The calls of `Close` never touch the calls of `Open`. -/
theorem close_cstate (g : GState) (who h : Nat) :
    ((closeEnter g who h).callers = g.callers ∧
      (closeEnter g who h).sSktCreationMutex = g.sSktCreationMutex) ∧
    ((closeStep g).callers = g.callers ∧
      (closeStep g).sSktCreationMutex = g.sSktCreationMutex) := by
  constructor
  · rw [closeEnter_eq]
    cases g.closing with
    | some cp => exact ⟨rfl, rfl⟩
    | none =>
      by_cases hg : 0 < h ∧ h < g.mem.sSocketPtrs.length
      · rw [if_pos hg]
        cases lockSlot g.mem h <;> exact ⟨rfl, rfl⟩
      · rw [if_neg hg]
        exact ⟨rfl, rfl⟩
  · unfold closeStep
    cases g.closing with
    | none => exact ⟨rfl, rfl⟩
    | some cp => cases cp <;> exact ⟨rfl, rfl⟩

theorem closeCall_cstate (g : GState) (who h : Nat) :
    (grun g (closeCall who h [] [])).callers = g.callers ∧
    (grun g (closeCall who h [] [])).sSktCreationMutex = g.sSktCreationMutex := by
  have hrun : grun g (closeCall who h [] []) =
      closeStep (closeStep (closeEnter g who h)) := rfl
  rw [hrun]
  have a := (close_cstate g who h).1
  have b := (close_cstate (closeEnter g who h) who h).2
  have c := (close_cstate (closeStep (closeEnter g who h)) who h).2
  exact ⟨c.1.trans (b.1.trans a.1), c.2.trans (b.2.trans a.2)⟩

/-- After an uninterrupted call of `Open` the creation mutex is free again and
there is one more call. -/
theorem openCall_cstate (g : GState) (hm : g.sSktCreationMutex = none)
    (hc : g.closing = none) :
    (grun g (openCall g.callers.length)).sSktCreationMutex = none ∧
    (grun g (openCall g.callers.length)).closing = none ∧
    (grun g (openCall g.callers.length)).callers.length = g.callers.length + 1 := by
  have hrun : grun g (openCall g.callers.length) =
      grun (gstep g GStep.callOpen) (List.replicate 7 (GStep.openStep g.callers.length)) := by
    unfold openCall grun
    rw [List.foldl_cons]
  rw [hrun, grun_openSteps (gstep g GStep.callOpen) hc]
  refine ⟨?_, hc, ?_⟩
  · show (crun (gstep g GStep.callOpen).toCState _).sSktCreationMutex = none
    simp [crun, List.replicate, cstep, callerStep, gstep, hm]
  · show (crun (gstep g GStep.callOpen).toCState _).callers.length = _
    rw [crun_callers_length]
    simp [gstep]

/-- Every run of the sequential machine is a run of the general machine, the
one in which every call executes all its actions in a row: the two end in the
same registry, the same heap, the same detached threads and the same log (up
to the names of the calling threads). -/
theorem exec_refines_general (st : State) (g : GState) (hsame : sameProcess st g.mem)
    (hm : g.sSktCreationMutex = none) (hc : g.closing = none) (steps : List Step) :
    sameProcess (exec st steps) (grun g (scheduleOf g.callers.length steps)).mem := by
  induction steps generalizing st g with
  | nil => exact hsame
  | cons x rest ih =>
    cases x with
    | callOpen =>
      obtain ⟨c1, c2, c3⟩ := openCall_cstate g hm hc
      have hmem := (uninterrupted_Open g hm hc).1
      have := ih (step st Step.callOpen) (grun g (openCall g.callers.length))
        (by rw [hmem]; exact sameProcess_Open hsame _) c1 c2
      rw [c3] at this
      show sameProcess (exec (step st Step.callOpen) rest) _
      simp only [scheduleOf]
      rw [grun_append]
      exact this
    | callClose h =>
      obtain ⟨c1, c2⟩ := closeCall_cstate g 0 h
      obtain ⟨hmem, c3⟩ := uninterrupted_Close g hc 0 h
      have := ih (step st (Step.callClose h)) (grun g (closeCall 0 h [] []))
        (by rw [hmem]; exact sameProcess_closed hsame _ h) (c2.trans hm) c3
      rw [c1] at this
      show sameProcess (exec (step st (Step.callClose h)) rest) _
      simp only [scheduleOf]
      rw [grun_append]
      exact this
    | worker k =>
      exact ih (step st (Step.worker k)) (gstep g (GStep.worker k))
        (sameProcess_readStep hsame k) hm hc

/-- Every state of the sequential machine is reached by the general machine. -/
theorem exec_greachable (steps : List Step) :
    ∃ g, greachable g ∧ sameProcess (exec init steps) g.mem :=
  ⟨grun ginit (scheduleOf 0 steps), ⟨_, rfl⟩,
    exec_refines_general init ginit ⟨rfl, rfl, rfl, rfl⟩ rfl rfl steps⟩

end ValgrindedSockets
